import Mathlib

/-!
Verification development for the EPUB-combining engine of `epub_combiner.py`
(repository EpubCombiner).

The Python strings and byte contents are modelled as lists of natural numbers
(`Str`), one number per character / byte.  This keeps every operation
executable and lets the kernel evaluate concrete runs.  Modelling conventions,
each noted again at its definition:

* `str.lower()` is modelled on the ASCII range (the inputs exercised by the
  claims are ASCII);
* `urllib.parse.unquote` is modelled byte-wise: each `%XX` hex escape becomes
  the single code point `XX` (Python additionally UTF-8-decodes the resulting
  byte string; for ASCII results the two agree);
* the MD5 content fingerprint is modelled as the byte content itself, i.e. as
  a collision-free fingerprint (the spec treats fingerprint collisions as an
  accepted risk outside the model);
* `utf-8`-decoding with `errors='replace'` followed by re-encoding is the
  identity on the byte lists of the model;
* Python `set` iteration order is unspecified; the model fixes it to the
  insertion (list) order at each place a set is iterated;
* `os.walk` lists each directory's entries in an unspecified order; the model
  fixes the listing order to be sorted.
-/

/-- Strings / byte contents: one natural number per character. -/
abbrev Str := List Nat

/-- Conversion from Lean string literals, used to write concrete inputs. -/
def ofStr (x : String) : Str := x.data.map Char.toNat

/-- Character codes used throughout (slash, backslash, dot, percent, ...). -/
def SLASH : Nat := 47
def BSLASH : Nat := 92
def DOT : Nat := 46
def PERCENT : Nat := 37
def NL : Nat := 10

/-- `path.replace('\\', '/')`. -/
def replBS (p : Str) : Str := p.map (fun c => if c = BSLASH then SLASH else c)

/-- ASCII model of `str.lower()` on one character. -/
def lowerC (c : Nat) : Nat := if 65 ≤ c ∧ c ≤ 90 then c + 32 else c

/-- ASCII model of `str.lower()`. -/
def lowerS (s : Str) : Str := s.map lowerC

/-- Python whitespace (`str.strip()` default set, `\s` of `re`), ASCII part. -/
def isWs (c : Nat) : Bool := c = 32 || c = 9 || c = 10 || c = 13 || c = 12 || c = 11

/-- `s.lstrip()` (leading whitespace). -/
def lstripWs (s : Str) : Str := s.dropWhile isWs

/-- `s.strip()`. -/
def stripWs (s : Str) : Str := ((s.dropWhile isWs).reverse.dropWhile isWs).reverse

/-- `s.split('/')` — separator split keeping empty pieces. -/
def splitSlash : Str → List Str
  | [] => [[]]
  | c :: r =>
    let rest := splitSlash r
    if c = SLASH then [] :: rest
    else
      match rest with
      | [] => [[c]]
      | h :: t => (c :: h) :: t

/-- `'/'.join(parts)`. -/
def joinSlash : List Str → Str
  | [] => []
  | [x] => x
  | x :: r => x ++ SLASH :: joinSlash r

/-- One step of the segment-folding loop of `_posix_norm`: `.` and empty
segments dropped, `..` pops the last collected segment. -/
def segStep (acc : List Str) (p : Str) : List Str :=
  if p = [] ∨ p = [DOT] then acc
  else if p = [DOT, DOT] then acc.dropLast
  else acc ++ [p]

/-- The segment-folding loop of `_posix_norm`. -/
def foldSegs (segs : List Str) : List Str := segs.foldl segStep []

/-- `_posix_norm`: replace backslashes, strip leading slashes, fold segments. -/
def posixNorm (path : Str) : Str :=
  let p := replBS path
  let p := if p.head? = some SLASH then p.dropWhile (fun c => c = SLASH) else p
  joinSlash (foldSegs (splitSlash p))

/-- Value of one hex digit, if any. -/
def hexVal (c : Nat) : Option Nat :=
  if 48 ≤ c ∧ c ≤ 57 then some (c - 48)
  else if 65 ≤ c ∧ c ≤ 70 then some (c - 55)
  else if 97 ≤ c ∧ c ≤ 102 then some (c - 87)
  else none

/-- Byte-wise model of `urllib.parse.unquote`: each `%XX` hex escape becomes
code point `XX`; malformed escapes are kept verbatim. -/
def unquoteS : Str → Str
  | 37 :: a :: b :: r =>
    match hexVal a, hexVal b with
    | some x, some y => (16 * x + y) :: unquoteS r
    | _, _ => 37 :: unquoteS (a :: b :: r)
  | c :: r => c :: unquoteS r
  | [] => []

/-- `_norm_key`: canonical key — backslash replacement, URL-decode,
posix normalization, lowercase. -/
def normKey (path : Str) : Str := lowerS (posixNorm (unquoteS (replBS path)))

/-- `_split_ref_suffix`: split at the first `?` or `#`, suffix kept verbatim. -/
def splitRefSuffix (ref : Str) : Str × Str :=
  if ref = [] then ([], [])
  else
    match List.findIdx? (fun c => c == 63 || c == 35) ref with
    | none => (ref, [])
    | some i => (ref.take i, ref.drop i)

/-! ### `pathlib.PurePosixPath` pieces

`Path(x).name`, `.parent`, `.suffix`, `.stem` are modelled through the posix
component list: split on `/`, dropping empty and `.` components (and keeping
`..`), with a flag for absolute paths. -/

/-- Component list of `PurePosixPath(p)` plus absoluteness flag. -/
def pyParts (p : Str) : Bool × List Str :=
  (p.head? = some SLASH, (splitSlash p).filter (fun s => s ≠ [] ∧ s ≠ [DOT]))

/-- `Path(p).name`. -/
def pyName (p : Str) : Str := ((pyParts p).2).getLastD []

/-- `str(Path(p).parent)`. -/
def pyParentStr (p : Str) : Str :=
  let ab := (pyParts p).1
  let parts := ((pyParts p).2).dropLast
  if parts = [] then (if ab then [SLASH] else [DOT])
  else if ab then SLASH :: joinSlash parts else joinSlash parts

/-- Index of the last `.` of a name, if any (`name.rfind('.')`). -/
def lastDotIdx (n : Str) : Option Nat :=
  (List.findIdx? (fun c => c == DOT) n.reverse).map (fun j => n.length - 1 - j)

/-- `Path(p).suffix`: extension of the final component, dot included; empty
when the dot is leading, trailing or absent. -/
def pySuffix (p : Str) : Str :=
  let n := pyName p
  match lastDotIdx n with
  | some i => if 0 < i ∧ i < n.length - 1 then n.drop i else []
  | none => []

/-- `Path(p).stem`: final component without its suffix. -/
def pyStem (p : Str) : Str :=
  let n := pyName p
  n.take (n.length - (pySuffix p).length)

/-! ### File classification (`XHTML_EXTENSIONS` and friends) -/

def xhtmlExts : List Str := [ofStr ".xhtml", ofStr ".html", ofStr ".htm", ofStr ".xml"]

def imageExts : List Str :=
  [ofStr ".png", ofStr ".jpg", ofStr ".jpeg", ofStr ".gif", ofStr ".svg",
   ofStr ".webp", ofStr ".bmp", ofStr ".tif", ofStr ".tiff"]

def styleExts : List Str := [ofStr ".css"]

def fontExts : List Str := [ofStr ".ttf", ofStr ".otf", ofStr ".woff", ofStr ".woff2"]

/-- `_is_content_file`. -/
def isContentFile (n : Str) : Bool := xhtmlExts.contains (lowerS (pySuffix n))

/-- `_is_image_file`. -/
def isImageFile (n : Str) : Bool := imageExts.contains (lowerS (pySuffix n))

/-- `_is_style_file`. -/
def isStyleFile (n : Str) : Bool := styleExts.contains (lowerS (pySuffix n))

/-- `_is_font_file`. -/
def isFontFile (n : Str) : Bool := fontExts.contains (lowerS (pySuffix n))

/-- `s.endswith(t)`. -/
def endsWith (t s : Str) : Bool := t.isSuffixOf s

/-- `_is_nav_doc`. -/
def isNavDoc (n : Str) : Bool :=
  let lower := lowerS n
  let stem := pyStem lower
  endsWith (ofStr "nav.xhtml") lower || endsWith (ofStr "nav.html") lower ||
    stem == ofStr "nav"

/-- `_is_toc_doc`. -/
def isTocDoc (n : Str) : Bool :=
  let lower := lowerS n
  let stem := pyStem lower
  endsWith (ofStr "toc.ncx") lower || endsWith (ofStr "toc.xhtml") lower ||
    endsWith (ofStr "toc.html") lower || stem == ofStr "toc"

/-- Association-list lookup (first match wins), used for Python dicts. -/
def lookupA (d : List (Str × Str)) (k : Str) : Option Str :=
  (d.find? (fun e => e.1 == k)).map (fun e => e.2)

/-- `MIMETYPE_MAP`. -/
def mimeMap : List (Str × Str) :=
  [(ofStr ".xhtml", ofStr "application/xhtml+xml"),
   (ofStr ".html", ofStr "application/xhtml+xml"),
   (ofStr ".htm", ofStr "application/xhtml+xml"),
   (ofStr ".xml", ofStr "application/xhtml+xml"),
   (ofStr ".css", ofStr "text/css"),
   (ofStr ".png", ofStr "image/png"),
   (ofStr ".jpg", ofStr "image/jpeg"),
   (ofStr ".jpeg", ofStr "image/jpeg"),
   (ofStr ".gif", ofStr "image/gif"),
   (ofStr ".svg", ofStr "image/svg+xml"),
   (ofStr ".webp", ofStr "image/webp"),
   (ofStr ".bmp", ofStr "image/bmp"),
   (ofStr ".tif", ofStr "image/tiff"),
   (ofStr ".tiff", ofStr "image/tiff"),
   (ofStr ".ttf", ofStr "font/ttf"),
   (ofStr ".otf", ofStr "font/otf"),
   (ofStr ".woff", ofStr "font/woff"),
   (ofStr ".woff2", ofStr "font/woff2"),
   (ofStr ".ncx", ofStr "application/x-dtbncx+xml")]

/-- `_media_type`. -/
def mediaType (n : Str) : Str :=
  (lookupA mimeMap (lowerS (pySuffix n))).getD (ofStr "application/octet-stream")

/-- Decimal digit expansion with fuel (so that it reduces in the kernel). -/
def natStrGo : Nat → Nat → Str
  | 0, _ => []
  | fu+1, n => if n = 0 then [] else natStrGo fu (n / 10) ++ [48 + n % 10]

/-- Decimal representation, modelling Python `f"{n}"`. -/
def natStr (n : Nat) : Str := if n = 0 then [48] else natStrGo (n + 1) n

/-! ### `_AssetMapper` -/

/-- Python-dict insert: overwrite in place if the key exists, else append. -/
def dInsert (d : List (Str × Str)) (k v : Str) : List (Str × Str) :=
  if d.any (fun e => e.1 == k) then d.map (fun e => if e.1 == k then (k, v) else e)
  else d ++ [(k, v)]

/-- `setdefault(k, set()).add(v)`: the per-basename candidate sets, modelled as
insertion-ordered duplicate-free lists. -/
def tInsert (d : List (Str × List Str)) (k : Str) (v : Str) : List (Str × List Str) :=
  if d.any (fun e => e.1 == k) then
    d.map (fun e => if e.1 == k then (k, if e.2.contains v then e.2 else e.2 ++ [v]) else e)
  else d ++ [(k, [v])]

/-- Lookup in the basename-target table. -/
def lookupT (d : List (Str × List Str)) (k : Str) : Option (List Str) :=
  (d.find? (fun e => e.1 == k)).map (fun e => e.2)

/-- `_AssetMapper`: per-source map from original asset paths to combined hrefs. -/
structure Mapper where
  map : List (Str × Str)
  basenameTargets : List (Str × List Str)
  basenameMap : List (Str × Str)
deriving DecidableEq

def Mapper.empty : Mapper := ⟨[], [], []⟩

/-- `_AssetMapper.add`. -/
def Mapper.add (m : Mapper) (originalZipPath newHref : Str) : Mapper :=
  let key := normKey originalZipPath
  let m1 := if key ≠ [] then { m with map := dInsert m.map key newHref } else m
  let base := pyName (replBS originalZipPath)
  let bkey := normKey base
  if bkey ≠ [] then { m1 with basenameTargets := tInsert m1.basenameTargets bkey newHref }
  else m1

/-- `b: next(iter(targets))` restricted to singleton target sets. -/
def singleOf (e : Str × List Str) : Option (Str × Str) :=
  match e.2 with
  | [v] => some (e.1, v)
  | _ => none

/-- `_AssetMapper.finalize`: keep only basenames with exactly one distinct
candidate href. -/
def Mapper.finalizeM (m : Mapper) : Mapper :=
  { m with basenameMap := m.basenameTargets.filterMap singleOf }

/-- `startswith` over a tuple of alternatives. -/
def startsAny (s : Str) (alts : List Str) : Bool :=
  alts.any (fun a => a.isPrefixOf s)

/-- The external-scheme tuple of `_AssetMapper.lookup`. -/
def externalSchemes : List Str :=
  [ofStr "http://", ofStr "https://", ofStr "mailto:", ofStr "tel:", ofStr "data:"]

/-- `_AssetMapper.lookup`, translated step for step from the source. -/
def Mapper.lookup (m : Mapper) (oldRef contentPath : Str) : Option Str :=
  if oldRef = [] then none
  else
    let bs := splitRefSuffix oldRef
    let suffix := bs.2
    let base0 := stripWs bs.1
    if base0 = [] then none
    else if startsAny base0 externalSchemes then none
    else if base0.head? = some 35 then none
    else
      let base := replBS base0
      let contentDir := posixNorm (replBS (pyParentStr contentPath))
      let candidates : List Str :=
        [normKey base] ++
          (if contentDir ≠ [] ∧ base.head? ≠ some SLASH then
            [normKey (contentDir ++ SLASH :: base)]
          else if contentDir = [] ∧ base.head? ≠ some SLASH then [normKey base]
          else [])
      match candidates.findSome? (fun c => lookupA m.map c) with
      | some v => some (v ++ suffix)
      | none =>
        let bkey := normKey (pyName base)
        match lookupA m.basenameMap bkey with
        | some v => some (v ++ suffix)
        | none => none

/-- The lookup contract as the specification words it: reject empty,
external-scheme and fragment-only refs; try the canonical ref as-is, then the
canonical ref resolved against the containing document's directory (an
absolute ref resolves to itself); finally the unambiguous-basename fallback;
the query/fragment suffix is appended verbatim to any match. -/
def lookupSpec (m : Mapper) (oldRef contentPath : Str) : Option Str :=
  let bs := splitRefSuffix oldRef
  let suffix := bs.2
  let base0 := stripWs bs.1
  if base0 = [] ∨ startsAny base0 externalSchemes ∨ base0.head? = some 35 then none
  else
    let base := replBS base0
    let contentDir := posixNorm (replBS (pyParentStr contentPath))
    let resolved :=
      if base.head? = some SLASH then base
      else if contentDir = [] then base
      else contentDir ++ SLASH :: base
    match lookupA m.map (normKey base) with
    | some v => some (v ++ suffix)
    | none =>
      match lookupA m.map (normKey resolved) with
      | some v => some (v ++ suffix)
      | none =>
        match lookupA m.basenameMap (normKey (pyName base)) with
        | some v => some (v ++ suffix)
        | none => none

/-- A mapper built from a sequence of `add` calls followed by `finalize`,
the way `combine_epubs` builds one per source. -/
def mkMapper (adds : List (Str × Str)) : Mapper :=
  (adds.foldl (fun m a => m.add a.1 a.2) Mapper.empty).finalizeM

/-! ### Sorting (Python `sorted` on strings = lexicographic by code point) -/

/-- Lexicographic order on code-point lists, as Python compares strings. -/
def lexLe : Str → Str → Bool
  | [], _ => true
  | _ :: _, [] => false
  | a :: as_, b :: bs_ => if a < b then true else if a = b then lexLe as_ bs_ else false

/-- Insert into a sorted list. -/
def insLe (x : Str) : List Str → List Str
  | [] => [x]
  | y :: r => if lexLe x y then x :: y :: r else y :: insLe x r

/-- Insertion sort, modelling `sorted`. -/
def isort : List Str → List Str
  | [] => []
  | x :: r => insLe x (isort r)

/-- First-occurrence deduplication; models the identity of a Python `set`
built from a list (iteration order abstracted to first-insertion order). -/
def dedupFirst : List Str → List Str
  | [] => []
  | x :: r => x :: (dedupFirst r).filter (fun y => y ≠ x)

/-! ### The regex passes of `_rewrite_css_refs` / `_rewrite_asset_refs`

Each Python regex is modelled by an explicit scanner that matches at one
position (returning the groups and the remaining input), and each `re.sub`
by a fuelled left-to-right scan: on a match, emit the replacement and resume
after the match; otherwise copy one character.  Fuel is the input length,
which suffices because every match consumes at least one character. -/

/-- Case-insensitive literal prefix (pattern given lowercase); returns the
matched original characters and the rest. -/
def ciPrefix (pat s : Str) : Option (Str × Str) :=
  let t := s.take pat.length
  if lowerS t = pat ∧ t.length = pat.length then some (t, s.drop pat.length) else none

/-- Greedy `\s*`: (whitespace-run, rest). -/
def takeWs (s : Str) : Str × Str := (s.takeWhile isWs, s.dropWhile isWs)

/-- A regex word character (`\w`, ASCII part), for `\b` boundaries. -/
def isWordC (c : Nat) : Bool :=
  (48 ≤ c && c ≤ 57) || (65 ≤ c && c ≤ 90) || (97 ≤ c && c ≤ 122) || c = 95

/-- Lazy `(.*?)q`: shortest run (newline-free unless `allowNl`) up to the
quote `q`; returns (run, rest-after-quote). -/
def scanToQuote (q : Nat) (allowNl : Bool) : Str → Option (Str × Str)
  | [] => none
  | c :: r =>
    if c = q then some ([], r)
    else if c = NL ∧ ¬allowNl then none
    else (scanToQuote q allowNl r).map (fun p => (c :: p.1, p.2))

/-- `[^>]*>`: run of non-`>` characters then `>`. -/
def scanToGt : Str → Option (Str × Str)
  | [] => none
  | c :: r => if c = 62 then some ([], r) else (scanToGt r).map (fun p => (c :: p.1, p.2))

/-- Lazy scan for a case-insensitive literal (DOTALL): (body, literal as
matched, rest). -/
def scanToCi (pat : Str) : Str → Option (Str × Str × Str)
  | [] => none
  | c :: r =>
    match ciPrefix pat (c :: r) with
    | some (p, rest) => some ([], p, rest)
    | none => (scanToCi pat r).map (fun t => (c :: t.1, t.2.1, t.2.2))

/-- One match of `((?:xlink:)?(?:src|href|poster))\s*=\s*(['\"])(.*?)\2`
(IGNORECASE, no DOTALL). -/
structure AttrM where
  g1 : Str
  ws1 : Str
  ws2 : Str
  q : Nat
  val : Str
  rest : Str
deriving DecidableEq

/-- `src|href|poster` alternation, first alternative wins. -/
def attrAlt (s : Str) : Option (Str × Str) :=
  match ciPrefix (ofStr "src") s with
  | some r => some r
  | none =>
    match ciPrefix (ofStr "href") s with
    | some r => some r
    | none => ciPrefix (ofStr "poster") s

/-- `(?:xlink:)?(?:src|href|poster)`: greedy optional prefix with backtracking. -/
def attrNameAt (s : Str) : Option (Str × Str) :=
  match ciPrefix (ofStr "xlink:") s with
  | some (p1, r1) =>
    (match attrAlt r1 with
     | some (p2, r2) => some (p1 ++ p2, r2)
     | none => attrAlt s)
  | none => attrAlt s

def matchAttrAt (s : Str) : Option AttrM :=
  match attrNameAt s with
  | none => none
  | some (g1, r1) =>
    match (takeWs r1).2 with
    | c0 :: r2 =>
      if c0 = 61 then
        match (takeWs r2).2 with
        | c :: r3 =>
          if c = 34 ∨ c = 39 then
            match scanToQuote c false r3 with
            | some (v, rest) => some ⟨g1, (takeWs r1).1, (takeWs r2).1, c, v, rest⟩
            | none => none
          else none
        | [] => none
      else none
    | [] => none

/-- `match.group(0)` of an attribute match. -/
def attrWhole (r : AttrM) : Str :=
  r.g1 ++ r.ws1 ++ 61 :: r.ws2 ++ r.q :: r.val ++ [r.q]

/-- `_attr_repl`: skip absolute/anchor refs, else substitute the mapper's
result, else keep the match unchanged. -/
def attrRepl (m : Mapper) (cp : Str) (r : AttrM) : Str :=
  if startsAny (lstripWs r.val) (externalSchemes ++ [[35]]) then attrWhole r
  else
    match m.lookup r.val cp with
    | none => attrWhole r
    | some newRef => r.g1 ++ 61 :: r.q :: newRef ++ [r.q]

/-- Generic `re.sub` with a callable replacement: scan left to right, on a
match emit the replacement and resume after the match, else copy one
character.  Fuel bounds the recursion; callers pass the input length, which
suffices because every match consumes at least one character. -/
def subPass {M : Type} (matcher : Str → Option M) (repl : M → Str) (restOf : M → Str) :
    Nat → Str → Str
  | _, [] => []
  | 0, s => s
  | fu+1, c :: r =>
    match matcher (c :: r) with
    | some mt => repl mt ++ subPass matcher repl restOf fu (restOf mt)
    | none => c :: subPass matcher repl restOf fu r

def attrPass (m : Mapper) (cp : Str) : Nat → Str → Str :=
  subPass matchAttrAt (attrRepl m cp) (fun mt => mt.rest)

/-- One match of `word\s*=\s*(['\"])(.*?)\1` (IGNORECASE, DOTALL), used for
the `srcset` and `style` attribute passes. -/
structure QAttrM where
  g1 : Str
  ws1 : Str
  ws2 : Str
  q : Nat
  val : Str
  rest : Str
deriving DecidableEq

def matchWordEq (word : Str) (s : Str) : Option QAttrM :=
  match ciPrefix word s with
  | none => none
  | some (g1, r1) =>
    match (takeWs r1).2 with
    | c0 :: r2 =>
      if c0 = 61 then
        match (takeWs r2).2 with
        | c :: r3 =>
          if c = 34 ∨ c = 39 then
            match scanToQuote c true r3 with
            | some (v, rest) => some ⟨g1, (takeWs r1).1, (takeWs r2).1, c, v, rest⟩
            | none => none
          else none
        | [] => none
      else none
    | [] => none

def qattrWhole (r : QAttrM) : Str :=
  r.g1 ++ r.ws1 ++ 61 :: r.ws2 ++ r.q :: r.val ++ [r.q]

/-- `s.split(',')`. -/
def splitComma : Str → List Str
  | [] => [[]]
  | c :: r =>
    let rest := splitComma r
    if c = 44 then [] :: rest
    else
      match rest with
      | [] => [[c]]
      | h :: t => (c :: h) :: t

/-- `s.split()` (whitespace tokenisation, empties dropped). -/
def wsTokensGo (cur : Str) : Str → List Str
  | [] => if cur = [] then [] else [cur.reverse]
  | c :: r =>
    if isWs c then (if cur = [] then wsTokensGo [] r else cur.reverse :: wsTokensGo [] r)
    else wsTokensGo (c :: cur) r

def wsTokens (s : Str) : List Str := wsTokensGo [] s

def joinWith (sep : Str) : List Str → Str
  | [] => []
  | [x] => x
  | x :: r => x ++ sep ++ joinWith sep r

/-- `_srcset_repl`: rebuild the whole attribute from its comma-separated
candidates (this re-serialisation happens even when nothing resolves). -/
def srcsetRepl (m : Mapper) (cp : Str) (r : QAttrM) : Str :=
  let parts := ((splitComma r.val).map stripWs).filter (fun p => p ≠ [])
  let outParts := parts.filterMap (fun p =>
    match wsTokens p with
    | [] => none
    | url :: restBits =>
      let rest := joinWith [32] restBits
      let newUrl := (m.lookup url cp).getD url
      some (stripWs (newUrl ++ (if rest = [] then [] else 32 :: rest))))
  ofStr "srcset=" ++ r.q :: joinWith (ofStr ", ") outParts ++ [r.q]

def srcsetPass (m : Mapper) (cp : Str) : Nat → Str → Str :=
  subPass (matchWordEq (ofStr "srcset")) (srcsetRepl m cp) (fun mt => mt.rest)

/-! CSS: `url\(\s*(?P<q>['\"]?)(?P<u>.*?)(?P=q)\s*\)` and
`@import\s+(?P<q>['\"])(?P<u>.*?)(?P=q)` (both IGNORECASE, no DOTALL). -/

/-- `\s*\)` at the head: (whitespace, rest-after-paren). -/
def closeParen (s : Str) : Option (Str × Str) :=
  let w := takeWs s
  match w.2 with
  | 41 :: r => some (w.1, r)
  | _ => none

/-- Lazy quoted url body: shortest newline-free run to a closing quote that is
followed by `\s*\)`; a quote not followed by `\s*\)` is swallowed by the lazy
group. Returns (body, trailing whitespace, rest-after-paren). -/
def scanQuotedUrl (q : Nat) : Str → Option (Str × Str × Str)
  | [] => none
  | c :: r =>
    match (if c = q then closeParen r else none) with
    | some (w, rr) => some ([], w, rr)
    | none =>
      if c = NL then none
      else (scanQuotedUrl q r).map (fun t => (c :: t.1, t.2.1, t.2.2))

/-- Lazy bare url body (empty-quote branch of the pattern): shortest
newline-free run up to `\s*\)`. -/
def scanBareUrl : Str → Option (Str × Str × Str)
  | [] => none
  | c :: r =>
    match closeParen (c :: r) with
    | some (w, rr) => some ([], w, rr)
    | none =>
      if c = NL then none
      else (scanBareUrl r).map (fun t => (c :: t.1, t.2.1, t.2.2))

structure CssUrlM where
  p1 : Str
  ws1 : Str
  q : Option Nat
  u : Str
  ws2 : Str
  rest : Str
deriving DecidableEq

def matchCssUrlAt (s : Str) : Option CssUrlM :=
  match ciPrefix (ofStr "url(") s with
  | none => none
  | some (p1, r1) =>
    match (takeWs r1).2 with
    | [] => none
    | c :: r2 =>
      if c = 34 ∨ c = 39 then
        match scanQuotedUrl c r2 with
        | some (u, w2, rest) => some ⟨p1, (takeWs r1).1, some c, u, w2, rest⟩
        | none =>
          match scanBareUrl (c :: r2) with
          | some (u, w2, rest) => some ⟨p1, (takeWs r1).1, none, u, w2, rest⟩
          | none => none
      else
        match scanBareUrl (c :: r2) with
        | some (u, w2, rest) => some ⟨p1, (takeWs r1).1, none, u, w2, rest⟩
        | none => none

def cssUrlWhole (r : CssUrlM) : Str :=
  let qs : Str := match r.q with | some c => [c] | none => []
  r.p1 ++ r.ws1 ++ qs ++ r.u ++ qs ++ r.ws2 ++ [41]

/-- `_url_repl`. -/
def cssUrlRepl (m : Mapper) (cp : Str) (r : CssUrlM) : Str :=
  let uStr := stripWs r.u
  if uStr = [] ∨ startsAny uStr [ofStr "data:", ofStr "http://", ofStr "https://"] then
    cssUrlWhole r
  else
    match m.lookup uStr cp with
    | none => cssUrlWhole r
    | some newU =>
      let qs : Str := match r.q with | some c => [c] | none => []
      ofStr "url(" ++ qs ++ newU ++ qs ++ [41]

def cssUrlPass (m : Mapper) (cp : Str) : Nat → Str → Str :=
  subPass matchCssUrlAt (cssUrlRepl m cp) (fun mt => mt.rest)

structure CssImpM where
  p1 : Str
  ws1 : Str
  q : Nat
  u : Str
  rest : Str
deriving DecidableEq

def matchCssImpAt (s : Str) : Option CssImpM :=
  match ciPrefix (ofStr "@import") s with
  | none => none
  | some (p1, r1) =>
    if (takeWs r1).1 = [] then none
    else
      match (takeWs r1).2 with
      | c :: r2 =>
        if c = 34 ∨ c = 39 then
          match scanToQuote c false r2 with
          | some (u, rest) => some ⟨p1, (takeWs r1).1, c, u, rest⟩
          | none => none
        else none
      | [] => none

def cssImpWhole (r : CssImpM) : Str :=
  r.p1 ++ r.ws1 ++ r.q :: r.u ++ [r.q]

/-- `_import_repl`. -/
def cssImpRepl (m : Mapper) (cp : Str) (r : CssImpM) : Str :=
  let u := stripWs r.u
  if u = [] ∨ startsAny u [ofStr "data:", ofStr "http://", ofStr "https://"] then cssImpWhole r
  else
    match m.lookup u cp with
    | none => cssImpWhole r
    | some newU => ofStr "@import " ++ r.q :: newU ++ [r.q]

def cssImpPass (m : Mapper) (cp : Str) : Nat → Str → Str :=
  subPass matchCssImpAt (cssImpRepl m cp) (fun mt => mt.rest)

/-- `_rewrite_css_refs`: the `url(...)` pass, then the `@import` pass. -/
def rewriteCssRefs (css : Str) (m : Mapper) (cp : Str) : Str :=
  let c1 := cssUrlPass m cp css.length css
  cssImpPass m cp c1.length c1

/-- `_style_attr_repl`: rebuild `style={q}{rewritten}{q}` (spacing around `=`
is dropped even when nothing inside resolves). -/
def styleAttrRepl (m : Mapper) (cp : Str) (r : QAttrM) : Str :=
  ofStr "style=" ++ r.q :: rewriteCssRefs r.val m cp ++ [r.q]

def styleAttrPass (m : Mapper) (cp : Str) : Nat → Str → Str :=
  subPass (matchWordEq (ofStr "style")) (styleAttrRepl m cp) (fun mt => mt.rest)

/-- One match of `(<style\b[^>]*>)(.*?)(</style>)` (IGNORECASE, DOTALL). -/
structure BlockM where
  g1 : Str
  body : Str
  g3 : Str
  rest : Str
deriving DecidableEq

def matchStyleBlockAt (s : Str) : Option BlockM :=
  match ciPrefix (ofStr "<style") s with
  | none => none
  | some (p1, r1) =>
    if (r1.head?.map isWordC).getD false then none
    else
      match scanToGt r1 with
      | none => none
      | some (attrs, r2) =>
        match scanToCi (ofStr "</style>") r2 with
        | some (body, cl, rest) => some ⟨p1 ++ attrs ++ [62], body, cl, rest⟩
        | none => none

/-- `_style_block_repl`: only the body is rewritten. -/
def styleBlockRepl (m : Mapper) (cp : Str) (r : BlockM) : Str :=
  r.g1 ++ rewriteCssRefs r.body m cp ++ r.g3

def styleBlockPass (m : Mapper) (cp : Str) : Nat → Str → Str :=
  subPass matchStyleBlockAt (styleBlockRepl m cp) (fun mt => mt.rest)

/-- `_rewrite_asset_refs`: the four passes in source order. -/
def rewriteAssetRefs (html : Str) (m : Mapper) (cp : Str) : Str :=
  let h1 := attrPass m cp html.length html
  let h2 := srcsetPass m cp h1.length h1
  let h3 := styleAttrPass m cp h2.length h2
  styleBlockPass m cp h3.length h3

/-! ### `_strip_tags`, `html.unescape`, `_extract_doc_label`, `_detect_toc_heading` -/

/-- Leftmost-match search with fuel (`re.search`). -/
def findFirstA {α : Type} (f : Str → Option α) : Nat → Str → Option α
  | 0, _ => none
  | fu+1, s =>
    match f s with
    | some r => some r
    | none =>
      match s with
      | [] => none
      | _ :: r => findFirstA f fu r

/-- `<title\b[^>]*>(.*?)</title>` (IGNORECASE, DOTALL): group 1 and rest. -/
def matchTitleAt (s : Str) : Option (Str × Str) :=
  match ciPrefix (ofStr "<title") s with
  | none => none
  | some (_, r1) =>
    if (r1.head?.map isWordC).getD false then none
    else
      match scanToGt r1 with
      | none => none
      | some (_, r2) =>
        match scanToCi (ofStr "</title>") r2 with
        | some (body, _, rest) => some (body, rest)
        | none => none

/-- `</h[1-6]>`. -/
def matchHClose (s : Str) : Option (Str × Str) :=
  match ciPrefix (ofStr "</h") s with
  | none => none
  | some (p, r) =>
    match r with
    | d :: 62 :: rr => if 49 ≤ d ∧ d ≤ 54 then some (p ++ [d, 62], rr) else none
    | _ => none

/-- Lazy body up to the first `</h[1-6]>`. -/
def scanToHClose : Str → Option (Str × Str)
  | [] => none
  | c :: r =>
    match matchHClose (c :: r) with
    | some (_, rest) => some ([], rest)
    | none => (scanToHClose r).map (fun p => (c :: p.1, p.2))

/-- `<h[1-6]\b[^>]*>(.*?)</h[1-6]>` (IGNORECASE, DOTALL). -/
def matchHeadingAt (s : Str) : Option (Str × Str) :=
  match ciPrefix (ofStr "<h") s with
  | none => none
  | some (_, r1) =>
    match r1 with
    | [] => none
    | d :: r2 =>
      if 49 ≤ d ∧ d ≤ 54 then
        if (r2.head?.map isWordC).getD false then none
        else
          match scanToGt r2 with
          | none => none
          | some (_, r3) =>
            match scanToHClose r3 with
            | some (body, rest) => some (body, rest)
            | none => none
      else none

/-- `_strip_tags`: `re.sub(r"<[^>]+>", "", s)` (fuelled). -/
def stripTagsGo : Nat → Str → Str
  | 0, s => s
  | _+1, [] => []
  | fu+1, c :: r =>
    if c = 60 then
      match scanToGt r with
      | some (inner, rest) => if inner = [] then c :: stripTagsGo fu r else stripTagsGo fu rest
      | none => c :: stripTagsGo fu r
    else c :: stripTagsGo fu r

def stripTags (s : Str) : Str := stripTagsGo s.length s

/-- The standard XML/HTML entities; `html.unescape` is modelled on these and
on decimal `&#NN;` escapes (the full named-entity table is outside the model). -/
def namedEnts : List (Str × Nat) :=
  [(ofStr "amp;", 38), (ofStr "lt;", 60), (ofStr "gt;", 62),
   (ofStr "quot;", 34), (ofStr "apos;", 39), (ofStr "nbsp;", 160)]

/-- Decimal run value, for `&#NN;`. -/
def decVal : Str → Option Nat
  | [] => none
  | l => if l.all (fun c => 48 ≤ c && c ≤ 57) then
           some (l.foldl (fun a c => 10 * a + (c - 48)) 0)
         else none

/-- Entity after a `&`: (code point, rest). -/
def entAt (s : Str) : Option (Nat × Str) :=
  match namedEnts.find? (fun e => e.1.isPrefixOf s) with
  | some e => some (e.2, s.drop e.1.length)
  | none =>
    match s with
    | 35 :: r =>
      let ds := r.takeWhile (fun c => 48 ≤ c && c ≤ 57)
      match decVal ds, r.drop ds.length with
      | some v, 59 :: rest => some (v, rest)
      | _, _ => none
    | _ => none

/-- Model of `html.unescape` (see `namedEnts`). -/
def unescHtmlGo : Nat → Str → Str
  | 0, s => s
  | _+1, [] => []
  | fu+1, c :: r =>
    if c = 38 then
      match entAt r with
      | some (code, rest) => code :: unescHtmlGo fu rest
      | none => c :: unescHtmlGo fu r
    else c :: unescHtmlGo fu r

def unescHtml (s : Str) : Str := unescHtmlGo s.length s

/-- `re.sub(r"\s+", " ", t)` (fuelled). -/
def collapseWsGo : Nat → Str → Str
  | 0, s => s
  | _+1, [] => []
  | fu+1, c :: r =>
    if isWs c then 32 :: collapseWsGo fu (r.dropWhile isWs) else c :: collapseWsGo fu r

def collapseWs (s : Str) : Str := collapseWsGo s.length s

/-- `_extract_doc_label`: `<title>` first, else first `<h1..h6>`; tags
stripped, entities unescaped, whitespace collapsed. -/
def extractDocLabel (xhtml : Str) : Str :=
  if xhtml = [] then []
  else
    let fromGroup (g : Str) : Str :=
      let t := stripWs (unescHtml (stripTags g))
      if t ≠ [] then collapseWs t else []
    let fromTitle :=
      match findFirstA matchTitleAt (xhtml.length + 1) xhtml with
      | some (g, _) => fromGroup g
      | none => []
    if fromTitle ≠ [] then fromTitle
    else
      match findFirstA matchHeadingAt (xhtml.length + 1) xhtml with
      | some (g, _) => fromGroup g
      | none => []

/-! ### Sources and configuration -/

/-- One stored archive entry.  `readable = false` models an entry whose
`zf.read` raises (truncated/unsupported member). -/
structure Entry where
  name : Str
  data : Str
  readable : Bool
deriving DecidableEq

/-- One input archive: validity flag (`zipfile.is_zipfile`), entry list
(`namelist` order), and the result of `_get_spine_order` on its package
document (the XML parsing itself is abstracted into this field; a source
whose OPF is missing or unparsable has `spine = []`). -/
structure Source where
  isZip : Bool
  entries : List Entry
  spine : List Str
deriving DecidableEq

/-- `zf.read(name)` by entry name (the last entry wins for duplicated names,
as in `zipfile`'s name table); `none` models the raised exception. -/
def Source.readE (s : Source) (n : Str) : Option Str :=
  match s.entries.reverse.find? (fun e => e.name == n) with
  | some e => if e.readable then some e.data else none
  | none => none

/-- `_detect_toc_heading`. -/
def detectTocHeading (src : Source) : Str :=
  let names := (src.entries.map (fun e => e.name)).map replBS
  let candidates := names.filter (fun n =>
    let low := lowerS n
    let base := pyName low
    let stem := pyStem low
    (base == ofStr "nav.xhtml" || base == ofStr "nav.html" ||
       base == ofStr "toc.xhtml" || base == ofStr "toc.html") ||
      ((stem == ofStr "nav" || stem == ofStr "toc" || stem == ofStr "contents" ||
          stem == ofStr "content") && xhtmlExts.contains (pySuffix low)))
  let ordered := dedupFirst candidates
  (ordered.findSome? (fun c =>
    match src.readE c with
    | none => none
    | some text =>
      let l := extractDocLabel text
      if l = [] then none else some l)).getD []

/-- The configuration parameters of `combine_epubs` consumed by the model. -/
structure Config where
  title : Str
  tocHeadingMode : Str
  tocHeadingFixed : Str
  useChapterTitles : Bool
  excludeNavDocs : Bool
  excludeTocDocs : Bool
deriving DecidableEq

/-! ### Package-document builders -/

/-- `_xml_escape`. -/
def xmlEscape (s : Str) : Str :=
  s.flatMap (fun c =>
    if c = 38 then ofStr "&amp;"
    else if c = 60 then ofStr "&lt;"
    else if c = 62 then ofStr "&gt;"
    else if c = 34 then ofStr "&quot;"
    else [c])

/-- One manifest item (`manifest_items` dict); `props = []` means absent. -/
structure Item where
  id : Str
  href : Str
  mt : Str
  props : Str
deriving DecidableEq

/-- `'\n'.join(lines)`. -/
def joinNl (lines : List Str) : Str := joinWith [NL] lines

/-- `f"Section {num}"`. -/
def sectionLabel (num : Nat) : Str := ofStr "Section " ++ natStr num

/-- `_build_nav_xhtml`. -/
def buildNavXhtml (title : Str) (spineLabels : List Str) (tocHeading : Str) : Str :=
  let th := stripWs (if tocHeading = [] then ofStr "Contents" else tocHeading)
  let items := (spineLabels.enumFrom 1).map (fun p =>
    let safeLabel := xmlEscape (if p.2 = [] then sectionLabel p.1 else p.2)
    ofStr "        <li><a href=\"" ++ natStr p.1 ++ ofStr ".xhtml\">" ++ safeLabel ++
      ofStr "</a></li>")
  ofStr "<?xml version=\"1.0\" encoding=\"UTF-8\"?>\n" ++
  ofStr "<!DOCTYPE html>\n" ++
  ofStr "<html xmlns=\"http://www.w3.org/1999/xhtml\" xmlns:epub=\"http://www.idpf.org/2007/ops\">\n" ++
  ofStr "<head>\n" ++
  ofStr "  <title>" ++ xmlEscape title ++ ofStr " - " ++ xmlEscape th ++ ofStr "</title>\n" ++
  ofStr "  <meta charset=\"utf-8\"/>\n" ++
  ofStr "</head>\n" ++
  ofStr "<body>\n" ++
  ofStr "  <h1>" ++ xmlEscape title ++ ofStr "</h1>\n" ++
  ofStr "  <nav epub:type=\"toc\" id=\"toc\">\n" ++
  ofStr "    <h2>" ++ xmlEscape th ++ ofStr "</h2>\n" ++
  ofStr "    <ol>\n" ++
  joinNl items ++ [NL] ++
  ofStr "    </ol>\n" ++
  ofStr "  </nav>\n" ++
  ofStr "</body>\n" ++
  ofStr "</html>\n"

/-- `_build_content_opf` (the modification timestamp is the `ts` argument). -/
def buildContentOpf (title uid : Str) (manifestItems : List Item) (spineIds : List Str)
    (ts : Str) : Str :=
  let headLines : List Str :=
    [ofStr "<?xml version=\"1.0\" encoding=\"UTF-8\"?>",
     ofStr "<package xmlns=\"http://www.idpf.org/2007/opf\" unique-identifier=\"BookId\" version=\"3.0\">",
     ofStr "  <metadata xmlns:dc=\"http://purl.org/dc/elements/1.1/\">",
     ofStr "    <dc:title>" ++ xmlEscape title ++ ofStr "</dc:title>",
     ofStr "    <dc:identifier id=\"BookId\">urn:uuid:" ++ uid ++ ofStr "</dc:identifier>",
     ofStr "    <dc:language>en</dc:language>",
     ofStr "    <meta property=\"dcterms:modified\">" ++ ts ++ ofStr "</meta>",
     ofStr "  </metadata>",
     ofStr "  <manifest>",
     ofStr "    <item id=\"ncx\" href=\"toc.ncx\" media-type=\"application/x-dtbncx+xml\"/>"]
  let itemLines := manifestItems.map (fun it =>
    let propAttr :=
      if it.props ≠ [] then ofStr " properties=\"" ++ xmlEscape it.props ++ [34] else []
    ofStr "    <item id=\"" ++ xmlEscape it.id ++ ofStr "\" href=\"" ++ xmlEscape it.href ++
      [34] ++ propAttr ++ ofStr " media-type=\"" ++ it.mt ++ ofStr "\"/>")
  let spineLines := spineIds.map (fun sid =>
    ofStr "    <itemref idref=\"" ++ xmlEscape sid ++ ofStr "\"/>")
  joinNl (headLines ++ itemLines ++ [ofStr "  </manifest>", ofStr "  <spine toc=\"ncx\">"] ++
    spineLines ++ [ofStr "  </spine>", ofStr "</package>"]) ++ [NL]

/-- `_build_toc_ncx`. -/
def buildTocNcx (title uid : Str) (spineIds : List Str) (spineLabels : List Str) : Str :=
  let headLines : List Str :=
    [ofStr "<?xml version=\"1.0\" encoding=\"UTF-8\"?>",
     ofStr "<ncx xmlns=\"http://www.daisy.org/z3986/2005/ncx/\" version=\"2005-1\">",
     ofStr "  <head>",
     ofStr "    <meta name=\"dtb:uid\" content=\"urn:uuid:" ++ uid ++ ofStr "\"/>",
     ofStr "    <meta name=\"dtb:depth\" content=\"1\"/>",
     ofStr "    <meta name=\"dtb:totalPageCount\" content=\"0\"/>",
     ofStr "    <meta name=\"dtb:maxPageNumber\" content=\"0\"/>",
     ofStr "  </head>",
     ofStr "  <docTitle><text>" ++ xmlEscape title ++ ofStr "</text></docTitle>",
     ofStr "  <navMap>"]
  let navLines := (spineIds.enumFrom 1).flatMap (fun p =>
    let label := spineLabels.getD (p.1 - 1) (sectionLabel p.1)
    [ofStr "    <navPoint id=\"nav_" ++ natStr p.1 ++ ofStr "\" playOrder=\"" ++ natStr p.1 ++
       ofStr "\">",
     ofStr "      <navLabel><text>" ++ xmlEscape label ++ ofStr "</text></navLabel>",
     ofStr "      <content src=\"Text/" ++ natStr p.1 ++ ofStr ".xhtml\"/>",
     ofStr "    </navPoint>"])
  joinNl (headLines ++ navLines ++ [ofStr "  </navMap>", ofStr "</ncx>"]) ++ [NL]

/-- The fixed `container.xml` template. -/
def containerXml : Str :=
  ofStr "<?xml version=\"1.0\" encoding=\"UTF-8\"?>\n" ++
  ofStr "<container version=\"1.0\" xmlns=\"urn:oasis:names:tc:opendocument:xmlns:container\">\n" ++
  ofStr "  <rootfiles>\n" ++
  ofStr "    <rootfile full-path=\"OEBPS/content.opf\" media-type=\"application/oebps-package+xml\"/>\n" ++
  ofStr "  </rootfiles>\n" ++
  ofStr "</container>\n"

/-! ### The `combine_epubs` pipeline -/

/-- Accumulated run state: the counters, dedup tables, manifest, spine and
output-tree files of `combine_epubs`, plus `imgAsg`, the per-image-entry
`(content, assigned name)` trace taken from the `mapper.add` calls. -/
structure RunSt where
  htmlCounter : Nat
  imgUsed : List (Str × Str)
  fontUsed : List (Str × Str)
  styleUsed : List (Str × Str)
  manifest : List Item
  spineIds : List Str
  spineLabels : List Str
  files : List (Str × Str)
  imgAsg : List (Str × Str)
  tocHeading : Str
deriving DecidableEq

/-- Content-file qualification, i.e. the `all_content` filter. -/
def qualifies (cfg : Config) (n : Str) : Bool :=
  isContentFile n && !(cfg.excludeNavDocs && isNavDoc n) &&
    !(cfg.excludeTocDocs && isTocDoc n)

def allContentOf (cfg : Config) (src : Source) : List Str :=
  (src.entries.map (fun e => e.name)).filter (qualifies cfg)

/-- The spine-matching loop: for each spine entry take the first remaining
candidate equal to it outright or after backslash replacement (the iteration
order of the Python `remaining` set is modelled as list order). -/
def msStep (p : List Str × List Str) (sp : Str) : List Str × List Str :=
  match p.2.find? (fun cand => cand == sp || replBS cand == replBS sp) with
  | some cand => (p.1 ++ [cand], p.2.erase cand)
  | none => p

def matchSpine (spine : List Str) (allContent : List Str) : List Str × List Str :=
  spine.foldl msStep ([], allContent)

/-- `ordered_content`: spine-matched entries first, leftovers sorted. -/
def orderedContent (cfg : Config) (src : Source) : List Str :=
  let p := matchSpine src.spine (dedupFirst (allContentOf cfg src))
  p.1 ++ isort p.2

/-- One step of the image-collection loop (MD5 modelled as the content itself;
an asset entry's bytes are read directly — a failing asset read aborts the
Python run and is treated in the effect model of the error-handling claim). -/
def ciStep (p : RunSt × Mapper) (e : Entry) : RunSt × Mapper :=
  if isImageFile e.name then
    let st := p.1
    let h := e.data
    match lookupA st.imgUsed h with
    | some newName =>
      ({ st with imgAsg := st.imgAsg ++ [(h, newName)] },
        p.2.add e.name (ofStr "../Images/" ++ newName))
    | none =>
      let ext := lowerS (pySuffix e.name)
      let newName := ofStr "img_" ++ natStr (st.imgUsed.length + 1) ++ ext
      ({ st with
          imgUsed := st.imgUsed ++ [(h, newName)]
          files := st.files ++ [(ofStr "OEBPS/Images/" ++ newName, e.data)]
          manifest := st.manifest ++
            [⟨ofStr "img_" ++ natStr (st.imgUsed.length + 1), ofStr "Images/" ++ newName,
              mediaType newName, []⟩]
          imgAsg := st.imgAsg ++ [(h, newName)] },
        p.2.add e.name (ofStr "../Images/" ++ newName))
  else p

/-- The image-collection loop. -/
def collectImages (st : RunSt) (m : Mapper) (entries : List Entry) : RunSt × Mapper :=
  entries.foldl ciStep (st, m)

/-- One step of the font-collection loop. -/
def cfStep (p : RunSt × Mapper) (e : Entry) : RunSt × Mapper :=
  if isFontFile e.name then
    let st := p.1
    let h := e.data
    match lookupA st.fontUsed h with
    | some newName => (st, p.2.add e.name (ofStr "../Fonts/" ++ newName))
    | none =>
      let ext := lowerS (pySuffix e.name)
      let newName := ofStr "font_" ++ natStr (st.fontUsed.length + 1) ++ ext
      ({ st with
          fontUsed := st.fontUsed ++ [(h, newName)]
          files := st.files ++ [(ofStr "OEBPS/Fonts/" ++ newName, e.data)]
          manifest := st.manifest ++
            [⟨ofStr "font_" ++ natStr (st.fontUsed.length + 1), ofStr "Fonts/" ++ newName,
              mediaType newName, []⟩] },
        p.2.add e.name (ofStr "../Fonts/" ++ newName))
  else p

/-- The font-collection loop. -/
def collectFonts (st : RunSt) (m : Mapper) (entries : List Entry) : RunSt × Mapper :=
  entries.foldl cfStep (st, m)

/-- One step of the stylesheet loop: rewrite the sheet's own refs first,
fingerprint the rewritten bytes (decode/encode with `errors='replace'` is the
identity on the byte lists of the model). -/
def csStep (p : RunSt × Mapper) (e : Entry) : RunSt × Mapper :=
  if isStyleFile e.name then
    let st := p.1
    let css := rewriteCssRefs e.data p.2 e.name
    let h := css
    match lookupA st.styleUsed h with
    | some newName => (st, p.2.add e.name (ofStr "../Styles/" ++ newName))
    | none =>
      let newName := ofStr "style_" ++ natStr (st.styleUsed.length + 1) ++ ofStr ".css"
      ({ st with
          styleUsed := st.styleUsed ++ [(h, newName)]
          files := st.files ++ [(ofStr "OEBPS/Styles/" ++ newName, css)]
          manifest := st.manifest ++
            [⟨ofStr "css_" ++ natStr (st.styleUsed.length + 1), ofStr "Styles/" ++ newName,
              ofStr "text/css", []⟩] },
        p.2.add e.name (ofStr "../Styles/" ++ newName))
  else p

/-- The stylesheet loop. -/
def collectStyles (st : RunSt) (m : Mapper) (entries : List Entry) : RunSt × Mapper :=
  entries.foldl csStep (st, m)

/-- `content_new_name`: the pre-computed `old path ↦ new file` pairs. -/
def contentNewName (startNum : Nat) (ordered : List Str) : List (Str × Str) :=
  (ordered.enumFrom 1).map (fun p => (p.2, natStr (startNum + p.1) ++ ofStr ".xhtml"))

/-- One step of the content-processing loop: an unreadable entry is skipped
(the `try/except: continue`), a readable one is labelled, rewritten and
emitted. -/
def pcStep (cfg : Config) (src : Source) (mp : Mapper) (startNum : Nat)
    (st : RunSt) (p : Nat × (Str × Str)) : RunSt :=
  let num := startNum + p.1
  let cname := p.2.1
  let newFile := p.2.2
  let itemId := ofStr "chapter_" ++ natStr num
  match src.readE cname with
  | none => st
  | some raw =>
    let label :=
      if cfg.useChapterTitles then
        (let l := extractDocLabel raw
         if l = [] then sectionLabel num else l)
      else sectionLabel num
    let text := rewriteAssetRefs raw mp cname
    { st with
        files := st.files ++ [(ofStr "OEBPS/Text/" ++ newFile, text)]
        manifest := st.manifest ++
          [⟨itemId, ofStr "Text/" ++ newFile, ofStr "application/xhtml+xml", []⟩]
        spineIds := st.spineIds ++ [itemId]
        spineLabels := st.spineLabels ++ [label] }

/-- The content-processing loop. -/
def processContent (cfg : Config) (src : Source) (mp : Mapper) (startNum : Nat)
    (cnn : List (Str × Str)) (st : RunSt) : RunSt :=
  (cnn.enumFrom 1).foldl (pcStep cfg src mp startNum) st

/-- The `toc_heading` adjustment made on the first valid source when the
heading mode is `source`. -/
def tocAdjust (cfg : Config) (idx : Nat) (st : RunSt) (src : Source) : RunSt :=
  if cfg.tocHeadingMode == ofStr "source" && idx = 0 then
    (let d := detectTocHeading src
     if d ≠ [] then { st with tocHeading := d } else st)
  else st

/-- One iteration of the main source loop (an invalid archive is skipped). -/
def processSource (cfg : Config) (idx : Nat) (st : RunSt) (src : Source) : RunSt :=
  if !src.isZip then st
  else
    let st := tocAdjust cfg idx st src
    let ordered := orderedContent cfg src
    let pi := collectImages st Mapper.empty src.entries
    let pf := collectFonts pi.1 pi.2 src.entries
    let mp1 := pf.2.finalizeM
    let ps := collectStyles pf.1 mp1 src.entries
    let startNum := ps.1.htmlCounter
    let cnn := contentNewName startNum ordered
    let mp2 := (cnn.foldl (fun m p => m.add p.1 (ofStr "../Text/" ++ p.2)) ps.2).finalizeM
    let st2 := processContent cfg src mp2 startNum cnn ps.1
    { st2 with htmlCounter := startNum + ordered.length }

def initialRunSt (cfg : Config) : RunSt :=
  { htmlCounter := 0, imgUsed := [], fontUsed := [], styleUsed := [], manifest := [],
    spineIds := [], spineLabels := [], files := [], imgAsg := [],
    tocHeading := stripWs (if cfg.tocHeadingFixed = [] then ofStr "Contents" else cfg.tocHeadingFixed) }

/-- One step of the main source loop. -/
def loopStep (cfg : Config) (st : RunSt) (p : Nat × Source) : RunSt :=
  processSource cfg p.1 st p.2

/-- The main source loop of `combine_epubs`. -/
def combineLoop (srcs : List Source) (cfg : Config) : RunSt :=
  srcs.enum.foldl (loopStep cfg) (initialRunSt cfg)

/-- The run up to (and including) writing `nav.xhtml`, `mimetype` and
`container.xml` — everything that does not depend on the generated UUID or
the modification timestamp. -/
def combineCore (srcs : List Source) (cfg : Config) : RunSt :=
  let st := combineLoop srcs cfg
  let nav := buildNavXhtml cfg.title st.spineLabels st.tocHeading
  { st with
      files := st.files ++
        [(ofStr "OEBPS/Text/nav.xhtml", nav),
         (ofStr "mimetype", ofStr "application/epub+zip"),
         (ofStr "META-INF/container.xml", containerXml)]
      manifest := st.manifest ++
        [⟨ofStr "nav", ofStr "Text/nav.xhtml", ofStr "application/xhtml+xml", ofStr "nav"⟩] }

/-- The full run: `uid` stands for `str(uuid.uuid4())` and `ts` for
`_now_utc()`, passed in as parameters of the model. -/
def combineModel (srcs : List Source) (cfg : Config) (uid ts : Str) : RunSt :=
  let st := combineCore srcs cfg
  { st with
      files := st.files ++
        [(ofStr "OEBPS/content.opf", buildContentOpf cfg.title uid st.manifest st.spineIds ts),
         (ofStr "OEBPS/toc.ncx", buildTocNcx cfg.title uid st.spineIds st.spineLabels)] }

/-! ### `_pack_epub` -/

def hasSlash (s : Str) : Bool := s.contains SLASH

def headSeg (s : Str) : Str := s.takeWhile (fun c => c ≠ SLASH)

def tailSeg (s : Str) : Str := (s.dropWhile (fun c => c ≠ SLASH)).tail

/-- `os.walk` order over the relative paths of a tree: each directory yields
its direct files sorted (`sorted(files)`), then recurses into its
subdirectories; the OS listing order of the subdirectories is unspecified and
modelled as sorted. -/
def walkGo : Nat → Str → List Str → List Str
  | 0, _, _ => []
  | fu+1, dirPath, paths =>
    let direct := isort (paths.filter (fun p => !hasSlash p))
    let subs := isort (dedupFirst ((paths.filter hasSlash).map headSeg))
    direct.map (fun f => dirPath ++ f) ++
      subs.flatMap (fun d =>
        walkGo fu (dirPath ++ d ++ [SLASH])
          (((paths.filter hasSlash).filter (fun p => headSeg p = d)).map tailSeg))

def walkOrder (names : List Str) : List Str :=
  walkGo (names.foldl (fun a s => a + s.length) 0 + names.length + 1) [] names

/-- One output-archive entry: name, deflate flag, bytes. -/
structure ZEntry where
  name : Str
  deflated : Bool
  data : Str
deriving DecidableEq

/-- `_pack_epub`: `mimetype` written first and stored, everything else in walk
order with the default `ZIP_DEFLATED` compression, `mimetype` skipped. -/
def packModel (files : List (Str × Str)) : List ZEntry :=
  let names := files.map (fun f => f.1)
  ZEntry.mk (ofStr "mimetype") false ((lookupA files (ofStr "mimetype")).getD []) ::
    ((walkOrder names).filter (fun n => n ≠ ofStr "mimetype")).map
      (fun n => ⟨n, true, (lookupA files n).getD []⟩)

/-- The archive produced by one full run. -/
def archiveModel (srcs : List Source) (cfg : Config) (uid ts : Str) : List ZEntry :=
  packModel (combineModel srcs cfg uid ts).files

/-! ### Effect skeleton of `combine_epubs` (for the atomicity claim) -/

inductive DestState where
  | absent
  | partialFile
  | complete
deriving DecidableEq

structure FxState where
  tmpAlive : Bool
  dest : DestState
deriving DecidableEq

/-- The externally visible operations of one run, in program order:
`tempfile.mkdtemp`; the reads/writes against the working directory; opening
the destination (`zipfile.ZipFile(output_path, 'w')` creates/truncates the
file); the entry writes; the close that completes the archive. -/
inductive FxOp where
  | mkTmp
  | tmpWrite
  | openDest
  | destWrite
  | closeDest
deriving DecidableEq

def applyOp (st : FxState) : FxOp → FxState
  | FxOp.mkTmp => { st with tmpAlive := true }
  | FxOp.tmpWrite => st
  | FxOp.openDest => { st with dest := DestState.partialFile }
  | FxOp.destWrite => st
  | FxOp.closeDest => { st with dest := DestState.complete }

def combineOps (preOps packOps : Nat) : List FxOp :=
  FxOp.mkTmp :: List.replicate preOps FxOp.tmpWrite ++ [FxOp.openDest] ++
    List.replicate packOps FxOp.destWrite ++ [FxOp.closeDest]

/-- Run the operations; operation `i` raises when `failAt = some i`, stopping
execution there (second component: `true` = returned normally). -/
def runOps (st : FxState) (i : Nat) (failAt : Option Nat) : List FxOp → FxState × Bool
  | [] => (st, true)
  | op :: rest =>
    if failAt = some i then (st, false)
    else runOps (applyOp st op) (i + 1) failAt rest

/-- One run of the effect skeleton: the `try/finally` removes the working
directory on every path on which `mkdtemp` ran. -/
def runCombineFx (preOps packOps : Nat) (failAt : Option Nat) : FxState × Bool :=
  let r := runOps ⟨false, DestState.absent⟩ 0 failAt (combineOps preOps packOps)
  if r.1.tmpAlive then ({ r.1 with tmpAlive := false }, r.2) else r

/-! ### Derived projections and concrete example inputs -/

/-- The image files written into the output tree. -/
def imgFiles (st : RunSt) : List (Str × Str) :=
  st.files.filter (fun f => (ofStr "OEBPS/Images/").isPrefixOf f.1)

/-- The image items of the combined manifest. -/
def imgItems (st : RunSt) : List Item :=
  st.manifest.filter (fun it => (ofStr "Images/").isPrefixOf it.href)

/-- The names of the content files written under `OEBPS/Text/`. -/
def textNames (st : RunSt) : List Str :=
  (st.files.filter (fun f => (ofStr "OEBPS/Text/").isPrefixOf f.1)).map (fun f => f.1)

def mkTextName (n : Nat) : Str := ofStr "OEBPS/Text/" ++ natStr n ++ ofStr ".xhtml"

def mkChapterId (n : Nat) : Str := ofStr "chapter_" ++ natStr n

/-- Number of qualifying (deduplicated) content entries a source contributes. -/
def perSourceCount (cfg : Config) (src : Source) : Nat :=
  if src.isZip then (orderedContent cfg src).length else 0

def totalContent (cfg : Config) (srcs : List Source) : Nat :=
  (srcs.map (perSourceCount cfg)).sum

/-- Every qualifying content entry of every valid source can be read. -/
def allReadable (cfg : Config) (srcs : List Source) : Prop :=
  ∀ src ∈ srcs, src.isZip = true → ∀ n ∈ orderedContent cfg src, (src.readE n).isSome

/-- Default configuration: the defaults of `combine_epubs`'s signature. -/
def cfgDefault : Config :=
  { title := ofStr "Combined EPUB", tocHeadingMode := ofStr "fixed",
    tocHeadingFixed := ofStr "Contents", useChapterTitles := true,
    excludeNavDocs := true, excludeTocDocs := true }

/-- Example source: two chapters and an image, with a spine. -/
def srcShared1 : Source :=
  { isZip := true,
    entries :=
      [⟨ofStr "OEBPS/b.xhtml", ofStr "<p><img src=\"a.png\"/></p>", true⟩,
       ⟨ofStr "OEBPS/a.xhtml", ofStr "<title>ChA</title>", true⟩,
       ⟨ofStr "OEBPS/a.png", ofStr "IMGBYTES", true⟩],
    spine := [ofStr "OEBPS/a.xhtml", ofStr "OEBPS/b.xhtml"] }

/-- Example source: one chapter plus the same image bytes under another name. -/
def srcShared2 : Source :=
  { isZip := true,
    entries :=
      [⟨ofStr "x.xhtml", ofStr "<p>hi</p>", true⟩,
       ⟨ofStr "pic.png", ofStr "IMGBYTES", true⟩],
    spine := [ofStr "x.xhtml"] }

/-- Example source whose first qualifying entry cannot be read. -/
def srcUnread : Source :=
  { isZip := true,
    entries :=
      [⟨ofStr "a.xhtml", ofStr "A", false⟩,
       ⟨ofStr "b.xhtml", ofStr "B", true⟩],
    spine := [ofStr "a.xhtml", ofStr "b.xhtml"] }

/-- Example source that is not a valid ZIP archive. -/
def srcInvalid : Source := { isZip := false, entries := [], spine := [] }

/-- Decimal valuation, the left inverse of `natStr`. -/
def decodeDec (s : Str) : Nat := s.foldl (fun a c => 10 * a + (c - 48)) 0

/-- A fixed two-source example run (shared image bytes under two names). -/
def exArchive : List ZEntry :=
  archiveModel [srcShared1, srcShared2] cfgDefault
    (ofStr "11111111-2222-3333-4444-555555555555") (ofStr "2025-01-01T00:00:00Z")


/-- The image-dedup invariant carried by the run state: every `mapper.add`
assignment comes from the `images_used` table, table keys (contents) are
unique, the written image files and manifest items are exactly one per table
entry, and the `k`-th assigned name is `img_(k+1)` plus a dot-led extension. -/
def imgInv (st : RunSt) : Prop :=
  (∀ pr ∈ st.imgAsg, pr ∈ st.imgUsed) ∧
  (st.imgUsed.map (fun e => e.1)).Nodup ∧
  imgFiles st = st.imgUsed.map (fun e => (ofStr "OEBPS/Images/" ++ e.2, e.1)) ∧
  imgItems st = (st.imgUsed.enumFrom 1).map (fun q =>
    ⟨ofStr "img_" ++ natStr q.1, ofStr "Images/" ++ q.2.2, mediaType q.2.2, []⟩) ∧
  (∀ k, (hk : k < st.imgUsed.length) → ∃ ext,
    (st.imgUsed.get ⟨k, hk⟩).2 = ofStr "img_" ++ natStr (k + 1) ++ ext ∧
    ext.head? = some DOT)


/-- One step of spine matching as the SPEC words it ("exact or normalized-path
equality"): a candidate matches a spine entry when equal outright or under the
canonical-key normalization `normKey`. This definition follows the claim text,
not the source, and exists only to compare against the source-derived
`msStep`. -/
def msStepSpec (p : List Str × List Str) (sp : Str) : List Str × List Str :=
  match p.2.find? (fun cand => cand == sp || normKey cand == normKey sp) with
  | some cand => (p.1 ++ [cand], p.2.erase cand)
  | none => p

/-- Spine matching as the spec words it (see `msStepSpec`). -/
def matchSpineSpec (spine : List Str) (allContent : List Str) : List Str × List Str :=
  spine.foldl msStepSpec ([], allContent)

/-- Per-source order as the spec words it: spec-matched entries first,
leftovers sorted. -/
def orderedContentSpec (cfg : Config) (src : Source) : List Str :=
  let p := matchSpineSpec src.spine (dedupFirst (allContentOf cfg src))
  p.1 ++ isort p.2

/-- Example source whose spine names its entry in URL-encoded form: equal to
the entry under canonical-key normalization, but not textually and not after
backslash replacement. -/
def srcEnc : Source :=
  { isZip := true,
    entries :=
      [⟨ofStr "b.xhtml", ofStr "B", true⟩,
       ⟨ofStr "a.xhtml", ofStr "A", true⟩],
    spine := [ofStr "b%2Exhtml"] }


/-! # Theorems -/

/-! ## C9 — fatal-failure atomicity -/

theorem runOps_none_eq : ∀ (ops : List FxOp) (st : FxState) (i : Nat),
    runOps st i none ops = (List.foldl applyOp st ops, true) := by
  intro ops
  induction ops with
  | nil => intro st i; rfl
  | cons op rest ih =>
    intro st i
    simp only [runOps, List.foldl_cons]
    have hne : (none : Option Nat) = some i ↔ False := by simp
    rw [if_neg (by simp)]
    exact ih (applyOp st op) (i + 1)

theorem runOps_some_eq (j : Nat) : ∀ (ops : List FxOp) (st : FxState) (i : Nat),
    runOps st i (some j) ops =
      if i ≤ j ∧ j - i < ops.length then
        (List.foldl applyOp st (ops.take (j - i)), false)
      else (List.foldl applyOp st ops, true) := by
  intro ops
  induction ops with
  | nil =>
    intro st i
    simp [runOps]
  | cons op rest ih =>
    intro st i
    by_cases hj : j = i
    · subst hj
      simp [runOps]
    · have h1 : ¬((some j : Option Nat) = some i) := by simpa using fun h => hj h
      simp only [runOps, if_neg h1]
      rw [ih (applyOp st op) (i + 1)]
      by_cases h2 : i + 1 ≤ j ∧ j - (i + 1) < rest.length
      · rw [if_pos h2, if_pos (by constructor <;> [omega; (simp only [List.length_cons]; omega)])]
        have ht : (op :: rest).take (j - i) = op :: rest.take (j - (i + 1)) := by
          have : j - i = (j - (i + 1)) + 1 := by omega
          rw [this, List.take_succ_cons]
        rw [ht, List.foldl_cons]
      · rw [if_neg h2, if_neg (by simp only [List.length_cons]; omega), List.foldl_cons]

theorem foldl_tmpWrite_eq (st : FxState) : ∀ n,
    List.foldl applyOp st (List.replicate n FxOp.tmpWrite) = st := by
  intro n
  induction n with
  | zero => rfl
  | succ k ih => simpa [List.replicate_succ, applyOp] using ih

theorem foldl_destWrite_eq (st : FxState) : ∀ n,
    List.foldl applyOp st (List.replicate n FxOp.destWrite) = st := by
  intro n
  induction n with
  | zero => rfl
  | succ k ih => simpa [List.replicate_succ, applyOp] using ih

/-- C9, amended: a counterexample below shows that a failure during archive
writing leaves a partial file at the destination, so the claim holds in this
amended form — the working directory is released on every termination path;
a failure at or before the working-directory stage (operation index `≤ pre`,
i.e. before the destination is opened) leaves no file at the destination; and
a run without failure completes the destination file. -/
theorem c9_cleanup_amended (pre pk : Nat) (f : Option Nat) :
    (runCombineFx pre pk f).1.tmpAlive = false ∧
    (∀ i, f = some i → i ≤ pre → runCombineFx pre pk f = (⟨false, DestState.absent⟩, false)) ∧
    (f = none → runCombineFx pre pk f = (⟨false, DestState.complete⟩, true)) := by
  have hsplit : combineOps pre pk =
      (FxOp.mkTmp :: List.replicate pre FxOp.tmpWrite) ++
        ([FxOp.openDest] ++ (List.replicate pk FxOp.destWrite ++ [FxOp.closeDest])) := by
    simp [combineOps]
  have hlen : (combineOps pre pk).length = pre + pk + 3 := by
    rw [hsplit]
    simp
    omega
  refine ⟨?_, ?_, ?_⟩
  · unfold runCombineFx
    by_cases h : (runOps ⟨false, DestState.absent⟩ 0 f (combineOps pre pk)).1.tmpAlive <;>
      simp [h]
  · intro i hf hle
    subst hf
    have hcond : 0 ≤ i ∧ i - 0 < (combineOps pre pk).length :=
      ⟨Nat.zero_le i, by rw [hlen]; omega⟩
    rcases Nat.eq_zero_or_pos i with hi | hi
    · subst hi
      have hr : runOps ⟨false, DestState.absent⟩ 0 (some 0) (combineOps pre pk) =
          (⟨false, DestState.absent⟩, false) := by
        rw [runOps_some_eq, if_pos hcond]
        rfl
      unfold runCombineFx
      rw [hr]
      rfl
    · obtain ⟨k, hk⟩ : ∃ k, i = k + 1 := ⟨i - 1, by omega⟩
      subst hk
      have htake : (combineOps pre pk).take (k + 1 - 0) =
          FxOp.mkTmp :: List.replicate k FxOp.tmpWrite := by
        rw [Nat.sub_zero, hsplit, List.take_append_of_le_length (by simp; omega),
          List.take_succ_cons, List.take_replicate, Nat.min_eq_left (by omega)]
      have hr : runOps ⟨false, DestState.absent⟩ 0 (some (k + 1)) (combineOps pre pk) =
          (⟨true, DestState.absent⟩, false) := by
        rw [runOps_some_eq, if_pos hcond, htake, List.foldl_cons,
          show applyOp ⟨false, DestState.absent⟩ FxOp.mkTmp = (⟨true, DestState.absent⟩ : FxState)
            from rfl,
          foldl_tmpWrite_eq]
      unfold runCombineFx
      rw [hr]
      rfl
  · intro hf
    subst hf
    have e1 : List.foldl applyOp (⟨false, DestState.absent⟩ : FxState)
        (FxOp.mkTmp :: List.replicate pre FxOp.tmpWrite) = ⟨true, DestState.absent⟩ := by
      rw [List.foldl_cons,
        show applyOp ⟨false, DestState.absent⟩ FxOp.mkTmp = (⟨true, DestState.absent⟩ : FxState)
          from rfl,
        foldl_tmpWrite_eq]
    have e2 : List.foldl applyOp (⟨true, DestState.absent⟩ : FxState)
        ([FxOp.openDest] ++ (List.replicate pk FxOp.destWrite ++ [FxOp.closeDest])) =
          ⟨true, DestState.complete⟩ := by
      rw [List.foldl_append,
        show List.foldl applyOp (⟨true, DestState.absent⟩ : FxState) [FxOp.openDest] =
          (⟨true, DestState.partialFile⟩ : FxState) from rfl,
        List.foldl_append, foldl_destWrite_eq]
      rfl
    have hr : runOps ⟨false, DestState.absent⟩ 0 none (combineOps pre pk) =
        (⟨true, DestState.complete⟩, true) := by
      rw [runOps_none_eq, hsplit, List.foldl_append, e1, e2]
    unfold runCombineFx
    rw [hr]
    rfl

/-- C9, counterexample: with one working-directory write and one archive-entry
write, failing at operation 3 (the entry write, after the destination was
opened at operation 2) terminates the run with an exception while a partial
file remains at the destination — the destination is not created only on
success. -/
theorem c9_counterexample :
    runCombineFx 1 1 (some 3) = (⟨false, DestState.partialFile⟩, false) ∧
    (runCombineFx 1 1 (some 3)).1.dest ≠ DestState.absent := by
  constructor
  · decide
  · decide

theorem c9_witness :
    runCombineFx 2 3 (some 1) = (⟨false, DestState.absent⟩, false) ∧
    runCombineFx 2 3 none = (⟨false, DestState.complete⟩, true) :=
  ⟨(c9_cleanup_amended 2 3 (some 1)).2.1 1 rfl (by decide),
   (c9_cleanup_amended 2 3 none).2.2 rfl⟩

/-! ## C4 — idempotence of the canonical-key normalization -/

theorem lowerC_idem (c : Nat) : lowerC (lowerC c) = lowerC c := by
  simp only [lowerC]
  split_ifs <;> omega

theorem lowerS_idem (s : Str) : lowerS (lowerS s) = lowerS s := by
  induction s with
  | nil => rfl
  | cons c r ih => simp only [lowerS, List.map_cons] at *; rw [lowerC_idem]; simpa using ih

theorem lowerC_eq_low {c t : Nat} (ht : t < 97) (h : lowerC c = t) : c = t := by
  unfold lowerC at h
  split_ifs at h <;> omega

theorem splitSlash_ne_nil : ∀ p : Str, splitSlash p ≠ [] := by
  intro p
  induction p with
  | nil => simp [splitSlash]
  | cons c r ih =>
    simp only [splitSlash]
    by_cases h : c = SLASH
    · simp [h]
    · rw [if_neg h]
      cases hr : splitSlash r with
      | nil => exact absurd hr ih
      | cons x t => simp

theorem mem_splitSlash_no_slash : ∀ (p : Str) (q : Str), q ∈ splitSlash p → SLASH ∉ q := by
  intro p
  induction p with
  | nil =>
    intro q hq
    simp [splitSlash] at hq
    simp [hq]
  | cons c r ih =>
    intro q hq
    simp only [splitSlash] at hq
    by_cases h : c = SLASH
    · rw [if_pos h] at hq
      rcases List.mem_cons.mp hq with h1 | h1
      · simp [h1]
      · exact ih q h1
    · rw [if_neg h] at hq
      cases hr : splitSlash r with
      | nil => exact absurd hr (splitSlash_ne_nil r)
      | cons x t =>
        rw [hr] at hq
        rcases List.mem_cons.mp hq with h1 | h1
        · subst h1
          intro hc
          rcases List.mem_cons.mp hc with h2 | h2
          · exact h h2.symm
          · exact ih x (hr ▸ List.mem_cons_self x t) h2
        · exact ih q (hr ▸ List.mem_cons_of_mem x h1)

theorem mem_splitSlash_chars : ∀ (p : Str) (q : Str), q ∈ splitSlash p → ∀ c ∈ q, c ∈ p := by
  intro p
  induction p with
  | nil =>
    intro q hq c hc
    simp [splitSlash] at hq
    subst hq
    simp at hc
  | cons a r ih =>
    intro q hq c hc
    simp only [splitSlash] at hq
    by_cases h : a = SLASH
    · rw [if_pos h] at hq
      rcases List.mem_cons.mp hq with h1 | h1
      · subst h1; simp at hc
      · exact List.mem_cons_of_mem a (ih q h1 c hc)
    · rw [if_neg h] at hq
      cases hr : splitSlash r with
      | nil => exact absurd hr (splitSlash_ne_nil r)
      | cons x t =>
        rw [hr] at hq
        rcases List.mem_cons.mp hq with h1 | h1
        · subst h1
          rcases List.mem_cons.mp hc with h2 | h2
          · simp [h2]
          · exact List.mem_cons_of_mem a (ih x (hr ▸ List.mem_cons_self x t) c h2)
        · exact List.mem_cons_of_mem a (ih q (hr ▸ List.mem_cons_of_mem x h1) c hc)

theorem splitSlash_of_no_slash : ∀ x : Str, SLASH ∉ x → splitSlash x = [x] := by
  intro x
  induction x with
  | nil => intro _; rfl
  | cons c r ih =>
    intro h
    have hc : c ≠ SLASH := fun hc => h (hc ▸ List.mem_cons_self c r)
    have hr : SLASH ∉ r := fun hr => h (List.mem_cons_of_mem c hr)
    simp only [splitSlash, if_neg hc, ih hr]

theorem splitSlash_append_slash : ∀ (x r : Str), SLASH ∉ x →
    splitSlash (x ++ SLASH :: r) = x :: splitSlash r := by
  intro x
  induction x with
  | nil =>
    intro r _
    simp [splitSlash]
  | cons c y ih =>
    intro r h
    have hc : c ≠ SLASH := fun hc => h (hc ▸ List.mem_cons_self c y)
    have hy : SLASH ∉ y := fun hy => h (List.mem_cons_of_mem c hy)
    have hrec := ih r hy
    rw [List.cons_append]
    simp only [splitSlash, if_neg hc, hrec]

theorem joinSlash_cons (x : Str) (r : List Str) (h : r ≠ []) :
    joinSlash (x :: r) = x ++ SLASH :: joinSlash r := by
  cases r with
  | nil => exact absurd rfl h
  | cons y t => rfl

theorem splitSlash_joinSlash : ∀ parts : List Str, parts ≠ [] →
    (∀ q ∈ parts, SLASH ∉ q) → splitSlash (joinSlash parts) = parts := by
  intro parts
  induction parts with
  | nil => intro h _; exact absurd rfl h
  | cons x r ih =>
    intro _ hq
    cases r with
    | nil => exact splitSlash_of_no_slash x (hq x (List.mem_cons_self x []))
    | cons y t =>
      rw [joinSlash_cons x (y :: t) (by simp),
        splitSlash_append_slash _ _ (hq x (List.mem_cons_self x (y :: t))),
        ih (by simp) (fun q hmem => hq q (List.mem_cons_of_mem x hmem))]

theorem mem_foldl_segStep_good : ∀ (segs : List Str) (acc : List Str),
    (∀ q ∈ acc, q ≠ [] ∧ q ≠ [DOT] ∧ q ≠ [DOT, DOT]) →
    ∀ q ∈ segs.foldl segStep acc, q ≠ [] ∧ q ≠ [DOT] ∧ q ≠ [DOT, DOT] := by
  intro segs
  induction segs with
  | nil => intro acc hacc q hq; exact hacc q hq
  | cons p rest ih =>
    intro acc hacc q hq
    refine ih (segStep acc p) ?_ q hq
    intro q' hq'
    unfold segStep at hq'
    split_ifs at hq' with h1 h2
    · exact hacc q' hq'
    · exact hacc q' (List.dropLast_subset acc hq')
    · rcases List.mem_append.mp hq' with h3 | h3
      · exact hacc q' h3
      · have : q' = p := by simpa using h3
        subst this
        push_neg at h1
        exact ⟨h1.1, h1.2, h2⟩

theorem mem_foldl_segStep_src : ∀ (segs : List Str) (acc : List Str) (q : Str),
    q ∈ segs.foldl segStep acc → q ∈ acc ∨ q ∈ segs := by
  intro segs
  induction segs with
  | nil => intro acc q hq; exact Or.inl hq
  | cons p rest ih =>
    intro acc q hq
    rcases ih (segStep acc p) q hq with h | h
    · unfold segStep at h
      split_ifs at h
      · exact Or.inl h
      · exact Or.inl (List.dropLast_subset acc h)
      · rcases List.mem_append.mp h with h3 | h3
        · exact Or.inl h3
        · exact Or.inr (by simpa using Or.inl (by simpa using h3))
    · exact Or.inr (List.mem_cons_of_mem p h)

theorem foldl_segStep_id : ∀ (l : List Str) (acc : List Str),
    (∀ q ∈ l, q ≠ [] ∧ q ≠ [DOT] ∧ q ≠ [DOT, DOT]) →
    l.foldl segStep acc = acc ++ l := by
  intro l
  induction l with
  | nil => intro acc _; simp
  | cons p rest ih =>
    intro acc hl
    have hp := hl p (List.mem_cons_self p rest)
    have hstep : segStep acc p = acc ++ [p] := by
      unfold segStep
      rw [if_neg (by push_neg; exact ⟨hp.1, hp.2.1⟩), if_neg hp.2.2]
    rw [List.foldl_cons, hstep, ih (acc ++ [p]) (fun q hq => hl q (List.mem_cons_of_mem p hq))]
    simp

theorem lowerS_joinSlash : ∀ l : List Str, lowerS (joinSlash l) = joinSlash (l.map lowerS) := by
  intro l
  induction l with
  | nil => rfl
  | cons x r ih =>
    cases r with
    | nil => rfl
    | cons y t =>
      rw [joinSlash_cons x (y :: t) (by simp), List.map_cons,
        joinSlash_cons (lowerS x) ((y :: t).map lowerS) (by simp)]
      simp only [lowerS, List.map_append, List.map_cons]
      rw [show lowerC SLASH = SLASH from rfl]
      simp only [lowerS, List.map_cons] at ih
      rw [ih]

theorem mem_joinSlash : ∀ (l : List Str) (c : Nat), c ∈ joinSlash l →
    c = SLASH ∨ ∃ q ∈ l, c ∈ q := by
  intro l
  induction l with
  | nil => intro c hc; simp [joinSlash] at hc
  | cons x r ih =>
    intro c hc
    cases r with
    | nil => exact Or.inr ⟨x, List.mem_cons_self x [], hc⟩
    | cons y t =>
      rw [joinSlash_cons x (y :: t) (by simp)] at hc
      rcases List.mem_append.mp hc with h | h
      · exact Or.inr ⟨x, List.mem_cons_self x (y :: t), h⟩
      · rcases List.mem_cons.mp h with h1 | h1
        · exact Or.inl h1
        · rcases ih c h1 with h2 | ⟨q, hq, hcq⟩
          · exact Or.inl h2
          · exact Or.inr ⟨q, List.mem_cons_of_mem x hq, hcq⟩

theorem replBS_no_bs (p : Str) : BSLASH ∉ replBS p := by
  intro h
  rcases List.mem_map.mp h with ⟨a, _, ha⟩
  by_cases h2 : a = BSLASH
  · rw [if_pos h2] at ha
    simp [SLASH, BSLASH] at ha
  · rw [if_neg h2] at ha
    exact h2 ha

theorem replBS_of_no_bs {p : Str} (h : BSLASH ∉ p) : replBS p = p := by
  unfold replBS
  rw [List.map_congr_left (fun a ha => if_neg (fun hc => h (by rw [← hc]; exact ha)))]
  exact List.map_id p

theorem posixNorm_props (u : Str) : ∃ P : List Str,
    posixNorm u = joinSlash P ∧
    (∀ q ∈ P, q ≠ [] ∧ q ≠ [DOT] ∧ q ≠ [DOT, DOT]) ∧
    (∀ q ∈ P, SLASH ∉ q) ∧ (∀ q ∈ P, BSLASH ∉ q) := by
  have hw : ∀ c ∈ (if (replBS u).head? = some SLASH then
      (replBS u).dropWhile (fun c => c = SLASH) else replBS u), c ∈ replBS u := by
    intro c hc
    split_ifs at hc
    · exact (List.dropWhile_sublist _).subset hc
    · exact hc
  refine ⟨foldSegs (splitSlash (if (replBS u).head? = some SLASH then
      (replBS u).dropWhile (fun c => c = SLASH) else replBS u)), rfl, ?_, ?_, ?_⟩
  · exact fun q hq => mem_foldl_segStep_good _ [] (by simp) q hq
  · intro q hq
    rcases mem_foldl_segStep_src _ [] q hq with h | h
    · simp at h
    · exact mem_splitSlash_no_slash _ q h
  · intro q hq hbs
    rcases mem_foldl_segStep_src _ [] q hq with h | h
    · simp at h
    · exact replBS_no_bs u (hw BSLASH (mem_splitSlash_chars _ q h BSLASH hbs))

theorem posixNorm_join_of_good (P : List Str)
    (hgood : ∀ q ∈ P, q ≠ [] ∧ q ≠ [DOT] ∧ q ≠ [DOT, DOT])
    (hnos : ∀ q ∈ P, SLASH ∉ q) (hnob : ∀ q ∈ P, BSLASH ∉ q) :
    posixNorm (joinSlash P) = joinSlash P := by
  cases P with
  | nil => rfl
  | cons x r =>
    have hb : replBS (joinSlash (x :: r)) = joinSlash (x :: r) := by
      refine replBS_of_no_bs ?_
      intro hmem
      rcases mem_joinSlash _ _ hmem with h | ⟨q, hq, hcq⟩
      · exact absurd h (by decide)
      · exact hnob q hq hcq
    have hx : x ≠ [] := (hgood x (List.mem_cons_self x r)).1
    have hhead : ¬((joinSlash (x :: r)).head? = some SLASH) := by
      cases x with
      | nil => exact absurd rfl hx
      | cons c y =>
        have hc : c ≠ SLASH := by
          intro hcc
          exact hnos _ (List.mem_cons_self _ r) (hcc ▸ List.mem_cons_self c y)
        have hh : (joinSlash ((c :: y) :: r)).head? = some c := by
          cases r with
          | nil => rfl
          | cons z t => rw [joinSlash_cons _ _ (by simp)]; rfl
        rw [hh]
        intro hcontra
        exact hc (by injection hcontra)
    simp only [posixNorm]
    rw [hb, if_neg hhead, splitSlash_joinSlash _ (by simp) hnos,
      show foldSegs (x :: r) = List.foldl segStep [] (x :: r) from rfl,
      foldl_segStep_id _ _ hgood]
    simp

/-- C4, amended: the counterexample below shows that `normalize` is not
idempotent on inputs whose decoding still contains percent-escapes
(`normalize('%2541') = '%41'` but `normalize('%41') = 'a'`), so the property
holds in this amended form — for every `p` whose canonical key is a fixed
point of URL-decoding (in particular every path without double-encoded
escapes), `normalize(normalize(p)) = normalize(p)`. -/
theorem c4_idem_amended (p : Str) (h : unquoteS (normKey p) = normKey p) :
    normKey (normKey p) = normKey p := by
  obtain ⟨P, hpn, hgood, hnos, hnob⟩ := posixNorm_props (unquoteS (replBS p))
  have hkey : normKey p = joinSlash (P.map lowerS) := by
    show lowerS (posixNorm (unquoteS (replBS p))) = _
    rw [hpn, lowerS_joinSlash]
  have hgood' : ∀ q ∈ P.map lowerS, q ≠ [] ∧ q ≠ [DOT] ∧ q ≠ [DOT, DOT] := by
    intro q hq
    rcases List.mem_map.mp hq with ⟨a, ha, rfl⟩
    obtain ⟨h1, h2, h3⟩ := hgood a ha
    refine ⟨?_, ?_, ?_⟩
    · intro hc
      exact h1 (List.map_eq_nil_iff.mp hc)
    · intro hc
      cases a with
      | nil => exact h1 rfl
      | cons c t =>
        cases t with
        | nil =>
          simp only [lowerS, List.map_cons, List.map_nil] at hc
          have : lowerC c = DOT := by injection hc
          exact h2 (by rw [lowerC_eq_low (by decide) this])
        | cons d t2 => simp [lowerS] at hc
    · intro hc
      cases a with
      | nil => exact h1 rfl
      | cons c t =>
        cases t with
        | nil => simp [lowerS] at hc
        | cons d t2 =>
          cases t2 with
          | nil =>
            simp only [lowerS, List.map_cons, List.map_nil] at hc
            have hc1 : lowerC c = DOT := by injection hc
            have hc2 : lowerC d = DOT := by
              have := hc
              injection this with _ h2t
              injection h2t
            exact h3 (by rw [lowerC_eq_low (by decide) hc1, lowerC_eq_low (by decide) hc2])
          | cons e t3 => simp [lowerS] at hc
  have hnos' : ∀ q ∈ P.map lowerS, SLASH ∉ q := by
    intro q hq hmem
    rcases List.mem_map.mp hq with ⟨a, ha, rfl⟩
    rcases List.mem_map.mp hmem with ⟨c, hc, hlc⟩
    exact hnos a ha (by rw [← lowerC_eq_low (by decide) hlc]; exact hc)
  have hnob' : ∀ q ∈ P.map lowerS, BSLASH ∉ q := by
    intro q hq hmem
    rcases List.mem_map.mp hq with ⟨a, ha, rfl⟩
    rcases List.mem_map.mp hmem with ⟨c, hc, hlc⟩
    exact hnob a ha (by rw [← lowerC_eq_low (by decide) hlc]; exact hc)
  have hfix := posixNorm_join_of_good (P.map lowerS) hgood' hnos' hnob'
  have hb : BSLASH ∉ normKey p := by
    rw [hkey]
    intro hmem
    rcases mem_joinSlash _ _ hmem with hh | ⟨q, hq, hcq⟩
    · exact absurd hh (by decide)
    · exact hnob' q hq hcq
  show lowerS (posixNorm (unquoteS (replBS (normKey p)))) = normKey p
  rw [replBS_of_no_bs hb, h, hkey, hfix, ← lowerS_joinSlash, lowerS_idem, lowerS_joinSlash]

/-- C4, counterexample: on the doubly percent-encoded path `%2541`,
`normalize(normalize(p)) ≠ normalize(p)` — the first pass decodes `%25` to
`%`, producing `%41`, and the second pass decodes that to `a`. -/
theorem c4_counterexample :
    normKey (normKey (ofStr "%2541")) ≠ normKey (ofStr "%2541") ∧
    normKey (ofStr "%2541") = ofStr "%41" ∧
    normKey (normKey (ofStr "%2541")) = ofStr "a" := by
  refine ⟨by decide, by decide, by decide⟩

theorem c4_witness :
    unquoteS (normKey (ofStr "..\\A/b c.PNG")) = normKey (ofStr "..\\A/b c.PNG") ∧
    normKey (normKey (ofStr "..\\A/b c.PNG")) = normKey (ofStr "..\\A/b c.PNG") :=
  ⟨by decide, c4_idem_amended _ (by decide)⟩

/-! ## C5 — the Mapper lookup contract -/

theorem lookup_eq_lookupSpec (m : Mapper) (ref cp : Str) :
    Mapper.lookup m ref cp = lookupSpec m ref cp := by
  by_cases h0 : ref = []
  · subst h0
    simp [Mapper.lookup, lookupSpec, splitRefSuffix, stripWs]
  · simp only [Mapper.lookup, lookupSpec, if_neg h0]
    by_cases h1 : stripWs (splitRefSuffix ref).1 = []
    · simp [h1]
    · by_cases h2 : startsAny (stripWs (splitRefSuffix ref).1) externalSchemes = true
      · simp [h1, h2]
      · by_cases h3 : (stripWs (splitRefSuffix ref).1).head? = some 35
        · simp [h1, h2, h3]
        · have hor : ¬(stripWs (splitRefSuffix ref).1 = [] ∨
              startsAny (stripWs (splitRefSuffix ref).1) externalSchemes = true ∨
              (stripWs (splitRefSuffix ref).1).head? = some 35) := by
            push_neg
            exact ⟨h1, fun hc => h2 hc, h3⟩
          rw [if_neg h1, if_neg (fun hc => h2 hc), if_neg h3, if_neg hor]
          set base := replBS (stripWs (splitRefSuffix ref).1) with hbase
          set cd := posixNorm (replBS (pyParentStr cp)) with hcd0
          by_cases hd : base.head? = some SLASH
          · rw [if_pos hd]
            rw [if_neg (fun hc => hc.2 hd), if_neg (fun hc => hc.2 hd)]
            cases hk : lookupA m.map (normKey base) with
            | some v => simp [List.findSome?, hk]
            | none =>
              cases hb : lookupA m.basenameMap (normKey (pyName base)) with
              | some v => simp [List.findSome?, hk, hb]
              | none => simp [List.findSome?, hk, hb]
          · rw [if_neg hd]
            by_cases hcd : cd = []
            · rw [if_pos hcd, if_neg (fun hc => hc.1 hcd), if_pos ⟨hcd, hd⟩]
              cases hk : lookupA m.map (normKey base) with
              | some v => simp [List.findSome?, hk]
              | none =>
                cases hb : lookupA m.basenameMap (normKey (pyName base)) with
                | some v => simp [List.findSome?, hk, hb]
                | none => simp [List.findSome?, hk, hb]
            · rw [if_neg hcd, if_pos ⟨hcd, hd⟩]
              cases hk : lookupA m.map (normKey base) with
              | some v => simp [List.findSome?, hk]
              | none =>
                cases hk2 : lookupA m.map (normKey (cd ++ SLASH :: base)) with
                | some v => simp [List.findSome?, hk, hk2]
                | none =>
                  cases hb : lookupA m.basenameMap (normKey (pyName base)) with
                  | some v => simp [List.findSome?, hk, hk2, hb]
                  | none => simp [List.findSome?, hk, hk2, hb]

theorem lookupA_cons (e : Str × Str) (rest : List (Str × Str)) (k : Str) :
    lookupA (e :: rest) k = if e.1 == k then some e.2 else lookupA rest k := by
  simp only [lookupA, List.find?]
  by_cases h : e.1 == k
  · simp [h]
  · simp [h]

theorem lookupT_cons (e : Str × List Str) (rest : List (Str × List Str)) (k : Str) :
    lookupT (e :: rest) k = if e.1 == k then some e.2 else lookupT rest k := by
  simp only [lookupT, List.find?]
  by_cases h : e.1 == k
  · simp [h]
  · simp [h]

theorem lookupA_filterMap_single_none (k : Str) :
    ∀ d : List (Str × List Str), (∀ x ∈ d, x.1 ≠ k) →
    lookupA (d.filterMap singleOf) k = none := by
  intro d
  induction d with
  | nil => intro _; rfl
  | cons e rest ih =>
    intro h
    have he : e.1 ≠ k := h e (List.mem_cons_self e rest)
    have hrest := ih (fun x hx => h x (List.mem_cons_of_mem e hx))
    rw [List.filterMap_cons]
    cases hv : e.2 with
    | nil => simpa [singleOf, hv] using hrest
    | cons v t =>
      cases t with
      | nil =>
        simp only [singleOf, hv]
        rw [lookupA_cons]
        simp only [beq_eq_false_iff_ne.mpr he, if_false]
        exact hrest
      | cons w t2 => simpa [singleOf, hv] using hrest

theorem finalize_lookup_eq (k : Str) :
    ∀ d : List (Str × List Str), (d.map Prod.fst).Nodup →
    lookupA (d.filterMap singleOf) k =
      (match lookupT d k with
       | some [v] => some v
       | _ => none) := by
  intro d
  induction d with
  | nil => intro _; rfl
  | cons e rest ih =>
    intro hnd
    have hnd2 : (rest.map Prod.fst).Nodup := (List.nodup_cons.mp hnd).2
    rw [List.filterMap_cons, lookupT_cons]
    by_cases he : e.1 = k
    · have hbe : (e.1 == k) = true := beq_iff_eq.mpr he
      rw [if_pos hbe]
      have hnotin : ∀ x ∈ rest, x.1 ≠ k := by
        intro x hx hc
        exact (List.nodup_cons.mp hnd).1 (he ▸ hc ▸ List.mem_map_of_mem Prod.fst hx)
      cases hv : e.2 with
      | nil => simpa [singleOf, hv] using lookupA_filterMap_single_none k rest hnotin
      | cons v t =>
        cases t with
        | nil =>
          simp only [singleOf, hv]
          rw [lookupA_cons, if_pos hbe]
        | cons w t2 =>
          simpa [singleOf, hv] using lookupA_filterMap_single_none k rest hnotin
    · have hbe : (e.1 == k) = false := beq_eq_false_iff_ne.mpr he
      rw [if_neg (by simp [hbe])]
      have htail := ih hnd2
      cases hv : e.2 with
      | nil => simpa [singleOf, hv] using htail
      | cons v t =>
        cases t with
        | nil =>
          simp only [singleOf, hv]
          rw [lookupA_cons, if_neg (by simp [hbe])]
          exact htail
        | cons w t2 => simpa [singleOf, hv] using htail

theorem tInsert_keys_nodup (d : List (Str × List Str)) (k : Str) (v : Str)
    (hnd : (d.map Prod.fst).Nodup) : ((tInsert d k v).map Prod.fst).Nodup := by
  unfold tInsert
  by_cases h : d.any (fun e => e.1 == k)
  · rw [if_pos h]
    have : (d.map (fun e => if e.1 == k then (k, if e.2.contains v then e.2 else e.2 ++ [v])
        else e)).map Prod.fst = d.map Prod.fst := by
      rw [List.map_map]
      refine List.map_congr_left ?_
      intro e _
      by_cases he : e.1 == k
      · simp [he, Function.comp]
        exact (beq_iff_eq.mp he).symm
      · simp [he, Function.comp]
    rw [this]
    exact hnd
  · rw [if_neg h]
    rw [List.map_append]
    have hk : k ∉ d.map Prod.fst := by
      intro hmem
      rcases List.mem_map.mp hmem with ⟨e, he, hfst⟩
      exact h (List.any_eq_true.mpr ⟨e, he, beq_iff_eq.mpr hfst⟩)
    refine List.Nodup.append hnd (by simp) ?_
    intro a ha hb
    simp only [List.map_cons, List.map_nil, List.mem_singleton] at hb
    subst hb
    exact hk ha

theorem mapperAdd_keys_nodup (m : Mapper) (a : Str × Str)
    (hnd : (m.basenameTargets.map Prod.fst).Nodup) :
    (((m.add a.1 a.2).basenameTargets).map Prod.fst).Nodup := by
  unfold Mapper.add
  by_cases hb : normKey (pyName (replBS a.1)) ≠ []
  · rw [if_pos hb]
    by_cases hk : normKey a.1 ≠ []
    · rw [if_pos hk]
      exact tInsert_keys_nodup _ _ _ hnd
    · rw [if_neg hk]
      exact tInsert_keys_nodup _ _ _ hnd
  · rw [if_neg hb]
    by_cases hk : normKey a.1 ≠ []
    · rw [if_pos hk]
      exact hnd
    · rw [if_neg hk]
      exact hnd

theorem mkMapper_keys_nodup (adds : List (Str × Str)) :
    ((mkMapper adds).basenameTargets.map Prod.fst).Nodup := by
  unfold mkMapper
  have : ∀ (l : List (Str × Str)) (m : Mapper), (m.basenameTargets.map Prod.fst).Nodup →
      (((l.foldl (fun m a => m.add a.1 a.2) m).basenameTargets).map Prod.fst).Nodup := by
    intro l
    induction l with
    | nil => intro m hm; exact hm
    | cons a rest ih =>
      intro m hm
      exact ih (m.add a.1 a.2) (mapperAdd_keys_nodup m a hm)
  exact this adds Mapper.empty (by simp [Mapper.empty])

/-- C5: the Mapper lookup contract — `lookup` coincides with the contract as
the specification words it (`lookupSpec`: reject empty, external-scheme and
fragment-only refs, try the exact canonical path as-is and then resolved
against the containing document's directory before the basename fallback,
and append the query/fragment suffix verbatim); empty, external-scheme and
fragment-only refs return `None`; and the fallback table built by
`finalize` answers a basename exactly when that basename has exactly one
distinct candidate href in this source (ambiguous basenames yield no match). -/
theorem c5_lookup_contract :
    (∀ (m : Mapper) (ref cp : Str), Mapper.lookup m ref cp = lookupSpec m ref cp) ∧
    (∀ (m : Mapper) (cp : Str), Mapper.lookup m [] cp = none) ∧
    (∀ (m : Mapper) (ref cp : Str),
      startsAny (stripWs (splitRefSuffix ref).1) externalSchemes = true →
      Mapper.lookup m ref cp = none) ∧
    (∀ (m : Mapper) (ref cp : Str), ref.head? = some 35 → Mapper.lookup m ref cp = none) ∧
    (∀ (adds : List (Str × Str)) (k : Str),
      lookupA (mkMapper adds).basenameMap k =
        (match lookupT (mkMapper adds).basenameTargets k with
         | some [v] => some v
         | _ => none)) := by
  refine ⟨lookup_eq_lookupSpec, ?_, ?_, ?_, ?_⟩
  · intro m cp
    rfl
  · intro m ref cp hext
    by_cases h0 : ref = []
    · simp [h0, Mapper.lookup]
    · simp only [Mapper.lookup, if_neg h0]
      by_cases h1 : stripWs (splitRefSuffix ref).1 = []
      · simp [h1]
      · simp [h1, hext]
  · intro m ref cp hh
    cases ref with
    | nil => rfl
    | cons c t =>
      have hc : c = 35 := by injection hh
      subst hc
      have hsplit : (splitRefSuffix (35 :: t)).1 = [] := by
        simp [splitRefSuffix, List.findIdx?]
      simp [Mapper.lookup, hsplit, stripWs]
  · intro adds k
    have h1 : (mkMapper adds).basenameMap =
        (mkMapper adds).basenameTargets.filterMap singleOf := rfl
    rw [h1]
    exact finalize_lookup_eq k _ (mkMapper_keys_nodup adds)

theorem c5_witness :
    Mapper.lookup (mkMapper [(ofStr "a/p.png", ofStr "X")]) (ofStr "http://e/p.png")
        (ofStr "c.xhtml") = none ∧
    Mapper.lookup (mkMapper [(ofStr "a/p.png", ofStr "X")]) (ofStr "#frag")
        (ofStr "c.xhtml") = none :=
  ⟨c5_lookup_contract.2.2.1 _ _ _ (by decide), c5_lookup_contract.2.2.2.1 _ _ _ (by decide)⟩

/-! ## C6 — do-no-harm rewriting -/

theorem ciPrefix_eq {pat s t r : Str} (h : ciPrefix pat s = some (t, r)) :
    t ++ r = s ∧ t.length = pat.length := by
  simp only [ciPrefix] at h
  split_ifs at h with hc
  · simp only [Option.some.injEq, Prod.mk.injEq] at h
    obtain ⟨h1, h2⟩ := h
    constructor
    · rw [← h1, ← h2]
      exact List.take_append_drop pat.length s
    · rw [← h1]
      exact hc.2

theorem takeWs_eq (s : Str) : (takeWs s).1 ++ (takeWs s).2 = s := by
  simp only [takeWs]
  exact List.takeWhile_append_dropWhile isWs s

theorem scanToQuote_eq (q : Nat) (allowNl : Bool) :
    ∀ (s v r : Str), scanToQuote q allowNl s = some (v, r) → v ++ q :: r = s := by
  intro s
  induction s with
  | nil => intro v r h; exact absurd h (by simp [scanToQuote])
  | cons c rest ih =>
    intro v r h
    unfold scanToQuote at h
    split_ifs at h with h1 h2
    · simp only [Option.some.injEq, Prod.mk.injEq] at h
      obtain ⟨hv, hr⟩ := h
      rw [← hv, ← hr, h1]
      rfl
    · cases hm : scanToQuote q allowNl rest with
      | none => rw [hm] at h; exact absurd h (by simp)
      | some pr =>
        obtain ⟨v0, r0⟩ := pr
        rw [hm, Option.map_some'] at h
        simp only [Option.some.injEq, Prod.mk.injEq] at h
        obtain ⟨hv, hr⟩ := h
        rw [← hv, ← hr, ← ih v0 r0 hm]
        simp

theorem scanToGt_eq : ∀ (s i r : Str), scanToGt s = some (i, r) → i ++ 62 :: r = s := by
  intro s
  induction s with
  | nil => intro i r h; exact absurd h (by simp [scanToGt])
  | cons c rest ih =>
    intro i r h
    unfold scanToGt at h
    split_ifs at h with h1
    · simp only [Option.some.injEq, Prod.mk.injEq] at h
      obtain ⟨hv, hr⟩ := h
      rw [← hv, ← hr, h1]
      rfl
    · cases hm : scanToGt rest with
      | none => rw [hm] at h; exact absurd h (by simp)
      | some pr =>
        obtain ⟨i0, r0⟩ := pr
        rw [hm, Option.map_some'] at h
        simp only [Option.some.injEq, Prod.mk.injEq] at h
        obtain ⟨hv, hr⟩ := h
        rw [← hv, ← hr, ← ih i0 r0 hm]
        simp

theorem scanToCi_eq (pat : Str) : ∀ (s b p r : Str),
    scanToCi pat s = some (b, p, r) → b ++ p ++ r = s := by
  intro s
  induction s with
  | nil => intro b p r h; exact absurd h (by simp [scanToCi])
  | cons c rest ih =>
    intro b p r h
    unfold scanToCi at h
    cases hp : ciPrefix pat (c :: rest) with
    | some pr =>
      obtain ⟨p0, r0⟩ := pr
      rw [hp] at h
      simp only [Option.some.injEq, Prod.mk.injEq] at h
      obtain ⟨hb, hp2, hr⟩ := h
      rw [← hb, ← hp2, ← hr]
      simpa using (ciPrefix_eq hp).1
    | none =>
      rw [hp] at h
      cases hm : scanToCi pat rest with
      | none => rw [hm] at h; exact absurd h (by simp)
      | some tr =>
        obtain ⟨b0, p0, r0⟩ := tr
        rw [hm, Option.map_some'] at h
        simp only [Option.some.injEq, Prod.mk.injEq] at h
        obtain ⟨hb, hp2, hr⟩ := h
        rw [← hb, ← hp2, ← hr, ← ih b0 p0 r0 hm]
        simp

theorem closeParen_eq {s w r : Str} (h : closeParen s = some (w, r)) : w ++ 41 :: r = s := by
  simp only [closeParen] at h
  split at h
  next r0 heq =>
    simp only [Option.some.injEq, Prod.mk.injEq] at h
    obtain ⟨hw, hr⟩ := h
    rw [← hw, ← hr, ← heq]
    exact takeWs_eq s
  next heq => simp at h

theorem scanQuotedUrl_eq (q : Nat) : ∀ (s u w r : Str),
    scanQuotedUrl q s = some (u, w, r) → u ++ q :: w ++ 41 :: r = s := by
  intro s
  induction s with
  | nil => intro u w r h; exact absurd h (by simp [scanQuotedUrl])
  | cons c rest ih =>
    intro u w r h
    unfold scanQuotedUrl at h
    split at h
    next w0 rr0 heq =>
      by_cases hc : c = q
      · rw [if_pos hc] at heq
        simp only [Option.some.injEq, Prod.mk.injEq] at h
        obtain ⟨hu, hw, hr⟩ := h
        rw [← hu, ← hw, ← hr, hc, List.nil_append]
        exact congrArg (q :: ·) (closeParen_eq heq)
      · rw [if_neg hc] at heq
        exact absurd heq (by simp)
    next heq =>
      split_ifs at h with h1
      · cases hm : scanQuotedUrl q rest with
        | none => simp [hm] at h
        | some tr =>
          obtain ⟨u0, w0, r0⟩ := tr
          rw [hm, Option.map_some'] at h
          simp only [Option.some.injEq, Prod.mk.injEq] at h
          obtain ⟨hu, hw, hr⟩ := h
          rw [← hu, ← hw, ← hr, ← ih u0 w0 r0 hm]
          simp

theorem scanBareUrl_eq : ∀ (s u w r : Str),
    scanBareUrl s = some (u, w, r) → u ++ w ++ 41 :: r = s := by
  intro s
  induction s with
  | nil => intro u w r h; exact absurd h (by simp [scanBareUrl])
  | cons c rest ih =>
    intro u w r h
    unfold scanBareUrl at h
    split at h
    next w0 rr0 heq =>
      simp only [Option.some.injEq, Prod.mk.injEq] at h
      obtain ⟨hu, hw, hr⟩ := h
      rw [← hu, ← hw, ← hr, List.nil_append]
      exact closeParen_eq heq
    next heq =>
      split_ifs at h with h1
      · cases hm : scanBareUrl rest with
        | none => simp [hm] at h
        | some tr =>
          obtain ⟨u0, w0, r0⟩ := tr
          rw [hm, Option.map_some'] at h
          simp only [Option.some.injEq, Prod.mk.injEq] at h
          obtain ⟨hu, hw, hr⟩ := h
          rw [← hu, ← hw, ← hr, ← ih u0 w0 r0 hm]
          simp

theorem attrAlt_eq {s t r : Str} (h : attrAlt s = some (t, r)) : t ++ r = s := by
  unfold attrAlt at h
  cases h1 : ciPrefix (ofStr "src") s with
  | some pr =>
    simp only [h1, Option.some.injEq] at h
    rw [h] at h1
    exact (ciPrefix_eq h1).1
  | none =>
    simp only [h1] at h
    cases h2 : ciPrefix (ofStr "href") s with
    | some pr =>
      simp only [h2, Option.some.injEq] at h
      rw [h] at h2
      exact (ciPrefix_eq h2).1
    | none =>
      simp only [h2] at h
      exact (ciPrefix_eq h).1

theorem attrNameAt_eq {s t r : Str} (h : attrNameAt s = some (t, r)) : t ++ r = s := by
  unfold attrNameAt at h
  cases h1 : ciPrefix (ofStr "xlink:") s with
  | some pr =>
    obtain ⟨p1, r1⟩ := pr
    simp only [h1] at h
    cases h2 : attrAlt r1 with
    | some pr2 =>
      obtain ⟨p2, r2⟩ := pr2
      simp only [h2, Option.some.injEq, Prod.mk.injEq] at h
      obtain ⟨ht, hr⟩ := h
      rw [← ht, ← hr, List.append_assoc, attrAlt_eq h2]
      exact (ciPrefix_eq h1).1
    | none =>
      simp only [h2] at h
      exact attrAlt_eq h
  | none =>
    simp only [h1] at h
    exact attrAlt_eq h

theorem matchAttrAt_eq {s : Str} {mt : AttrM} (h : matchAttrAt s = some mt) :
    attrWhole mt ++ mt.rest = s := by
  unfold matchAttrAt at h
  split at h
  next heq => simp at h
  next g1 r1 heq =>
    split at h
    next c0 r2 heq2 =>
      split_ifs at h with h61
      subst h61
      split at h
      next c r3 heq3 =>
        split_ifs at h with hq
        split at h
        next v rest heq4 =>
          simp only [Option.some.injEq] at h
          subst h
          have e1 := attrNameAt_eq heq
          have e2 := takeWs_eq r1
          have e3 := takeWs_eq r2
          have e4 := scanToQuote_eq c false r3 v rest heq4
          set ws1 := (takeWs r1).1 with hws1
          set ws2 := (takeWs r2).1 with hws2
          rw [heq2] at e2
          rw [heq3] at e3
          rw [← e1, ← e2, ← e3, ← e4]
          simp [attrWhole]
        next heq4 => simp at h
      next heq3 => simp at h
    next heq2 => simp at h

theorem matchWordEq_eq {w s : Str} {mt : QAttrM} (h : matchWordEq w s = some mt) :
    qattrWhole mt ++ mt.rest = s := by
  unfold matchWordEq at h
  split at h
  next heq => simp at h
  next g1 r1 heq =>
    split at h
    next c0 r2 heq2 =>
      split_ifs at h with h61
      subst h61
      split at h
      next c r3 heq3 =>
        split_ifs at h with hq
        split at h
        next v rest heq4 =>
          simp only [Option.some.injEq] at h
          subst h
          have e1 := (ciPrefix_eq heq).1
          have e2 := takeWs_eq r1
          have e3 := takeWs_eq r2
          have e4 := scanToQuote_eq c true r3 v rest heq4
          set ws1 := (takeWs r1).1 with hws1
          set ws2 := (takeWs r2).1 with hws2
          rw [heq2] at e2
          rw [heq3] at e3
          rw [← e1, ← e2, ← e3, ← e4]
          simp [qattrWhole]
        next heq4 => simp at h
      next heq3 => simp at h
    next heq2 => simp at h

theorem matchCssUrlAt_eq {s : Str} {mt : CssUrlM} (h : matchCssUrlAt s = some mt) :
    cssUrlWhole mt ++ mt.rest = s := by
  unfold matchCssUrlAt at h
  split at h
  next heq => simp at h
  next p1 r1 heq =>
    split at h
    next heq2 => simp at h
    next c r2 heq2 =>
      have e1 := (ciPrefix_eq heq).1
      have e2 := takeWs_eq r1
      rw [heq2] at e2
      set ws1 := (takeWs r1).1 with hws1
      split_ifs at h with hq
      · cases hm : scanQuotedUrl c r2 with
        | some tr =>
          obtain ⟨u, w2, rest⟩ := tr
          rw [hm] at h
          simp only [Option.some.injEq] at h
          subst h
          have e3 := scanQuotedUrl_eq c r2 u w2 rest hm
          rw [← e1, ← e2, ← e3]
          simp [cssUrlWhole]
        | none =>
          rw [hm] at h
          cases hb : scanBareUrl (c :: r2) with
          | some tr =>
            obtain ⟨u, w2, rest⟩ := tr
            rw [hb] at h
            simp only [Option.some.injEq] at h
            subst h
            have e3 := scanBareUrl_eq (c :: r2) u w2 rest hb
            rw [← e1, ← e2, ← e3]
            simp [cssUrlWhole]
          | none => rw [hb] at h; simp at h
      · cases hb : scanBareUrl (c :: r2) with
        | some tr =>
          obtain ⟨u, w2, rest⟩ := tr
          rw [hb] at h
          simp only [Option.some.injEq] at h
          subst h
          have e3 := scanBareUrl_eq (c :: r2) u w2 rest hb
          rw [← e1, ← e2, ← e3]
          simp [cssUrlWhole]
        | none => rw [hb] at h; simp at h

theorem matchCssImpAt_eq {s : Str} {mt : CssImpM} (h : matchCssImpAt s = some mt) :
    cssImpWhole mt ++ mt.rest = s := by
  unfold matchCssImpAt at h
  split at h
  next heq => simp at h
  next p1 r1 heq =>
    split_ifs at h with hws
    split at h
    next c r2 heq2 =>
      split_ifs at h with hq
      cases hm : scanToQuote c false r2 with
      | some pr =>
        obtain ⟨u, rest⟩ := pr
        rw [hm] at h
        simp only [Option.some.injEq] at h
        subst h
        have e1 := (ciPrefix_eq heq).1
        have e2 := takeWs_eq r1
        rw [heq2] at e2
        set ws1 := (takeWs r1).1 with hws1
        have e3 := scanToQuote_eq c false r2 u rest hm
        rw [← e1, ← e2, ← e3]
        simp [cssImpWhole]
      | none => rw [hm] at h; simp at h
    next heq2 => simp at h

theorem matchStyleBlockAt_eq {s : Str} {mt : BlockM} (h : matchStyleBlockAt s = some mt) :
    (mt.g1 ++ mt.body ++ mt.g3) ++ mt.rest = s := by
  unfold matchStyleBlockAt at h
  split at h
  next heq => simp at h
  next p1 r1 heq =>
    split_ifs at h with hwb
    split at h
    next hg => simp at h
    next attrs r2 hg =>
      split at h
      next body cl rest hc =>
        simp only [Option.some.injEq] at h
        subst h
        have e1 := (ciPrefix_eq heq).1
        have e2 := scanToGt_eq r1 attrs r2 hg
        have e3 := scanToCi_eq (ofStr "</style>") r2 body cl rest hc
        rw [← e1, ← e2, ← e3]
        simp
      next hc => simp at h

theorem subPass_id {M : Type} (matcher : Str → Option M) (repl : M → Str) (restOf : M → Str)
    (h : ∀ (s : Str) (mt : M), matcher s = some mt → repl mt ++ restOf mt = s) :
    ∀ (fu : Nat) (s : Str), subPass matcher repl restOf fu s = s := by
  intro fu
  induction fu with
  | zero => intro s; cases s <;> rfl
  | succ k ih =>
    intro s
    cases s with
    | nil => rfl
    | cons c r =>
      cases hm : matcher (c :: r) with
      | none =>
        simp only [subPass, hm]
        rw [ih r]
      | some mt =>
        simp only [subPass, hm]
        rw [ih (restOf mt)]
        exact h (c :: r) mt hm

theorem subPass_id_of_no_match {M : Type} (matcher : Str → Option M) (repl : M → Str)
    (restOf : M → Str) :
    ∀ (fu : Nat) (s : Str), (∀ i, matcher (s.drop i) = none) →
      subPass matcher repl restOf fu s = s := by
  intro fu
  induction fu with
  | zero => intro s _; cases s <;> rfl
  | succ k ih =>
    intro s hnm
    cases s with
    | nil => rfl
    | cons c r =>
      have h0 : matcher (c :: r) = none := by simpa using hnm 0
      simp only [subPass, h0]
      rw [ih r (fun i => by simpa using hnm (i + 1))]

theorem attrRepl_unresolved (m : Mapper) (cp : Str)
    (hnone : ∀ r p, Mapper.lookup m r p = none) (mt : AttrM) :
    attrRepl m cp mt = attrWhole mt := by
  unfold attrRepl
  split_ifs with h
  · rfl
  · simp only [hnone]

theorem cssUrlRepl_unresolved (m : Mapper) (cp : Str)
    (hnone : ∀ r p, Mapper.lookup m r p = none) (mt : CssUrlM) :
    cssUrlRepl m cp mt = cssUrlWhole mt := by
  simp only [cssUrlRepl]
  split_ifs with h
  · rfl
  · simp only [hnone]

theorem cssImpRepl_unresolved (m : Mapper) (cp : Str)
    (hnone : ∀ r p, Mapper.lookup m r p = none) (mt : CssImpM) :
    cssImpRepl m cp mt = cssImpWhole mt := by
  simp only [cssImpRepl]
  split_ifs with h
  · rfl
  · simp only [hnone]

theorem rewriteCssRefs_unresolved (m : Mapper) (cp : Str)
    (hnone : ∀ r p, Mapper.lookup m r p = none) (css : Str) :
    rewriteCssRefs css m cp = css := by
  unfold rewriteCssRefs cssUrlPass cssImpPass
  have h1 : subPass matchCssUrlAt (cssUrlRepl m cp) (fun mt => mt.rest) css.length css = css :=
    subPass_id _ _ _ (fun s mt hm => by
      rw [cssUrlRepl_unresolved m cp hnone mt]
      exact matchCssUrlAt_eq hm) css.length css
  rw [h1]
  exact subPass_id _ _ _ (fun s mt hm => by
    rw [cssImpRepl_unresolved m cp hnone mt]
    exact matchCssImpAt_eq hm) css.length css

theorem styleBlockRepl_unresolved (m : Mapper) (cp : Str)
    (hnone : ∀ r p, Mapper.lookup m r p = none) (mt : BlockM) :
    styleBlockRepl m cp mt = mt.g1 ++ mt.body ++ mt.g3 := by
  unfold styleBlockRepl
  rw [rewriteCssRefs_unresolved m cp hnone]

theorem emptyMapper_lookup_none (r p : Str) : Mapper.lookup Mapper.empty r p = none := by
  rw [lookup_eq_lookupSpec]
  simp only [lookupSpec]
  split_ifs <;> simp [Mapper.empty, lookupA]

/-- C6, amended: the counterexample below shows that the `srcset` pass
re-serialises the whole attribute even when nothing in it resolves, so the
claim holds in this amended form — against a mapper that resolves nothing,
the CSS passes (`url(...)`, `@import`), the `src`/`href`/`xlink:href`/`poster`
attribute pass and the `<style>`-block pass return every document byte for
byte; and a document additionally containing no `srcset=` and no `style=`
attribute construct is returned byte-identical by the whole rewriter (the
`srcset` and inline-`style` passes rebuild their attribute, normalising the
spacing around `=`, the comma separators and candidate-internal whitespace,
even when no reference resolves). -/
theorem c6_do_no_harm_amended :
    ∀ (m : Mapper) (cp : Str), (∀ r p, Mapper.lookup m r p = none) →
      (∀ css, rewriteCssRefs css m cp = css) ∧
      (∀ doc, attrPass m cp doc.length doc = doc) ∧
      (∀ doc, styleBlockPass m cp doc.length doc = doc) ∧
      (∀ doc, (∀ i, i < doc.length → matchWordEq (ofStr "srcset") (doc.drop i) = none) →
        (∀ i, i < doc.length → matchWordEq (ofStr "style") (doc.drop i) = none) →
        rewriteAssetRefs doc m cp = doc) := by
  intro m cp hnone
  have hattr : ∀ doc, attrPass m cp doc.length doc = doc := by
    intro doc
    unfold attrPass
    exact subPass_id _ _ _ (fun s mt hm => by
      rw [attrRepl_unresolved m cp hnone mt]
      exact matchAttrAt_eq hm) doc.length doc
  have hblock : ∀ doc, styleBlockPass m cp doc.length doc = doc := by
    intro doc
    unfold styleBlockPass
    exact subPass_id _ _ _ (fun s mt hm => by
      rw [styleBlockRepl_unresolved m cp hnone mt]
      exact matchStyleBlockAt_eq hm) doc.length doc
  refine ⟨rewriteCssRefs_unresolved m cp hnone, hattr, hblock, ?_⟩
  intro doc hsrcset hstyle
  have hsrcset2 : ∀ i, matchWordEq (ofStr "srcset") (doc.drop i) = none := by
    intro i
    by_cases hi : i < doc.length
    · exact hsrcset i hi
    · rw [List.drop_eq_nil_of_le (by omega)]
      decide
  have hstyle2 : ∀ i, matchWordEq (ofStr "style") (doc.drop i) = none := by
    intro i
    by_cases hi : i < doc.length
    · exact hstyle i hi
    · rw [List.drop_eq_nil_of_le (by omega)]
      decide
  simp only [rewriteAssetRefs]
  rw [hattr doc]
  rw [show srcsetPass m cp doc.length doc = doc from
    subPass_id_of_no_match _ _ _ doc.length doc hsrcset2]
  rw [show styleAttrPass m cp doc.length doc = doc from
    subPass_id_of_no_match _ _ _ doc.length doc hstyle2]
  exact hblock doc

/-- C6, counterexample for both carve-outs, under the empty mapper (no
reference resolves — shown concretely for both URLs of the srcset document).
The `srcset` pass re-serialises the attribute, turning `a.png 1x,b.png 2x`
into `a.png 1x, b.png 2x`; and the inline-`style` pass re-serialises the
attribute, turning `style ="color:red"` — which holds no reference at all —
into `style="color:red"`. -/
theorem c6_counterexample :
    Mapper.lookup Mapper.empty (ofStr "a.png") (ofStr "Text/1.xhtml") = none ∧
    Mapper.lookup Mapper.empty (ofStr "b.png") (ofStr "Text/1.xhtml") = none ∧
    rewriteAssetRefs (ofStr "<img srcset=\"a.png 1x,b.png 2x\"/>") Mapper.empty
        (ofStr "Text/1.xhtml") ≠ ofStr "<img srcset=\"a.png 1x,b.png 2x\"/>" ∧
    rewriteAssetRefs (ofStr "<img srcset=\"a.png 1x,b.png 2x\"/>") Mapper.empty
        (ofStr "Text/1.xhtml") = ofStr "<img srcset=\"a.png 1x, b.png 2x\"/>" ∧
    rewriteAssetRefs (ofStr "<p style =\"color:red\">x</p>") Mapper.empty
        (ofStr "Text/1.xhtml") ≠ ofStr "<p style =\"color:red\">x</p>" ∧
    rewriteAssetRefs (ofStr "<p style =\"color:red\">x</p>") Mapper.empty
        (ofStr "Text/1.xhtml") = ofStr "<p style=\"color:red\">x</p>" := by
  refine ⟨by decide, by decide, by decide, by decide, by decide, by decide⟩

theorem c6_witness :
    rewriteCssRefs (ofStr "p:url(missing.png)") Mapper.empty (ofStr "Styles/a.css")
        = ofStr "p:url(missing.png)" ∧
    rewriteAssetRefs (ofStr "<a href=\"x.xhtml\">t</a>") Mapper.empty (ofStr "Text/1.xhtml")
        = ofStr "<a href=\"x.xhtml\">t</a>" :=
  ⟨(c6_do_no_harm_amended Mapper.empty (ofStr "Styles/a.css") emptyMapper_lookup_none).1 _,
   (c6_do_no_harm_amended Mapper.empty (ofStr "Text/1.xhtml") emptyMapper_lookup_none).2.2.2
     _ (by decide) (by decide)⟩

/-! ## C8 — two-run determinism up to UUID and timestamp -/

theorem lookupA_append (l1 l2 : List (Str × Str)) (k : Str) :
    lookupA (l1 ++ l2) k =
      (match lookupA l1 k with
       | some v => some v
       | none => lookupA l2 k) := by
  induction l1 with
  | nil => simp [lookupA]
  | cons e r ih =>
    rw [List.cons_append, lookupA_cons, lookupA_cons]
    by_cases h : e.1 == k
    · simp [h]
    · simp [h, ih]

theorem combineModel_files (srcs : List Source) (cfg : Config) (u t : Str) :
    (combineModel srcs cfg u t).files =
      (combineCore srcs cfg).files ++
        [(ofStr "OEBPS/content.opf",
          buildContentOpf cfg.title u (combineCore srcs cfg).manifest
            (combineCore srcs cfg).spineIds t),
         (ofStr "OEBPS/toc.ncx",
          buildTocNcx cfg.title u (combineCore srcs cfg).spineIds
            (combineCore srcs cfg).spineLabels)] := rfl

theorem c8_lookup_indep (srcs : List Source) (cfg : Config) (u1 t1 u2 t2 : Str) (n : Str)
    (h1 : n ≠ ofStr "OEBPS/content.opf") (h2 : n ≠ ofStr "OEBPS/toc.ncx") :
    lookupA (combineModel srcs cfg u1 t1).files n =
      lookupA (combineModel srcs cfg u2 t2).files n := by
  have htail : ∀ (a b : Str),
      lookupA [(ofStr "OEBPS/content.opf", a), (ofStr "OEBPS/toc.ncx", b)] n = none := by
    intro a b
    simp only [lookupA_cons, beq_iff_eq]
    rw [if_neg (fun hc => h1 hc.symm), if_neg (fun hc => h2 hc.symm)]
    rfl
  rw [combineModel_files, combineModel_files, lookupA_append, lookupA_append]
  cases hf : lookupA (combineCore srcs cfg).files n with
  | some v => rfl
  | none => rw [htail, htail]

theorem c8_names_eq (srcs : List Source) (cfg : Config) (u1 t1 u2 t2 : Str) :
    (combineModel srcs cfg u1 t1).files.map (fun f => f.1) =
      (combineModel srcs cfg u2 t2).files.map (fun f => f.1) := by
  rw [combineModel_files, combineModel_files]
  simp

/-- C8: two runs over the same ordered inputs and configuration differ at most
in the contents of `OEBPS/content.opf` and `OEBPS/toc.ncx` — the only archive
entries into which the generated UUID and the modification timestamp flow:
the entry names, their order and their compression flags coincide, every
entry other than those two is byte-identical, and runs with equal UUID and
timestamp produce identical archives. -/
theorem c8_determinism (srcs : List Source) (cfg : Config) (u1 t1 u2 t2 : Str) :
    ((archiveModel srcs cfg u1 t1).map (fun e => e.name) =
      (archiveModel srcs cfg u2 t2).map (fun e => e.name)) ∧
    ((archiveModel srcs cfg u1 t1).length = (archiveModel srcs cfg u2 t2).length) ∧
    (∀ p ∈ (archiveModel srcs cfg u1 t1).zip (archiveModel srcs cfg u2 t2),
      p.1.name = p.2.name ∧ p.1.deflated = p.2.deflated ∧
      (p.1.name ≠ ofStr "OEBPS/content.opf" → p.1.name ≠ ofStr "OEBPS/toc.ncx" →
        p.1 = p.2)) ∧
    (u1 = u2 → t1 = t2 → archiveModel srcs cfg u1 t1 = archiveModel srcs cfg u2 t2) := by
  have hn2 := c8_names_eq srcs cfg u1 t1 u2 t2
  have hm : ∀ n, n ≠ ofStr "OEBPS/content.opf" → n ≠ ofStr "OEBPS/toc.ncx" →
      lookupA (combineModel srcs cfg u1 t1).files n =
        lookupA (combineModel srcs cfg u2 t2).files n :=
    fun n => c8_lookup_indep srcs cfg u1 t1 u2 t2 n
  refine ⟨?_, ?_, ?_, ?_⟩
  · simp only [archiveModel, packModel, hn2]
    simp [List.map_map, Function.comp]
  · simp only [archiveModel, packModel, hn2]
    simp
  · simp only [archiveModel, packModel, hn2]
    intro p hp
    simp only [List.zip_cons_cons] at hp
    rw [List.zip_map'] at hp
    rcases List.mem_cons.mp hp with h | h
    · have hmime := hm (ofStr "mimetype") (by decide) (by decide)
      rw [h]
      refine ⟨rfl, rfl, fun _ _ => ?_⟩
      simp [hmime]
    · rcases List.mem_map.mp h with ⟨n, hn, rfl⟩
      refine ⟨rfl, rfl, fun hne1 hne2 => ?_⟩
      simp only at hne1 hne2
      simp [hm n hne1 hne2]
  · intro hu ht
    subst hu
    subst ht
    rfl

theorem c8_witness :
    (archiveModel [] cfgDefault (ofStr "u1") (ofStr "t1")).map (fun e => e.name) =
      (archiveModel [] cfgDefault (ofStr "u2") (ofStr "t2")).map (fun e => e.name) ∧
    ((archiveModel [] cfgDefault (ofStr "u1") (ofStr "t1")).zip
        (archiveModel [] cfgDefault (ofStr "u2") (ofStr "t2"))).head? =
      some (⟨ofStr "mimetype", false, ofStr "application/epub+zip"⟩,
        ⟨ofStr "mimetype", false, ofStr "application/epub+zip"⟩) := by
  refine ⟨(c8_determinism [] cfgDefault (ofStr "u1") (ofStr "t1") (ofStr "u2") (ofStr "t2")).1,
    by decide⟩

/-! ## C10 — degenerate inputs produce the fixed skeleton -/

theorem mem_enumFrom_snd {α : Type} : ∀ (l : List α) (n : Nat) (p : Nat × α),
    p ∈ List.enumFrom n l → p.2 ∈ l := by
  intro l
  induction l with
  | nil => intro n p h; simp [List.enumFrom] at h
  | cons a r ih =>
    intro n p h
    rw [List.enumFrom] at h
    rcases List.mem_cons.mp h with h1 | h1
    · rw [h1]
      exact List.mem_cons_self a r
    · exact List.mem_cons_of_mem a (ih (n + 1) p h1)

theorem combineLoop_invalid (cfg : Config) (srcs : List Source)
    (h : ∀ s ∈ srcs, s.isZip = false) : combineLoop srcs cfg = initialRunSt cfg := by
  have haux : ∀ (l : List (Nat × Source)) (st : RunSt), (∀ p ∈ l, p.2.isZip = false) →
      l.foldl (fun st p => processSource cfg p.1 st p.2) st = st := by
    intro l
    induction l with
    | nil => intro st _; rfl
    | cons p r ih =>
      intro st hl
      rw [List.foldl_cons]
      have hz : p.2.isZip = false := hl p (List.mem_cons_self p r)
      have hstep : processSource cfg p.1 st p.2 = st := by
        simp [processSource, hz]
      rw [hstep]
      exact ih st (fun q hq => hl q (List.mem_cons_of_mem p hq))
  unfold combineLoop
  exact haux srcs.enum (initialRunSt cfg)
    (fun p hp => h p.2 (mem_enumFrom_snd srcs 0 p hp))

theorem zentry_name_map (F : List (Str × Str)) (L : List Str) :
    (L.map (fun n => (⟨n, true, (lookupA F n).getD []⟩ : ZEntry))).map (fun e => e.name)
      = L := by
  induction L with
  | nil => rfl
  | cons a r ih => simp [ih]

theorem zentry_namedefl_map (F : List (Str × Str)) (L : List Str) :
    (L.map (fun n => (⟨n, true, (lookupA F n).getD []⟩ : ZEntry))).map
      (fun e => (e.name, e.deflated)) = L.map (fun n => (n, true)) := by
  induction L with
  | nil => rfl
  | cons a r ih => simp [ih]

/-- C10: on degenerate input — an empty source list, or sources none of which
is a valid ZIP archive — `combine_epubs` still completes and the output
archive contains exactly the fixed skeleton (`mimetype` first, stored, with
the exact EPUB media type, then `META-INF/container.xml`,
`OEBPS/content.opf`, `OEBPS/toc.ncx` and `OEBPS/Text/nav.xhtml`), with an
empty spine and no manifest content items beyond the generated navigation
document. -/
theorem c10_degenerate (srcs : List Source) (cfg : Config) (u t : Str)
    (h : ∀ s ∈ srcs, s.isZip = false) :
    ((combineModel srcs cfg u t).files.map (fun f => f.1) =
      [ofStr "OEBPS/Text/nav.xhtml", ofStr "mimetype", ofStr "META-INF/container.xml",
       ofStr "OEBPS/content.opf", ofStr "OEBPS/toc.ncx"]) ∧
    (combineModel srcs cfg u t).spineIds = [] ∧
    (combineModel srcs cfg u t).spineLabels = [] ∧
    ((combineModel srcs cfg u t).manifest =
      [⟨ofStr "nav", ofStr "Text/nav.xhtml", ofStr "application/xhtml+xml", ofStr "nav"⟩]) ∧
    ((archiveModel srcs cfg u t).map (fun e => e.name) =
      [ofStr "mimetype", ofStr "META-INF/container.xml", ofStr "OEBPS/content.opf",
       ofStr "OEBPS/toc.ncx", ofStr "OEBPS/Text/nav.xhtml"]) ∧
    ((archiveModel srcs cfg u t).map (fun e => (e.name, e.deflated)) =
      [(ofStr "mimetype", false), (ofStr "META-INF/container.xml", true),
       (ofStr "OEBPS/content.opf", true), (ofStr "OEBPS/toc.ncx", true),
       (ofStr "OEBPS/Text/nav.xhtml", true)]) ∧
    ((archiveModel srcs cfg u t).head?.map (fun e => e.data) =
      some (ofStr "application/epub+zip")) := by
  have hloop := combineLoop_invalid cfg srcs h
  have hfiles : (combineModel srcs cfg u t).files.map (fun f => f.1) =
      [ofStr "OEBPS/Text/nav.xhtml", ofStr "mimetype", ofStr "META-INF/container.xml",
       ofStr "OEBPS/content.opf", ofStr "OEBPS/toc.ncx"] := by
    simp [combineModel, combineCore, hloop, initialRunSt]
  refine ⟨hfiles, ?_, ?_, ?_, ?_, ?_, ?_⟩
  · simp [combineModel, combineCore, hloop, initialRunSt]
  · simp [combineModel, combineCore, hloop, initialRunSt]
  · simp [combineModel, combineCore, hloop, initialRunSt]
  · simp only [archiveModel, packModel, hfiles, List.map_cons]
    rw [zentry_name_map]
    decide
  · simp only [archiveModel, packModel, hfiles, List.map_cons]
    rw [zentry_namedefl_map]
    decide
  · simp only [archiveModel, packModel, hfiles]
    simp only [List.head?, Option.map_some']
    have : lookupA (combineModel srcs cfg u t).files (ofStr "mimetype") =
        some (ofStr "application/epub+zip") := by
      simp only [combineModel, combineCore, hloop, initialRunSt]
      simp only [List.nil_append, lookupA_append, lookupA_cons]
      rw [if_neg (by decide), if_pos (by decide)]
    simp [this]

theorem c10_witness :
    (combineModel [srcInvalid] cfgDefault (ofStr "U") (ofStr "T")).files.map (fun f => f.1) =
      [ofStr "OEBPS/Text/nav.xhtml", ofStr "mimetype", ofStr "META-INF/container.xml",
       ofStr "OEBPS/content.opf", ofStr "OEBPS/toc.ncx"] ∧
    (archiveModel [srcInvalid] cfgDefault (ofStr "U") (ofStr "T")).head?.map
        (fun e => e.data) = some (ofStr "application/epub+zip") :=
  ⟨(c10_degenerate [srcInvalid] cfgDefault (ofStr "U") (ofStr "T") (by decide)).1,
   (c10_degenerate [srcInvalid] cfgDefault (ofStr "U") (ofStr "T") (by decide)).2.2.2.2.2.2⟩

/-! ## C7 — packaging: mimetype first and stored, the rest deflated in walk order -/

theorem isPrefixOf_refl_append : ∀ (p y : Str), List.isPrefixOf p (p ++ y) = true := by
  intro p y
  induction p with
  | nil => simp [List.isPrefixOf]
  | cons a p ih => simp [List.isPrefixOf, ih]

theorem isPrefixOf_append_of_le : ∀ (p x : Str), p.length ≤ x.length → ∀ y : Str,
    List.isPrefixOf p (x ++ y) = List.isPrefixOf p x := by
  intro p
  induction p with
  | nil => intro x h y; simp [List.isPrefixOf]
  | cons a p ih =>
    intro x h y
    cases x with
    | nil => simp at h
    | cons b x =>
      simp only [List.cons_append, List.isPrefixOf, List.append_eq]
      rw [ih x (by simp only [List.length_cons] at h; omega) y]

theorem oebps_isPrefixOf (z y : Str) :
    List.isPrefixOf (ofStr "OEBPS/") ((ofStr "OEBPS/" ++ z) ++ y) = true := by
  rw [List.append_assoc]
  exact isPrefixOf_refl_append _ _

/-- Shape of one image-collection step: it only appends to `imgUsed`, `files`,
`manifest` and `imgAsg`, with files under `OEBPS/Images/` and manifest hrefs
under `Images/`. -/
theorem ciStep_shape (p : RunSt × Mapper) (e : Entry) :
    ∃ nu nf nm na,
      (ciStep p e).1 =
        { p.1 with
            imgUsed := p.1.imgUsed ++ nu
            files := p.1.files ++ nf
            manifest := p.1.manifest ++ nm
            imgAsg := p.1.imgAsg ++ na } ∧
      (∀ f ∈ nf, ∃ y, f.1 = ofStr "OEBPS/Images/" ++ y) ∧
      (∀ it ∈ nm, ∃ y, Item.href it = ofStr "Images/" ++ y) := by
  obtain ⟨st1, m1⟩ := p
  simp only [ciStep]
  split
  · split
    · next nn hL =>
      refine ⟨[], [], [], [(e.data, nn)], ?_, by simp, by simp⟩
      cases st1
      simp
    · next hL =>
      refine ⟨[(e.data, ofStr "img_" ++ natStr (st1.imgUsed.length + 1) ++
          lowerS (pySuffix e.name))],
        [(ofStr "OEBPS/Images/" ++ (ofStr "img_" ++ natStr (st1.imgUsed.length + 1) ++
          lowerS (pySuffix e.name)), e.data)],
        [⟨ofStr "img_" ++ natStr (st1.imgUsed.length + 1),
          ofStr "Images/" ++ (ofStr "img_" ++ natStr (st1.imgUsed.length + 1) ++
            lowerS (pySuffix e.name)), mediaType (ofStr "img_" ++
            natStr (st1.imgUsed.length + 1) ++ lowerS (pySuffix e.name)), []⟩],
        [(e.data, ofStr "img_" ++ natStr (st1.imgUsed.length + 1) ++
          lowerS (pySuffix e.name))], rfl, ?_, ?_⟩
      · intro f hf
        rw [List.mem_singleton] at hf
        subst hf
        exact ⟨_, rfl⟩
      · intro it hit
        rw [List.mem_singleton] at hit
        subst hit
        exact ⟨_, rfl⟩
  · refine ⟨[], [], [], [], ?_, by simp, by simp⟩
    cases st1
    simp

/-- The image-collection loop only appends to `imgUsed`, `files`, `manifest`
and `imgAsg`. -/
theorem collectImages_effect : ∀ (es : List Entry) (st : RunSt) (m : Mapper),
    ∃ nu nf nm na,
      (collectImages st m es).1 =
        { st with
            imgUsed := st.imgUsed ++ nu
            files := st.files ++ nf
            manifest := st.manifest ++ nm
            imgAsg := st.imgAsg ++ na } ∧
      (∀ f ∈ nf, ∃ y, f.1 = ofStr "OEBPS/Images/" ++ y) ∧
      (∀ it ∈ nm, ∃ y, Item.href it = ofStr "Images/" ++ y) := by
  intro es
  induction es with
  | nil =>
    intro st m
    refine ⟨[], [], [], [], ?_, by simp, by simp⟩
    cases st
    simp [collectImages]
  | cons e es ih =>
    intro st m
    rw [show collectImages st m (e :: es) =
        collectImages (ciStep (st, m) e).1 (ciStep (st, m) e).2 es from by
      simp only [collectImages, List.foldl_cons, Prod.mk.eta]]
    obtain ⟨nu1, nf1, nm1, na1, h1, h2, h3⟩ := ciStep_shape (st, m) e
    obtain ⟨nu2, nf2, nm2, na2, g1, g2, g3⟩ := ih (ciStep (st, m) e).1 (ciStep (st, m) e).2
    refine ⟨nu1 ++ nu2, nf1 ++ nf2, nm1 ++ nm2, na1 ++ na2, ?_, ?_, ?_⟩
    · rw [g1, h1]
      cases st
      simp [List.append_assoc]
    · intro f hf
      rcases List.mem_append.mp hf with h | h
      · exact h2 f h
      · exact g2 f h
    · intro it hit
      rcases List.mem_append.mp hit with h | h
      · exact h3 it h
      · exact g3 it h

/-- Shape of one font-collection step. -/
theorem cfStep_shape (p : RunSt × Mapper) (e : Entry) :
    ∃ nv nf nm,
      (cfStep p e).1 =
        { p.1 with
            fontUsed := p.1.fontUsed ++ nv
            files := p.1.files ++ nf
            manifest := p.1.manifest ++ nm } ∧
      (∀ f ∈ nf, ∃ y, f.1 = ofStr "OEBPS/Fonts/" ++ y) ∧
      (∀ it ∈ nm, ∃ y, Item.href it = ofStr "Fonts/" ++ y) := by
  obtain ⟨st1, m1⟩ := p
  simp only [cfStep]
  split
  · split
    · next nn hL =>
      refine ⟨[], [], [], ?_, by simp, by simp⟩
      cases st1
      simp
    · next hL =>
      refine ⟨[(e.data, ofStr "font_" ++ natStr (st1.fontUsed.length + 1) ++
          lowerS (pySuffix e.name))],
        [(ofStr "OEBPS/Fonts/" ++ (ofStr "font_" ++ natStr (st1.fontUsed.length + 1) ++
          lowerS (pySuffix e.name)), e.data)],
        [⟨ofStr "font_" ++ natStr (st1.fontUsed.length + 1),
          ofStr "Fonts/" ++ (ofStr "font_" ++ natStr (st1.fontUsed.length + 1) ++
            lowerS (pySuffix e.name)), mediaType (ofStr "font_" ++
            natStr (st1.fontUsed.length + 1) ++ lowerS (pySuffix e.name)), []⟩],
        rfl, ?_, ?_⟩
      · intro f hf
        rw [List.mem_singleton] at hf
        subst hf
        exact ⟨_, rfl⟩
      · intro it hit
        rw [List.mem_singleton] at hit
        subst hit
        exact ⟨_, rfl⟩
  · refine ⟨[], [], [], ?_, by simp, by simp⟩
    cases st1
    simp

/-- The font-collection loop only appends to `fontUsed`, `files`, `manifest`. -/
theorem collectFonts_effect : ∀ (es : List Entry) (st : RunSt) (m : Mapper),
    ∃ nv nf nm,
      (collectFonts st m es).1 =
        { st with
            fontUsed := st.fontUsed ++ nv
            files := st.files ++ nf
            manifest := st.manifest ++ nm } ∧
      (∀ f ∈ nf, ∃ y, f.1 = ofStr "OEBPS/Fonts/" ++ y) ∧
      (∀ it ∈ nm, ∃ y, Item.href it = ofStr "Fonts/" ++ y) := by
  intro es
  induction es with
  | nil =>
    intro st m
    refine ⟨[], [], [], ?_, by simp, by simp⟩
    cases st
    simp [collectFonts]
  | cons e es ih =>
    intro st m
    rw [show collectFonts st m (e :: es) =
        collectFonts (cfStep (st, m) e).1 (cfStep (st, m) e).2 es from by
      simp only [collectFonts, List.foldl_cons, Prod.mk.eta]]
    obtain ⟨nv1, nf1, nm1, h1, h2, h3⟩ := cfStep_shape (st, m) e
    obtain ⟨nv2, nf2, nm2, g1, g2, g3⟩ := ih (cfStep (st, m) e).1 (cfStep (st, m) e).2
    refine ⟨nv1 ++ nv2, nf1 ++ nf2, nm1 ++ nm2, ?_, ?_, ?_⟩
    · rw [g1, h1]
      cases st
      simp [List.append_assoc]
    · intro f hf
      rcases List.mem_append.mp hf with h | h
      · exact h2 f h
      · exact g2 f h
    · intro it hit
      rcases List.mem_append.mp hit with h | h
      · exact h3 it h
      · exact g3 it h

/-- Shape of one stylesheet step. -/
theorem csStep_shape (p : RunSt × Mapper) (e : Entry) :
    ∃ nw nf nm,
      (csStep p e).1 =
        { p.1 with
            styleUsed := p.1.styleUsed ++ nw
            files := p.1.files ++ nf
            manifest := p.1.manifest ++ nm } ∧
      (∀ f ∈ nf, ∃ y, f.1 = ofStr "OEBPS/Styles/" ++ y) ∧
      (∀ it ∈ nm, ∃ y, Item.href it = ofStr "Styles/" ++ y) := by
  obtain ⟨st1, m1⟩ := p
  simp only [csStep]
  split
  · split
    · next nn hL =>
      refine ⟨[], [], [], ?_, by simp, by simp⟩
      cases st1
      simp
    · next hL =>
      refine ⟨[(rewriteCssRefs e.data m1 e.name,
          ofStr "style_" ++ natStr (st1.styleUsed.length + 1) ++ ofStr ".css")],
        [(ofStr "OEBPS/Styles/" ++ (ofStr "style_" ++ natStr (st1.styleUsed.length + 1) ++
          ofStr ".css"), rewriteCssRefs e.data m1 e.name)],
        [⟨ofStr "css_" ++ natStr (st1.styleUsed.length + 1),
          ofStr "Styles/" ++ (ofStr "style_" ++ natStr (st1.styleUsed.length + 1) ++
            ofStr ".css"), ofStr "text/css", []⟩],
        rfl, ?_, ?_⟩
      · intro f hf
        rw [List.mem_singleton] at hf
        subst hf
        exact ⟨_, rfl⟩
      · intro it hit
        rw [List.mem_singleton] at hit
        subst hit
        exact ⟨_, rfl⟩
  · refine ⟨[], [], [], ?_, by simp, by simp⟩
    cases st1
    simp

/-- The stylesheet loop only appends to `styleUsed`, `files`, `manifest`. -/
theorem collectStyles_effect : ∀ (es : List Entry) (st : RunSt) (m : Mapper),
    ∃ nw nf nm,
      (collectStyles st m es).1 =
        { st with
            styleUsed := st.styleUsed ++ nw
            files := st.files ++ nf
            manifest := st.manifest ++ nm } ∧
      (∀ f ∈ nf, ∃ y, f.1 = ofStr "OEBPS/Styles/" ++ y) ∧
      (∀ it ∈ nm, ∃ y, Item.href it = ofStr "Styles/" ++ y) := by
  intro es
  induction es with
  | nil =>
    intro st m
    refine ⟨[], [], [], ?_, by simp, by simp⟩
    cases st
    simp [collectStyles]
  | cons e es ih =>
    intro st m
    rw [show collectStyles st m (e :: es) =
        collectStyles (csStep (st, m) e).1 (csStep (st, m) e).2 es from by
      simp only [collectStyles, List.foldl_cons, Prod.mk.eta]]
    obtain ⟨nw1, nf1, nm1, h1, h2, h3⟩ := csStep_shape (st, m) e
    obtain ⟨nw2, nf2, nm2, g1, g2, g3⟩ := ih (csStep (st, m) e).1 (csStep (st, m) e).2
    refine ⟨nw1 ++ nw2, nf1 ++ nf2, nm1 ++ nm2, ?_, ?_, ?_⟩
    · rw [g1, h1]
      cases st
      simp [List.append_assoc]
    · intro f hf
      rcases List.mem_append.mp hf with h | h
      · exact h2 f h
      · exact g2 f h
    · intro it hit
      rcases List.mem_append.mp hit with h | h
      · exact h3 it h
      · exact g3 it h

/-- Shape of one content-processing step. -/
theorem pcStep_shape (cfg : Config) (src : Source) (mp : Mapper) (startNum : Nat)
    (st : RunSt) (q : Nat × (Str × Str)) :
    ∃ nf nm ns nl,
      pcStep cfg src mp startNum st q =
        { st with
            files := st.files ++ nf
            manifest := st.manifest ++ nm
            spineIds := st.spineIds ++ ns
            spineLabels := st.spineLabels ++ nl } ∧
      (∀ f ∈ nf, ∃ y, f.1 = ofStr "OEBPS/Text/" ++ y) ∧
      (∀ it ∈ nm, ∃ y, Item.href it = ofStr "Text/" ++ y) := by
  simp only [pcStep]
  split
  · refine ⟨[], [], [], [], ?_, by simp, by simp⟩
    cases st
    simp
  · next raw hra =>
    refine ⟨_, _, _, _, rfl, ?_, ?_⟩
    · intro f hf
      rw [List.mem_singleton] at hf
      subst hf
      exact ⟨_, rfl⟩
    · intro it hit
      rw [List.mem_singleton] at hit
      subst hit
      exact ⟨_, rfl⟩

/-- The content-processing fold only appends to `files`, `manifest`,
`spineIds` and `spineLabels`. -/
theorem processContentFold_effect (cfg : Config) (src : Source) (mp : Mapper)
    (startNum : Nat) : ∀ (l : List (Nat × (Str × Str))) (st : RunSt),
    ∃ nf nm ns nl,
      l.foldl (pcStep cfg src mp startNum) st =
        { st with
            files := st.files ++ nf
            manifest := st.manifest ++ nm
            spineIds := st.spineIds ++ ns
            spineLabels := st.spineLabels ++ nl } ∧
      (∀ f ∈ nf, ∃ y, f.1 = ofStr "OEBPS/Text/" ++ y) ∧
      (∀ it ∈ nm, ∃ y, Item.href it = ofStr "Text/" ++ y) := by
  intro l
  induction l with
  | nil =>
    intro st
    refine ⟨[], [], [], [], ?_, by simp, by simp⟩
    cases st
    simp
  | cons q l ih =>
    intro st
    rw [List.foldl_cons]
    obtain ⟨nf1, nm1, ns1, nl1, h1, h2, h3⟩ := pcStep_shape cfg src mp startNum st q
    obtain ⟨nf2, nm2, ns2, nl2, g1, g2, g3⟩ := ih (pcStep cfg src mp startNum st q)
    refine ⟨nf1 ++ nf2, nm1 ++ nm2, ns1 ++ ns2, nl1 ++ nl2, ?_, ?_, ?_⟩
    · rw [g1, h1]
      cases st
      simp [List.append_assoc]
    · intro f hf
      rcases List.mem_append.mp hf with h | h
      · exact h2 f h
      · exact g2 f h
    · intro it hit
      rcases List.mem_append.mp hit with h | h
      · exact h3 it h
      · exact g3 it h

/-- `processContent` only appends to `files`, `manifest`, `spineIds`,
`spineLabels`. -/
theorem processContent_effect (cfg : Config) (src : Source) (mp : Mapper)
    (startNum : Nat) (cnn : List (Str × Str)) (st : RunSt) :
    ∃ nf nm ns nl,
      processContent cfg src mp startNum cnn st =
        { st with
            files := st.files ++ nf
            manifest := st.manifest ++ nm
            spineIds := st.spineIds ++ ns
            spineLabels := st.spineLabels ++ nl } ∧
      (∀ f ∈ nf, ∃ y, f.1 = ofStr "OEBPS/Text/" ++ y) ∧
      (∀ it ∈ nm, ∃ y, Item.href it = ofStr "Text/" ++ y) := by
  simp only [processContent]
  exact processContentFold_effect cfg src mp startNum (cnn.enumFrom 1) st

/-- `tocAdjust` only changes the `tocHeading` field. -/
theorem tocAdjust_shape (cfg : Config) (idx : Nat) (st : RunSt) (src : Source) :
    ∃ th, tocAdjust cfg idx st src = { st with tocHeading := th } := by
  simp only [tocAdjust]
  split
  · split
    · exact ⟨_, rfl⟩
    · exact ⟨st.tocHeading, by cases st; rfl⟩
  · exact ⟨st.tocHeading, by cases st; rfl⟩

/-- One source-loop iteration: the counter advances by the source's qualifying
content count, the tables/manifest/spine/files only grow, and every file it
writes lives under `OEBPS/`. -/
theorem processSource_effect (cfg : Config) (idx : Nat) (st : RunSt) (src : Source) :
    ∃ nu nv nw nf nm ns nl na th,
      processSource cfg idx st src =
        { st with
            htmlCounter := st.htmlCounter + perSourceCount cfg src
            imgUsed := st.imgUsed ++ nu
            fontUsed := st.fontUsed ++ nv
            styleUsed := st.styleUsed ++ nw
            manifest := st.manifest ++ nm
            spineIds := st.spineIds ++ ns
            spineLabels := st.spineLabels ++ nl
            files := st.files ++ nf
            imgAsg := st.imgAsg ++ na
            tocHeading := th } ∧
      (∀ f ∈ nf, List.isPrefixOf (ofStr "OEBPS/") f.1 = true) := by
  by_cases hZ : src.isZip = true
  · simp only [processSource]
    rw [if_neg (by rw [hZ]; decide)]
    set st0 := tocAdjust cfg idx st src with hst0
    set P1 := collectImages st0 Mapper.empty src.entries with hP1
    set P2 := collectFonts P1.1 P1.2 src.entries with hP2
    set P3 := collectStyles P2.1 P2.2.finalizeM src.entries with hP3
    set CNN := contentNewName P3.1.htmlCounter (orderedContent cfg src) with hCNN
    set MP2 := (CNN.foldl (fun m p => m.add p.1 (ofStr "../Text/" ++ p.2)) P3.2).finalizeM
      with hMP2
    set P4 := processContent cfg src MP2 P3.1.htmlCounter CNN P3.1 with hP4
    obtain ⟨th0, hth⟩ := tocAdjust_shape cfg idx st src
    rw [← hst0] at hth
    obtain ⟨nu1, nf1, nm1, na1, h1e, h1f, h1m⟩ := collectImages_effect src.entries st0 Mapper.empty
    rw [← hP1] at h1e
    obtain ⟨nv2, nf2, nm2, h2e, h2f, h2m⟩ := collectFonts_effect src.entries P1.1 P1.2
    rw [← hP2] at h2e
    obtain ⟨nw3, nf3, nm3, h3e, h3f, h3m⟩ := collectStyles_effect src.entries P2.1 P2.2.finalizeM
    rw [← hP3] at h3e
    obtain ⟨nf4, nm4, ns4, nl4, h4e, h4f, h4m⟩ :=
      processContent_effect cfg src MP2 P3.1.htmlCounter CNN P3.1
    rw [← hP4] at h4e
    refine ⟨nu1, nv2, nw3, nf1 ++ nf2 ++ nf3 ++ nf4, nm1 ++ nm2 ++ nm3 ++ nm4, ns4, nl4,
      na1, th0, ?_, ?_⟩
    · rw [h4e, h3e, h2e, h1e, hth,
        show perSourceCount cfg src = (orderedContent cfg src).length from by
          simp [perSourceCount, hZ]]
      cases st
      simp [List.append_assoc]
    · intro f hf
      rcases List.mem_append.mp hf with hf | hf4
      · rcases List.mem_append.mp hf with hf | hf3
        · rcases List.mem_append.mp hf with hf1 | hf2
          · obtain ⟨y, hy⟩ := h1f f hf1
            rw [hy, show ofStr "OEBPS/Images/" = ofStr "OEBPS/" ++ ofStr "Images/" from by decide]
            exact oebps_isPrefixOf _ _
          · obtain ⟨y, hy⟩ := h2f f hf2
            rw [hy, show ofStr "OEBPS/Fonts/" = ofStr "OEBPS/" ++ ofStr "Fonts/" from by decide]
            exact oebps_isPrefixOf _ _
        · obtain ⟨y, hy⟩ := h3f f hf3
          rw [hy, show ofStr "OEBPS/Styles/" = ofStr "OEBPS/" ++ ofStr "Styles/" from by decide]
          exact oebps_isPrefixOf _ _
      · obtain ⟨y, hy⟩ := h4f f hf4
        rw [hy, show ofStr "OEBPS/Text/" = ofStr "OEBPS/" ++ ofStr "Text/" from by decide]
        exact oebps_isPrefixOf _ _
  · have hz' : src.isZip = false := by
      cases h : src.isZip
      · rfl
      · exact absurd h hZ
    refine ⟨[], [], [], [], [], [], [], [], st.tocHeading, ?_, by simp⟩
    cases st
    simp [processSource, perSourceCount, hz']

/-- Every file the source loop accumulates lives under `OEBPS/`. -/
theorem loopFold_files_oebps (cfg : Config) : ∀ (l : List (Nat × Source)) (st : RunSt),
    (∀ f ∈ st.files, List.isPrefixOf (ofStr "OEBPS/") f.1 = true) →
    ∀ f ∈ (l.foldl (loopStep cfg) st).files, List.isPrefixOf (ofStr "OEBPS/") f.1 = true := by
  intro l
  induction l with
  | nil => intro st h; exact h
  | cons q l ih =>
    intro st h
    rw [List.foldl_cons]
    apply ih
    obtain ⟨nu, nv, nw, nf, nm, ns, nl, na, th, he, hp⟩ := processSource_effect cfg q.1 st q.2
    intro f hf
    rw [show loopStep cfg st q = processSource cfg q.1 st q.2 from rfl, he] at hf
    simp only [List.mem_append] at hf
    rcases hf with hf | hf
    · exact h f hf
    · exact hp f hf

theorem combineLoop_files_oebps (srcs : List Source) (cfg : Config) :
    ∀ f ∈ (combineLoop srcs cfg).files, List.isPrefixOf (ofStr "OEBPS/") f.1 = true := by
  intro f hf
  simp only [combineLoop] at hf
  refine loopFold_files_oebps cfg srcs.enum (initialRunSt cfg) ?_ f hf
  intro g hg
  simp [initialRunSt] at hg

theorem lookupA_none_of (k : Str) : ∀ (l : List (Str × Str)), (∀ e ∈ l, e.1 ≠ k) →
    lookupA l k = none := by
  intro l
  induction l with
  | nil => intro h; rfl
  | cons e r ih =>
    intro h
    rw [lookupA_cons,
      if_neg (by simp only [beq_iff_eq]; exact h e (List.mem_cons_self e r))]
    exact ih (fun x hx => h x (List.mem_cons_of_mem e hx))

theorem combineCore_files (srcs : List Source) (cfg : Config) :
    (combineCore srcs cfg).files =
      (combineLoop srcs cfg).files ++
        [(ofStr "OEBPS/Text/nav.xhtml",
          buildNavXhtml cfg.title (combineLoop srcs cfg).spineLabels
            (combineLoop srcs cfg).tocHeading),
         (ofStr "mimetype", ofStr "application/epub+zip"),
         (ofStr "META-INF/container.xml", containerXml)] := rfl

/-- In every run, the `mimetype` output file holds the fixed marker content. -/
theorem combineModel_mimetype (srcs : List Source) (cfg : Config) (u t : Str) :
    lookupA (combineModel srcs cfg u t).files (ofStr "mimetype") =
      some (ofStr "application/epub+zip") := by
  rw [combineModel_files, combineCore_files, List.append_assoc, lookupA_append]
  have hl : lookupA (combineLoop srcs cfg).files (ofStr "mimetype") = none := by
    refine lookupA_none_of _ _ ?_
    intro e he heq
    have hp := combineLoop_files_oebps srcs cfg e he
    rw [heq] at hp
    exact absurd hp (by decide)
  simp only [hl, List.cons_append, List.nil_append, lookupA_cons]
  rw [if_neg (by decide), if_pos (by decide)]

/-- C7 (amended): for every run, the first entry of the output archive is named
`mimetype`, stored without compression, with content exactly
`application/epub+zip`, and all remaining entries are added with standard
compression in the deterministic `os.walk` order (each directory's own files
sorted, then its subdirectories recursively) — which is not the globally
lexical order of the entry names. -/
theorem c7_pack_amended (srcs : List Source) (cfg : Config) (u t : Str) (ar : List ZEntry)
    (har : ar = archiveModel srcs cfg u t) :
    ∃ tl, ar = ZEntry.mk (ofStr "mimetype") false (ofStr "application/epub+zip") :: tl ∧
      (∀ e ∈ tl, e.deflated = true) ∧
      tl.map ZEntry.name =
        (walkOrder ((combineModel srcs cfg u t).files.map (fun f => f.1))).filter
          (fun n => n ≠ ofStr "mimetype") := by
  subst har
  simp only [archiveModel, packModel]
  refine ⟨((walkOrder ((combineModel srcs cfg u t).files.map (fun f => f.1))).filter
      (fun n => n ≠ ofStr "mimetype")).map
      (fun n => ZEntry.mk n true ((lookupA (combineModel srcs cfg u t).files n).getD [])),
    ?_, ?_, ?_⟩
  · rw [combineModel_mimetype]
    rfl
  · intro e he
    obtain ⟨n, hn, he⟩ := List.mem_map.mp he
    rw [← he]
  · have hc : (ZEntry.name ∘ fun n =>
        ZEntry.mk n true ((lookupA (combineModel srcs cfg u t).files n).getD [])) = id := by
      funext n
      rfl
    rw [List.map_map, hc, List.map_id]

/-- C7 counterexample: on a concrete two-source run the archive tail (the
entries after `mimetype`) is not sorted lexically — `OEBPS/content.opf` and
`OEBPS/toc.ncx` precede the `OEBPS/Images/...` and `OEBPS/Text/...` entries
because `os.walk` yields a directory's direct files before its
subdirectories' contents. -/
theorem c7_counterexample :
    exArchive.map ZEntry.name =
      [ofStr "mimetype", ofStr "META-INF/container.xml", ofStr "OEBPS/content.opf",
       ofStr "OEBPS/toc.ncx", ofStr "OEBPS/Images/img_1.png", ofStr "OEBPS/Text/1.xhtml",
       ofStr "OEBPS/Text/2.xhtml", ofStr "OEBPS/Text/3.xhtml", ofStr "OEBPS/Text/nav.xhtml"] ∧
    (exArchive.map ZEntry.name).tail ≠ isort ((exArchive.map ZEntry.name).tail) := by
  have h : exArchive.map ZEntry.name =
      [ofStr "mimetype", ofStr "META-INF/container.xml", ofStr "OEBPS/content.opf",
       ofStr "OEBPS/toc.ncx", ofStr "OEBPS/Images/img_1.png", ofStr "OEBPS/Text/1.xhtml",
       ofStr "OEBPS/Text/2.xhtml", ofStr "OEBPS/Text/3.xhtml", ofStr "OEBPS/Text/nav.xhtml"] := by
    decide
  exact ⟨h, by rw [h]; decide⟩

theorem c7_witness :
    ∃ tl, exArchive = ZEntry.mk (ofStr "mimetype") false (ofStr "application/epub+zip") :: tl ∧
      (∀ e ∈ tl, e.deflated = true) ∧
      tl.map ZEntry.name =
        (walkOrder ((combineModel [srcShared1, srcShared2] cfgDefault
          (ofStr "11111111-2222-3333-4444-555555555555")
          (ofStr "2025-01-01T00:00:00Z")).files.map (fun f => f.1))).filter
          (fun n => n ≠ ofStr "mimetype") :=
  c7_pack_amended [srcShared1, srcShared2] cfgDefault
    (ofStr "11111111-2222-3333-4444-555555555555") (ofStr "2025-01-01T00:00:00Z")
    exArchive rfl

/-! ## C1 — image dedup: one resource per distinct content, sequential names -/

theorem isPrefixOf_false_of_ne : ∀ (c d : Str), c.length = d.length → c ≠ d →
    ∀ a b, List.isPrefixOf (c ++ a) (d ++ b) = false := by
  intro c
  induction c with
  | nil =>
    intro d hl hne a b
    cases d with
    | nil => exact absurd rfl hne
    | cons v d => simp at hl
  | cons u c ih =>
    intro d hl hne a b
    cases d with
    | nil => simp at hl
    | cons v d =>
      simp only [List.cons_append, List.isPrefixOf, List.append_eq]
      by_cases huv : u = v
      · subst huv
        have hne' : c ≠ d := fun hcd => hne (by rw [hcd])
        rw [ih d (by simpa using hl) hne' a b]
        simp
      · rw [beq_eq_false_iff_ne.mpr huv]
        simp

theorem imagesPre_fonts_false (y : Str) :
    List.isPrefixOf (ofStr "OEBPS/Images/") (ofStr "OEBPS/Fonts/" ++ y) = false := by
  rw [show ofStr "OEBPS/Images/" = ofStr "OEBPS/I" ++ ofStr "mages/" from by decide,
      show ofStr "OEBPS/Fonts/" = ofStr "OEBPS/F" ++ ofStr "onts/" from by decide,
      List.append_assoc]
  exact isPrefixOf_false_of_ne _ _ (by decide) (by decide) _ _

theorem imagesPre_styles_false (y : Str) :
    List.isPrefixOf (ofStr "OEBPS/Images/") (ofStr "OEBPS/Styles/" ++ y) = false := by
  rw [show ofStr "OEBPS/Images/" = ofStr "OEBPS/I" ++ ofStr "mages/" from by decide,
      show ofStr "OEBPS/Styles/" = ofStr "OEBPS/S" ++ ofStr "tyles/" from by decide,
      List.append_assoc]
  exact isPrefixOf_false_of_ne _ _ (by decide) (by decide) _ _

theorem imagesPre_text_false (y : Str) :
    List.isPrefixOf (ofStr "OEBPS/Images/") (ofStr "OEBPS/Text/" ++ y) = false := by
  rw [show ofStr "OEBPS/Images/" = ofStr "OEBPS/I" ++ ofStr "mages/" from by decide,
      show ofStr "OEBPS/Text/" = ofStr "OEBPS/T" ++ ofStr "ext/" from by decide,
      List.append_assoc]
  exact isPrefixOf_false_of_ne _ _ (by decide) (by decide) _ _

theorem imagesHref_fonts_false (y : Str) :
    List.isPrefixOf (ofStr "Images/") (ofStr "Fonts/" ++ y) = false := by
  rw [show ofStr "Images/" = ofStr "I" ++ ofStr "mages/" from by decide,
      show ofStr "Fonts/" = ofStr "F" ++ ofStr "onts/" from by decide,
      List.append_assoc]
  exact isPrefixOf_false_of_ne _ _ (by decide) (by decide) _ _

theorem imagesHref_styles_false (y : Str) :
    List.isPrefixOf (ofStr "Images/") (ofStr "Styles/" ++ y) = false := by
  rw [show ofStr "Images/" = ofStr "I" ++ ofStr "mages/" from by decide,
      show ofStr "Styles/" = ofStr "S" ++ ofStr "tyles/" from by decide,
      List.append_assoc]
  exact isPrefixOf_false_of_ne _ _ (by decide) (by decide) _ _

theorem imagesHref_text_false (y : Str) :
    List.isPrefixOf (ofStr "Images/") (ofStr "Text/" ++ y) = false := by
  rw [show ofStr "Images/" = ofStr "I" ++ ofStr "mages/" from by decide,
      show ofStr "Text/" = ofStr "T" ++ ofStr "ext/" from by decide,
      List.append_assoc]
  exact isPrefixOf_false_of_ne _ _ (by decide) (by decide) _ _

theorem lookupA_mem : ∀ (l : List (Str × Str)) (k v : Str),
    lookupA l k = some v → (k, v) ∈ l := by
  intro l k v h
  simp only [lookupA, Option.map_eq_some'] at h
  obtain ⟨e, he, hev⟩ := h
  have hmem := List.mem_of_find?_eq_some he
  have hpred := List.find?_some he
  rw [beq_iff_eq] at hpred
  obtain ⟨e1, e2⟩ := e
  dsimp only at hev hpred
  subst hev
  subst hpred
  exact hmem

theorem lookupA_none_keys : ∀ (l : List (Str × Str)) (k : Str),
    lookupA l k = none → k ∉ l.map (fun e => e.1) := by
  intro l k h hk
  obtain ⟨e, he, hek⟩ := List.mem_map.mp hk
  simp only [lookupA, Option.map_eq_none'] at h
  exact (List.find?_eq_none.mp h e he) (beq_iff_eq.mpr hek)

theorem decodeDec_natStrGo : ∀ fu : Nat, ∀ n : Nat, n ≤ fu →
    decodeDec (natStrGo fu n) = n := by
  intro fu
  induction fu with
  | zero =>
    intro n h
    have h0 : n = 0 := by omega
    subst h0
    rfl
  | succ fu ih =>
    intro n h
    by_cases h0 : n = 0
    · subst h0
      rfl
    · rw [show natStrGo (fu + 1) n = natStrGo fu (n / 10) ++ [48 + n % 10] from by
        simp [natStrGo, h0]]
      simp only [decodeDec, List.foldl_append, List.foldl_cons, List.foldl_nil]
      have hdiv : n / 10 ≤ fu := by
        have h1 : n / 10 < n := Nat.div_lt_self (Nat.pos_of_ne_zero h0) (by omega)
        omega
      rw [show List.foldl (fun a c => 10 * a + (c - 48)) 0 (natStrGo fu (n / 10)) = n / 10 from
        ih (n / 10) hdiv]
      omega

theorem decodeDec_natStr (n : Nat) : decodeDec (natStr n) = n := by
  by_cases h0 : n = 0
  · subst h0
    rfl
  · rw [show natStr n = natStrGo (n + 1) n from by simp [natStr, h0]]
    exact decodeDec_natStrGo (n + 1) n (by omega)

theorem natStr_inj {a b : Nat} (h : natStr a = natStr b) : a = b := by
  have ha := decodeDec_natStr a
  rw [h, decodeDec_natStr] at ha
  exact ha.symm

theorem natStrGo_digits : ∀ fu : Nat, ∀ n : Nat, ∀ c ∈ natStrGo fu n, 48 ≤ c ∧ c ≤ 57 := by
  intro fu
  induction fu with
  | zero => intro n c hc; simp [natStrGo] at hc
  | succ fu ih =>
    intro n c hc
    by_cases h0 : n = 0
    · subst h0
      simp [natStrGo] at hc
    · rw [show natStrGo (fu + 1) n = natStrGo fu (n / 10) ++ [48 + n % 10] from by
        simp [natStrGo, h0]] at hc
      rcases List.mem_append.mp hc with h | h
      · exact ih (n / 10) c h
      · rw [List.mem_singleton] at h
        subst h
        have := Nat.mod_lt n (show 0 < 10 by omega)
        omega

theorem natStr_digits (n : Nat) : ∀ c ∈ natStr n, 48 ≤ c ∧ c ≤ 57 := by
  by_cases h0 : n = 0
  · subst h0
    intro c hc
    simp [natStr] at hc
    omega
  · rw [show natStr n = natStrGo (n + 1) n from by simp [natStr, h0]]
    exact natStrGo_digits (n + 1) n

theorem digits_append_cancel : ∀ (xs ys a b : Str),
    xs ++ a = ys ++ b →
    (∀ c ∈ xs, 48 ≤ c ∧ c ≤ 57) → (∀ c ∈ ys, 48 ≤ c ∧ c ≤ 57) →
    a.head? = some DOT → b.head? = some DOT →
    xs = ys ∧ a = b := by
  intro xs
  induction xs with
  | nil =>
    intro ys a b he hx hy ha hb
    cases ys with
    | nil => exact ⟨rfl, by simpa using he⟩
    | cons v ys =>
      exfalso
      rw [List.nil_append, List.cons_append] at he
      rw [he] at ha
      simp only [List.head?_cons, Option.some.injEq] at ha
      have := hy v (List.mem_cons_self v ys)
      rw [ha] at this
      simp [DOT] at this
  | cons u xs ih =>
    intro ys a b he hx hy ha hb
    cases ys with
    | nil =>
      exfalso
      rw [List.nil_append, List.cons_append] at he
      rw [← he] at hb
      simp only [List.head?_cons, Option.some.injEq] at hb
      have := hx u (List.mem_cons_self u xs)
      rw [hb] at this
      simp [DOT] at this
    | cons v ys =>
      simp only [List.cons_append, List.cons.injEq] at he
      obtain ⟨h1, h2⟩ := he
      obtain ⟨hxs, hab⟩ := ih ys a b h2
        (fun c hc => hx c (List.mem_cons_of_mem u hc))
        (fun c hc => hy c (List.mem_cons_of_mem v hc)) ha hb
      exact ⟨by rw [h1, hxs], hab⟩

theorem imgName_inj (i j : Nat) (ei ej : Str)
    (hdi : ei.head? = some DOT) (hdj : ej.head? = some DOT)
    (h : ofStr "img_" ++ natStr (i + 1) ++ ei = ofStr "img_" ++ natStr (j + 1) ++ ej) :
    i = j ∧ ei = ej := by
  rw [List.append_assoc, List.append_assoc] at h
  have h2 := List.append_cancel_left h
  obtain ⟨hns, hes⟩ := digits_append_cancel (natStr (i + 1)) (natStr (j + 1)) ei ej h2
    (natStr_digits (i + 1)) (natStr_digits (j + 1)) hdi hdj
  exact ⟨by have := natStr_inj hns; omega, hes⟩

theorem nodup_of_inj_get : ∀ (l : List Str),
    (∀ i j (hi : i < l.length) (hj : j < l.length),
      l.get ⟨i, hi⟩ = l.get ⟨j, hj⟩ → i = j) →
    l.Nodup := by
  intro l h
  rw [List.nodup_iff_injective_get]
  intro a b heq
  exact Fin.ext (h a.1 b.1 a.2 b.2 heq)

theorem nodup_keys_unique : ∀ (l : List (Str × Str)),
    (l.map (fun e => e.1)).Nodup →
    ∀ h n1 n2, (h, n1) ∈ l → (h, n2) ∈ l → n1 = n2 := by
  intro l
  induction l with
  | nil => intro _ h n1 n2 h1 _; cases h1
  | cons e r ih =>
    intro hnd h n1 n2 h1 h2
    obtain ⟨ek, ev⟩ := e
    rw [List.map_cons, List.nodup_cons] at hnd
    obtain ⟨hke, hnd⟩ := hnd
    rcases List.mem_cons.mp h1 with h1 | h1 <;> rcases List.mem_cons.mp h2 with h2 | h2
    · rw [Prod.mk.injEq] at h1 h2
      rw [h1.2, h2.2]
    · rw [Prod.mk.injEq] at h1
      exact absurd (h1.1 ▸ List.mem_map.mpr ⟨(h, n2), h2, rfl⟩) hke
    · rw [Prod.mk.injEq] at h2
      exact absurd (h2.1 ▸ List.mem_map.mpr ⟨(h, n1), h1, rfl⟩) hke
    · exact ih hnd h n1 n2 h1 h2

theorem imageExt_head (n : Str) (h : isImageFile n = true) :
    (lowerS (pySuffix n)).head? = some DOT := by
  have hm : lowerS (pySuffix n) ∈ imageExts := by
    simp only [isImageFile] at h
    exact List.elem_iff.mp h
  exact (show ∀ x ∈ imageExts, x.head? = some DOT from by decide) _ hm

theorem imgFiles_append (st : RunSt) (x : Nat) (nu nv nw nf na : List (Str × Str))
    (nm : List Item) (ns nl : List Str) (th : Str) :
    imgFiles
      { st with
          htmlCounter := x
          imgUsed := st.imgUsed ++ nu
          fontUsed := st.fontUsed ++ nv
          styleUsed := st.styleUsed ++ nw
          manifest := st.manifest ++ nm
          spineIds := st.spineIds ++ ns
          spineLabels := st.spineLabels ++ nl
          files := st.files ++ nf
          imgAsg := st.imgAsg ++ na
          tocHeading := th } =
      imgFiles st ++ nf.filter (fun f => (ofStr "OEBPS/Images/").isPrefixOf f.1) := by
  simp [imgFiles, List.filter_append]

theorem imgItems_append (st : RunSt) (x : Nat) (nu nv nw nf na : List (Str × Str))
    (nm : List Item) (ns nl : List Str) (th : Str) :
    imgItems
      { st with
          htmlCounter := x
          imgUsed := st.imgUsed ++ nu
          fontUsed := st.fontUsed ++ nv
          styleUsed := st.styleUsed ++ nw
          manifest := st.manifest ++ nm
          spineIds := st.spineIds ++ ns
          spineLabels := st.spineLabels ++ nl
          files := st.files ++ nf
          imgAsg := st.imgAsg ++ na
          tocHeading := th } =
      imgItems st ++ nm.filter (fun it => (ofStr "Images/").isPrefixOf it.href) := by
  simp [imgItems, List.filter_append]

theorem imgInv_init (cfg : Config) : imgInv (initialRunSt cfg) := by
  refine ⟨by simp [initialRunSt], by simp [initialRunSt],
    by simp [initialRunSt, imgFiles], by simp [initialRunSt, imgItems], ?_⟩
  intro k hk
  simp [initialRunSt] at hk

theorem ciStep_imgInv (p : RunSt × Mapper) (e : Entry) (h : imgInv p.1) :
    imgInv (ciStep p e).1 := by
  obtain ⟨st, m⟩ := p
  obtain ⟨h1, h2, h3, h4, h5⟩ := h
  simp only [ciStep]
  split
  · next hImg =>
    split
    · next nn hL =>
      refine ⟨?_, h2, h3, h4, h5⟩
      intro pr hpr
      rcases List.mem_append.mp hpr with hpr | hpr
      · exact h1 pr hpr
      · rw [List.mem_singleton] at hpr
        subst hpr
        exact lookupA_mem _ _ _ hL
    · next hL =>
      refine ⟨?_, ?_, ?_, ?_, ?_⟩
      · intro pr hpr
        rcases List.mem_append.mp hpr with hpr | hpr
        · exact List.mem_append_left _ (h1 pr hpr)
        · exact List.mem_append_right _ hpr
      · rw [List.map_append]
        refine List.Nodup.append h2 (by simp) ?_
        intro a ha hb
        simp only [List.map_cons, List.map_nil, List.mem_singleton] at hb
        subst hb
        exact lookupA_none_keys st.imgUsed e.data hL ha
      · rw [show imgFiles
            { st with
                imgUsed := st.imgUsed ++ [(e.data, ofStr "img_" ++
                  natStr (st.imgUsed.length + 1) ++ lowerS (pySuffix e.name))]
                files := st.files ++ [(ofStr "OEBPS/Images/" ++ (ofStr "img_" ++
                  natStr (st.imgUsed.length + 1) ++ lowerS (pySuffix e.name)), e.data)]
                manifest := st.manifest ++
                  [⟨ofStr "img_" ++ natStr (st.imgUsed.length + 1), ofStr "Images/" ++
                    (ofStr "img_" ++ natStr (st.imgUsed.length + 1) ++
                      lowerS (pySuffix e.name)), mediaType (ofStr "img_" ++
                      natStr (st.imgUsed.length + 1) ++ lowerS (pySuffix e.name)), []⟩]
                imgAsg := st.imgAsg ++ [(e.data, ofStr "img_" ++
                  natStr (st.imgUsed.length + 1) ++ lowerS (pySuffix e.name))] } =
            imgFiles st ++ [(ofStr "OEBPS/Images/" ++ (ofStr "img_" ++
              natStr (st.imgUsed.length + 1) ++ lowerS (pySuffix e.name)), e.data)] from by
          simp [imgFiles, List.filter_append, isPrefixOf_refl_append]]
        rw [h3, List.map_append]
        rfl
      · rw [show imgItems
            { st with
                imgUsed := st.imgUsed ++ [(e.data, ofStr "img_" ++
                  natStr (st.imgUsed.length + 1) ++ lowerS (pySuffix e.name))]
                files := st.files ++ [(ofStr "OEBPS/Images/" ++ (ofStr "img_" ++
                  natStr (st.imgUsed.length + 1) ++ lowerS (pySuffix e.name)), e.data)]
                manifest := st.manifest ++
                  [⟨ofStr "img_" ++ natStr (st.imgUsed.length + 1), ofStr "Images/" ++
                    (ofStr "img_" ++ natStr (st.imgUsed.length + 1) ++
                      lowerS (pySuffix e.name)), mediaType (ofStr "img_" ++
                      natStr (st.imgUsed.length + 1) ++ lowerS (pySuffix e.name)), []⟩]
                imgAsg := st.imgAsg ++ [(e.data, ofStr "img_" ++
                  natStr (st.imgUsed.length + 1) ++ lowerS (pySuffix e.name))] } =
            imgItems st ++ [⟨ofStr "img_" ++ natStr (st.imgUsed.length + 1),
              ofStr "Images/" ++ (ofStr "img_" ++ natStr (st.imgUsed.length + 1) ++
                lowerS (pySuffix e.name)), mediaType (ofStr "img_" ++
                natStr (st.imgUsed.length + 1) ++ lowerS (pySuffix e.name)), []⟩] from by
          simp [imgItems, List.filter_append, isPrefixOf_refl_append]]
        rw [h4, List.enumFrom_append]
        rw [show (1 : Nat) + st.imgUsed.length = st.imgUsed.length + 1 from by omega,
          List.map_append]
        rfl
      · intro k hk
        simp only [List.length_append, List.length_cons, List.length_nil] at hk
        by_cases hklt : k < st.imgUsed.length
        · obtain ⟨ext, he, hd⟩ := h5 k hklt
          refine ⟨ext, ?_, hd⟩
          rw [List.get_append k hklt]
          exact he
        · have hk2 : k = st.imgUsed.length := by omega
          subst hk2
          refine ⟨lowerS (pySuffix e.name), ?_, imageExt_head e.name hImg⟩
          rw [show (st.imgUsed ++ [(e.data, ofStr "img_" ++
              natStr (st.imgUsed.length + 1) ++ lowerS (pySuffix e.name))]).get
              ⟨st.imgUsed.length, by simp⟩ = (e.data, ofStr "img_" ++
              natStr (st.imgUsed.length + 1) ++ lowerS (pySuffix e.name)) from by simp]
  · exact ⟨h1, h2, h3, h4, h5⟩

theorem collectImages_imgInv : ∀ (es : List Entry) (st : RunSt) (m : Mapper),
    imgInv st → imgInv (collectImages st m es).1 := by
  intro es
  induction es with
  | nil => intro st m h; exact h
  | cons e es ih =>
    intro st m h
    rw [show collectImages st m (e :: es) =
        collectImages (ciStep (st, m) e).1 (ciStep (st, m) e).2 es from by
      simp only [collectImages, List.foldl_cons, Prod.mk.eta]]
    exact ih _ _ (ciStep_imgInv (st, m) e h)

theorem imgInv_of_extend (st st' : RunSt)
    (hU : st'.imgUsed = st.imgUsed) (hA : st'.imgAsg = st.imgAsg)
    (hF : ∃ nf, st'.files = st.files ++ nf ∧
      ∀ f ∈ nf, (ofStr "OEBPS/Images/").isPrefixOf f.1 = false)
    (hM : ∃ nm, st'.manifest = st.manifest ++ nm ∧
      ∀ it ∈ nm, (ofStr "Images/").isPrefixOf (Item.href it) = false)
    (h : imgInv st) : imgInv st' := by
  obtain ⟨h1, h2, h3, h4, h5⟩ := h
  obtain ⟨nf, hf, hfp⟩ := hF
  obtain ⟨nm, hm, hmp⟩ := hM
  refine ⟨?_, ?_, ?_, ?_, ?_⟩
  · intro pr hpr
    rw [hA] at hpr
    rw [hU]
    exact h1 pr hpr
  · rw [hU]
    exact h2
  · simp only [imgFiles, hf, List.filter_append]
    rw [show nf.filter (fun f => (ofStr "OEBPS/Images/").isPrefixOf f.1) = [] from
        List.filter_eq_nil_iff.mpr (fun f hfm => by rw [hfp f hfm]; simp),
      List.append_nil, hU]
    exact h3
  · simp only [imgItems, hm, List.filter_append]
    rw [show nm.filter (fun it => (ofStr "Images/").isPrefixOf (Item.href it)) = [] from
        List.filter_eq_nil_iff.mpr (fun it hitm => by rw [hmp it hitm]; simp),
      List.append_nil, hU]
    exact h4
  · intro k hk
    have hk' : k < st.imgUsed.length := hU ▸ hk
    obtain ⟨ext, he, hd⟩ := h5 k hk'
    refine ⟨ext, ?_, hd⟩
    rw [List.get_of_eq hU ⟨k, hk⟩]
    exact he

theorem processSource_imgInv (cfg : Config) (idx : Nat) (st : RunSt) (src : Source)
    (h : imgInv st) : imgInv (processSource cfg idx st src) := by
  by_cases hZ : src.isZip = true
  · simp only [processSource]
    rw [if_neg (by rw [hZ]; decide)]
    set st0 := tocAdjust cfg idx st src with hst0
    set P1 := collectImages st0 Mapper.empty src.entries with hP1
    set P2 := collectFonts P1.1 P1.2 src.entries with hP2
    set P3 := collectStyles P2.1 P2.2.finalizeM src.entries with hP3
    set CNN := contentNewName P3.1.htmlCounter (orderedContent cfg src) with hCNN
    set MP2 := (CNN.foldl (fun m p => m.add p.1 (ofStr "../Text/" ++ p.2)) P3.2).finalizeM
      with hMP2
    set P4 := processContent cfg src MP2 P3.1.htmlCounter CNN P3.1 with hP4
    obtain ⟨th0, hth⟩ := tocAdjust_shape cfg idx st src
    rw [← hst0] at hth
    have h0 : imgInv st0 := by
      rw [hth]
      exact h
    have hI1 : imgInv P1.1 := by
      rw [hP1]
      exact collectImages_imgInv src.entries st0 Mapper.empty h0
    have hI2 : imgInv P2.1 := by
      obtain ⟨nv, nf, nm, he, hfp, hmp⟩ := collectFonts_effect src.entries P1.1 P1.2
      rw [hP2, he]
      refine imgInv_of_extend P1.1 _ rfl rfl ⟨nf, rfl, ?_⟩ ⟨nm, rfl, ?_⟩ hI1
      · intro f hf
        obtain ⟨y, hy⟩ := hfp f hf
        rw [hy]
        exact imagesPre_fonts_false y
      · intro it hit
        obtain ⟨y, hy⟩ := hmp it hit
        rw [hy]
        exact imagesHref_fonts_false y
    have hI3 : imgInv P3.1 := by
      obtain ⟨nw, nf, nm, he, hfp, hmp⟩ := collectStyles_effect src.entries P2.1 P2.2.finalizeM
      rw [hP3, he]
      refine imgInv_of_extend P2.1 _ rfl rfl ⟨nf, rfl, ?_⟩ ⟨nm, rfl, ?_⟩ hI2
      · intro f hf
        obtain ⟨y, hy⟩ := hfp f hf
        rw [hy]
        exact imagesPre_styles_false y
      · intro it hit
        obtain ⟨y, hy⟩ := hmp it hit
        rw [hy]
        exact imagesHref_styles_false y
    have hI4 : imgInv P4 := by
      obtain ⟨nf, nm, ns, nl, he, hfp, hmp⟩ :=
        processContent_effect cfg src MP2 P3.1.htmlCounter CNN P3.1
      rw [hP4, he]
      refine imgInv_of_extend P3.1 _ rfl rfl ⟨nf, rfl, ?_⟩ ⟨nm, rfl, ?_⟩ hI3
      · intro f hf
        obtain ⟨y, hy⟩ := hfp f hf
        rw [hy]
        exact imagesPre_text_false y
      · intro it hit
        obtain ⟨y, hy⟩ := hmp it hit
        rw [hy]
        exact imagesHref_text_false y
    exact hI4
  · have hz' : src.isZip = false := by
      cases hcs : src.isZip
      · rfl
      · exact absurd hcs hZ
    simp only [processSource]
    rw [if_pos (by rw [hz']; rfl)]
    exact h

theorem loopFold_imgInv (cfg : Config) : ∀ (l : List (Nat × Source)) (st : RunSt),
    imgInv st → imgInv (l.foldl (loopStep cfg) st) := by
  intro l
  induction l with
  | nil => intro st h; exact h
  | cons q l ih =>
    intro st h
    rw [List.foldl_cons]
    exact ih _ (processSource_imgInv cfg q.1 st q.2 h)

theorem combineLoop_imgInv (srcs : List Source) (cfg : Config) :
    imgInv (combineLoop srcs cfg) := by
  simp only [combineLoop]
  exact loopFold_imgInv cfg srcs.enum (initialRunSt cfg) (imgInv_init cfg)

theorem combineCore_manifest (srcs : List Source) (cfg : Config) :
    (combineCore srcs cfg).manifest =
      (combineLoop srcs cfg).manifest ++
        [⟨ofStr "nav", ofStr "Text/nav.xhtml", ofStr "application/xhtml+xml",
          ofStr "nav"⟩] := rfl

theorem combineModel_imgInv (srcs : List Source) (cfg : Config) (u t : Str) :
    imgInv (combineModel srcs cfg u t) := by
  have hcore : imgInv (combineCore srcs cfg) := by
    refine imgInv_of_extend (combineLoop srcs cfg) _ rfl rfl
      ⟨_, combineCore_files srcs cfg, ?_⟩ ⟨_, combineCore_manifest srcs cfg, ?_⟩
      (combineLoop_imgInv srcs cfg)
    · intro f hf
      rcases List.mem_cons.mp hf with hf | hf
      · subst hf
        exact (show List.isPrefixOf (ofStr "OEBPS/Images/")
          (ofStr "OEBPS/Text/nav.xhtml") = false from by decide)
      rcases List.mem_cons.mp hf with hf | hf
      · subst hf
        exact (show List.isPrefixOf (ofStr "OEBPS/Images/") (ofStr "mimetype") = false from
          by decide)
      rcases List.mem_cons.mp hf with hf | hf
      · subst hf
        exact (show List.isPrefixOf (ofStr "OEBPS/Images/")
          (ofStr "META-INF/container.xml") = false from by decide)
      · cases hf
    · intro it hit
      rw [List.mem_singleton] at hit
      subst hit
      exact (show List.isPrefixOf (ofStr "Images/") (ofStr "Text/nav.xhtml") = false from
        by decide)
  refine imgInv_of_extend (combineCore srcs cfg) _ rfl rfl
    ⟨_, combineModel_files srcs cfg u t, ?_⟩ ⟨[], by rw [List.append_nil]; rfl, by simp⟩ hcore
  intro f hf
  rcases List.mem_cons.mp hf with hf | hf
  · subst hf
    exact (show List.isPrefixOf (ofStr "OEBPS/Images/") (ofStr "OEBPS/content.opf") = false
      from by decide)
  rcases List.mem_cons.mp hf with hf | hf
  · subst hf
    exact (show List.isPrefixOf (ofStr "OEBPS/Images/") (ofStr "OEBPS/toc.ncx") = false from
      by decide)
  · cases hf

theorem imgUsed_names_nodup (st : RunSt) (h : imgInv st) :
    (st.imgUsed.map (fun e => e.2)).Nodup := by
  obtain ⟨_, _, _, _, h5⟩ := h
  apply nodup_of_inj_get
  intro i j hi hj heq
  have hi' : i < st.imgUsed.length := by simpa using hi
  have hj' : j < st.imgUsed.length := by simpa using hj
  have hgi : (st.imgUsed.map (fun e => e.2)).get ⟨i, hi⟩ = (st.imgUsed.get ⟨i, hi'⟩).2 := by
    simp
  have hgj : (st.imgUsed.map (fun e => e.2)).get ⟨j, hj⟩ = (st.imgUsed.get ⟨j, hj'⟩).2 := by
    simp
  rw [hgi, hgj] at heq
  obtain ⟨ei, hei, hdi⟩ := h5 i hi'
  obtain ⟨ej, hej, hdj⟩ := h5 j hj'
  rw [hei, hej] at heq
  exact (imgName_inj i j ei ej hdi hdj heq).1

/-- C1: within one run, identical image contents are always assigned the same
output filename (every `mapper.add` assignment comes from the content-keyed
table, whose keys are unique); the output holds exactly one image file and one
manifest item per distinct content, in first-seen order; and the `k`-th
distinct content (0-based) is named `img_(k+1)` with its dot-led extension —
so distinct contents receive distinct sequential names `img_1, img_2, …`. -/
theorem c1_image_dedup (srcs : List Source) (cfg : Config) (u t : Str) (st : RunSt)
    (hst : st = combineModel srcs cfg u t) :
    (∀ h n1 n2, (h, n1) ∈ st.imgAsg → (h, n2) ∈ st.imgAsg → n1 = n2) ∧
    (∀ pr ∈ st.imgAsg, pr ∈ st.imgUsed) ∧
    ((st.imgUsed.map (fun e => e.1)).Nodup) ∧
    (imgFiles st = st.imgUsed.map (fun e => (ofStr "OEBPS/Images/" ++ e.2, e.1))) ∧
    (imgItems st = (st.imgUsed.enumFrom 1).map (fun q =>
      ⟨ofStr "img_" ++ natStr q.1, ofStr "Images/" ++ q.2.2, mediaType q.2.2, []⟩)) ∧
    (∀ k, (hk : k < st.imgUsed.length) → ∃ ext,
      (st.imgUsed.get ⟨k, hk⟩).2 = ofStr "img_" ++ natStr (k + 1) ++ ext) ∧
    ((st.imgUsed.map (fun e => e.2)).Nodup) := by
  subst hst
  have hinv := combineModel_imgInv srcs cfg u t
  obtain ⟨h1, h2, h3, h4, h5⟩ := hinv
  refine ⟨?_, h1, h2, h3, h4, ?_, ?_⟩
  · intro h n1 n2 hn1 hn2
    exact nodup_keys_unique _ h2 h n1 n2 (h1 _ hn1) (h1 _ hn2)
  · intro k hk
    obtain ⟨ext, he, _⟩ := h5 k hk
    exact ⟨ext, he⟩
  · exact imgUsed_names_nodup _ ⟨h1, h2, h3, h4, h5⟩

theorem c1_witness :
    ((ofStr "IMGBYTES", ofStr "img_1.png") ∈
      (combineModel [srcShared1, srcShared2] cfgDefault (ofStr "u") (ofStr "t")).imgAsg) ∧
    ofStr "img_1.png" = ofStr "img_1.png" :=
  ⟨by decide,
   (c1_image_dedup [srcShared1, srcShared2] cfgDefault (ofStr "u") (ofStr "t") _ rfl).1
     (ofStr "IMGBYTES") (ofStr "img_1.png") (ofStr "img_1.png") (by decide) (by decide)⟩

/-! ## C3 — sequential content numbering -/

theorem textPre_images_false (y : Str) :
    List.isPrefixOf (ofStr "OEBPS/Text/") (ofStr "OEBPS/Images/" ++ y) = false := by
  rw [show ofStr "OEBPS/Text/" = ofStr "OEBPS/T" ++ ofStr "ext/" from by decide,
      show ofStr "OEBPS/Images/" = ofStr "OEBPS/I" ++ ofStr "mages/" from by decide,
      List.append_assoc]
  exact isPrefixOf_false_of_ne _ _ (by decide) (by decide) _ _

theorem textPre_fonts_false (y : Str) :
    List.isPrefixOf (ofStr "OEBPS/Text/") (ofStr "OEBPS/Fonts/" ++ y) = false := by
  rw [show ofStr "OEBPS/Text/" = ofStr "OEBPS/T" ++ ofStr "ext/" from by decide,
      show ofStr "OEBPS/Fonts/" = ofStr "OEBPS/F" ++ ofStr "onts/" from by decide,
      List.append_assoc]
  exact isPrefixOf_false_of_ne _ _ (by decide) (by decide) _ _

theorem textPre_styles_false (y : Str) :
    List.isPrefixOf (ofStr "OEBPS/Text/") (ofStr "OEBPS/Styles/" ++ y) = false := by
  rw [show ofStr "OEBPS/Text/" = ofStr "OEBPS/T" ++ ofStr "ext/" from by decide,
      show ofStr "OEBPS/Styles/" = ofStr "OEBPS/S" ++ ofStr "tyles/" from by decide,
      List.append_assoc]
  exact isPrefixOf_false_of_ne _ _ (by decide) (by decide) _ _

theorem textNames_of_extend (st st' : RunSt)
    (hF : ∃ nf, st'.files = st.files ++ nf ∧
      ∀ f ∈ nf, (ofStr "OEBPS/Text/").isPrefixOf f.1 = false) :
    textNames st' = textNames st := by
  obtain ⟨nf, hf, hfp⟩ := hF
  simp only [textNames, hf, List.filter_append]
  rw [show nf.filter (fun f => (ofStr "OEBPS/Text/").isPrefixOf f.1) = [] from
      List.filter_eq_nil_iff.mpr (fun f hfm => by rw [hfp f hfm]; simp),
    List.append_nil]

theorem fused_names : ∀ (ordered : List Str) (n m startNum : Nat),
    (((ordered.enumFrom n).map
        (fun p => (p.2, natStr (startNum + p.1) ++ ofStr ".xhtml"))).enumFrom m).map
      (fun q => ofStr "OEBPS/Text/" ++ q.2.2) =
    (List.range ordered.length).map (fun k => mkTextName (startNum + n + k)) := by
  intro ordered
  induction ordered with
  | nil => intro n m s; rfl
  | cons a l ih =>
    intro n m s
    simp only [List.enumFrom, List.map_cons]
    rw [ih (n + 1) (m + 1) s]
    rw [List.length_cons, List.range_succ_eq_map, List.map_cons, List.map_map]
    congr 1
    refine List.map_congr_left ?_
    intro k hk
    show mkTextName (s + (n + 1) + k) = mkTextName (s + n + Nat.succ k)
    rw [show s + (n + 1) + k = s + n + Nat.succ k from by omega]

theorem fused_ids : ∀ {α : Type} (l : List α) (m startNum : Nat),
    (l.enumFrom m).map (fun q => ofStr "chapter_" ++ natStr (startNum + q.1)) =
      (List.range l.length).map (fun k => mkChapterId (startNum + m + k)) := by
  intro α l
  induction l with
  | nil => intro m s; rfl
  | cons a l ih =>
    intro m s
    simp only [List.enumFrom, List.map_cons]
    rw [ih (m + 1) s]
    rw [List.length_cons, List.range_succ_eq_map, List.map_cons, List.map_map]
    congr 1
    refine List.map_congr_left ?_
    intro k hk
    show mkChapterId (s + (m + 1) + k) = mkChapterId (s + m + Nat.succ k)
    rw [show s + (m + 1) + k = s + m + Nat.succ k from by omega]

theorem pcStep_readable (cfg : Config) (src : Source) (mp : Mapper) (startNum : Nat)
    (st : RunSt) (q : Nat × (Str × Str)) (h : (src.readE q.2.1).isSome = true) :
    textNames (pcStep cfg src mp startNum st q) =
      textNames st ++ [ofStr "OEBPS/Text/" ++ q.2.2] ∧
    (pcStep cfg src mp startNum st q).spineIds =
      st.spineIds ++ [ofStr "chapter_" ++ natStr (startNum + q.1)] ∧
    (pcStep cfg src mp startNum st q).htmlCounter = st.htmlCounter := by
  simp only [pcStep]
  split
  · next hnone =>
    rw [hnone] at h
    simp at h
  · next raw hsome =>
    refine ⟨?_, rfl, rfl⟩
    simp [textNames, List.filter_append, isPrefixOf_refl_append]

theorem processContentFold_exact (cfg : Config) (src : Source) (mp : Mapper)
    (startNum : Nat) : ∀ (l : List (Nat × (Str × Str))),
    (∀ q ∈ l, (src.readE q.2.1).isSome = true) → ∀ (st : RunSt),
    textNames (l.foldl (pcStep cfg src mp startNum) st) =
      textNames st ++ l.map (fun q => ofStr "OEBPS/Text/" ++ q.2.2) ∧
    (l.foldl (pcStep cfg src mp startNum) st).spineIds =
      st.spineIds ++ l.map (fun q => ofStr "chapter_" ++ natStr (startNum + q.1)) ∧
    (l.foldl (pcStep cfg src mp startNum) st).htmlCounter = st.htmlCounter := by
  intro l
  induction l with
  | nil =>
    intro _ st
    exact ⟨by simp, by simp, rfl⟩
  | cons q l ih =>
    intro hr st
    rw [List.foldl_cons]
    obtain ⟨ht, hs, hc⟩ := pcStep_readable cfg src mp startNum st q
      (hr q (List.mem_cons_self q l))
    obtain ⟨iht, ihs, ihc⟩ := ih (fun x hx => hr x (List.mem_cons_of_mem q hx))
      (pcStep cfg src mp startNum st q)
    refine ⟨?_, ?_, ?_⟩
    · rw [iht, ht, List.map_cons, List.append_assoc]
      rfl
    · rw [ihs, hs, List.map_cons, List.append_assoc]
      rfl
    · rw [ihc, hc]

/-- `processSource` on a valid, fully readable source: the content files it
writes are exactly `startNum+1 … startNum+len` under `OEBPS/Text/`, the spine
grows by the matching chapter ids, and the counter advances by `len`. -/
theorem processSource_content (cfg : Config) (idx : Nat) (st : RunSt) (src : Source)
    (hZ : src.isZip = true)
    (hr : ∀ n ∈ orderedContent cfg src, (src.readE n).isSome = true) :
    textNames (processSource cfg idx st src) =
      textNames st ++ (List.range (orderedContent cfg src).length).map
        (fun k => mkTextName (st.htmlCounter + 1 + k)) ∧
    (processSource cfg idx st src).spineIds =
      st.spineIds ++ (List.range (orderedContent cfg src).length).map
        (fun k => mkChapterId (st.htmlCounter + 1 + k)) ∧
    (processSource cfg idx st src).htmlCounter =
      st.htmlCounter + (orderedContent cfg src).length := by
  simp only [processSource]
  rw [if_neg (by rw [hZ]; decide)]
  set st0 := tocAdjust cfg idx st src with hst0
  set P1 := collectImages st0 Mapper.empty src.entries with hP1
  set P2 := collectFonts P1.1 P1.2 src.entries with hP2
  set P3 := collectStyles P2.1 P2.2.finalizeM src.entries with hP3
  set CNN := contentNewName P3.1.htmlCounter (orderedContent cfg src) with hCNN
  set MP2 := (CNN.foldl (fun m p => m.add p.1 (ofStr "../Text/" ++ p.2)) P3.2).finalizeM
    with hMP2
  set P4 := processContent cfg src MP2 P3.1.htmlCounter CNN P3.1 with hP4
  obtain ⟨th0, hth⟩ := tocAdjust_shape cfg idx st src
  rw [← hst0] at hth
  obtain ⟨nu1, nf1, nm1, na1, h1e, h1f, h1m⟩ := collectImages_effect src.entries st0 Mapper.empty
  rw [← hP1] at h1e
  obtain ⟨nv2, nf2, nm2, h2e, h2f, h2m⟩ := collectFonts_effect src.entries P1.1 P1.2
  rw [← hP2] at h2e
  obtain ⟨nw3, nf3, nm3, h3e, h3f, h3m⟩ := collectStyles_effect src.entries P2.1 P2.2.finalizeM
  rw [← hP3] at h3e
  -- the collects neither write under Text/ nor touch the counter or spine
  have ht0 : textNames st0 = textNames st := by rw [hth]; rfl
  have hc0 : st0.htmlCounter = st.htmlCounter := by rw [hth]
  have hs0 : st0.spineIds = st.spineIds := by rw [hth]
  have ht1 : textNames P1.1 = textNames st0 := by
    refine textNames_of_extend st0 P1.1 ⟨nf1, by rw [h1e], ?_⟩
    intro f hf
    obtain ⟨y, hy⟩ := h1f f hf
    rw [hy]
    exact textPre_images_false y
  have hc1 : P1.1.htmlCounter = st0.htmlCounter := by rw [h1e]
  have hs1 : P1.1.spineIds = st0.spineIds := by rw [h1e]
  have ht2 : textNames P2.1 = textNames P1.1 := by
    refine textNames_of_extend P1.1 P2.1 ⟨nf2, by rw [h2e], ?_⟩
    intro f hf
    obtain ⟨y, hy⟩ := h2f f hf
    rw [hy]
    exact textPre_fonts_false y
  have hc2 : P2.1.htmlCounter = P1.1.htmlCounter := by rw [h2e]
  have hs2 : P2.1.spineIds = P1.1.spineIds := by rw [h2e]
  have ht3 : textNames P3.1 = textNames P2.1 := by
    refine textNames_of_extend P2.1 P3.1 ⟨nf3, by rw [h3e], ?_⟩
    intro f hf
    obtain ⟨y, hy⟩ := h3f f hf
    rw [hy]
    exact textPre_styles_false y
  have hc3 : P3.1.htmlCounter = P2.1.htmlCounter := by rw [h3e]
  have hs3 : P3.1.spineIds = P2.1.spineIds := by rw [h3e]
  have hcc : P3.1.htmlCounter = st.htmlCounter := by rw [hc3, hc2, hc1, hc0]
  -- the content loop
  have hrd : ∀ q ∈ CNN.enumFrom 1, (src.readE q.2.1).isSome = true := by
    intro q hq
    have hq2 := mem_enumFrom_snd (CNN) 1 q hq
    rw [hCNN] at hq2
    simp only [contentNewName] at hq2
    obtain ⟨p, hp, hpe⟩ := List.mem_map.mp hq2
    have hp2 := mem_enumFrom_snd _ 1 p hp
    rw [← hpe]
    exact hr p.2 hp2
  obtain ⟨h4t, h4s, h4c⟩ := processContentFold_exact cfg src MP2 P3.1.htmlCounter
    (CNN.enumFrom 1) hrd P3.1
  rw [show (CNN.enumFrom 1).foldl (pcStep cfg src MP2 P3.1.htmlCounter) P3.1 =
      processContent cfg src MP2 P3.1.htmlCounter CNN P3.1 from rfl, ← hP4] at h4t h4s h4c
  have hnames : (CNN.enumFrom 1).map (fun q => ofStr "OEBPS/Text/" ++ q.2.2) =
      (List.range (orderedContent cfg src).length).map
        (fun k => mkTextName (st.htmlCounter + 1 + k)) := by
    rw [hCNN]
    simp only [contentNewName]
    rw [fused_names (orderedContent cfg src) 1 1 P3.1.htmlCounter]
    refine List.map_congr_left ?_
    intro k hk
    rw [hcc, show st.htmlCounter + 1 + k = st.htmlCounter + 1 + k from rfl]
  have hids : (CNN.enumFrom 1).map (fun q => ofStr "chapter_" ++
        natStr (P3.1.htmlCounter + q.1)) =
      (List.range (orderedContent cfg src).length).map
        (fun k => mkChapterId (st.htmlCounter + 1 + k)) := by
    rw [fused_ids CNN 1 P3.1.htmlCounter]
    have hlen : CNN.length = (orderedContent cfg src).length := by
      rw [hCNN]
      simp [contentNewName]
    rw [hlen]
    refine List.map_congr_left ?_
    intro k hk
    rw [hcc]
  refine ⟨?_, ?_, ?_⟩
  · rw [show textNames { P4 with
        htmlCounter := P3.1.htmlCounter + (orderedContent cfg src).length } =
      textNames P4 from rfl]
    rw [h4t, hnames, ht3, ht2, ht1, ht0]
  · show P4.spineIds = _
    rw [h4s, hids, hs3, hs2, hs1, hs0]
  · show P3.1.htmlCounter + (orderedContent cfg src).length = _
    rw [hcc]

theorem processSource_invalid (cfg : Config) (idx : Nat) (st : RunSt) (src : Source)
    (hz : src.isZip = false) : processSource cfg idx st src = st := by
  simp only [processSource]
  rw [if_pos (by rw [hz]; rfl)]

theorem range_add_map {β : Type} (g : Nat → β) (a b : Nat) :
    (List.range (a + b)).map g =
      (List.range a).map g ++ (List.range b).map (fun k => g (a + k)) := by
  rw [List.range_add, List.map_append, List.map_map]
  congr 1

/-- The source loop over readable sources: content names and spine ids are the
consecutive blocks continuing the incoming counter. -/
theorem loopFold_content (cfg : Config) : ∀ (l : List (Nat × Source)) (st : RunSt),
    (∀ q ∈ l, q.2.isZip = true → ∀ n ∈ orderedContent cfg q.2,
      (q.2.readE n).isSome = true) →
    textNames (l.foldl (loopStep cfg) st) =
      textNames st ++ (List.range ((l.map (fun q => perSourceCount cfg q.2)).sum)).map
        (fun k => mkTextName (st.htmlCounter + 1 + k)) ∧
    (l.foldl (loopStep cfg) st).spineIds =
      st.spineIds ++ (List.range ((l.map (fun q => perSourceCount cfg q.2)).sum)).map
        (fun k => mkChapterId (st.htmlCounter + 1 + k)) ∧
    (l.foldl (loopStep cfg) st).htmlCounter =
      st.htmlCounter + (l.map (fun q => perSourceCount cfg q.2)).sum := by
  intro l
  induction l with
  | nil =>
    intro st _
    exact ⟨by simp, by simp, by simp⟩
  | cons q l ih =>
    intro st hrd
    by_cases hz : q.2.isZip = true
    · have hper : perSourceCount cfg q.2 = (orderedContent cfg q.2).length := by
        simp [perSourceCount, hz]
      obtain ⟨ht, hs, hc⟩ := processSource_content cfg q.1 st q.2 hz
        (hrd q (List.mem_cons_self q l) hz)
      obtain ⟨iht, ihs, ihc⟩ := ih (processSource cfg q.1 st q.2)
        (fun x hx => hrd x (List.mem_cons_of_mem q hx))
      refine ⟨?_, ?_, ?_⟩
      · rw [List.foldl_cons, show loopStep cfg st q = processSource cfg q.1 st q.2 from rfl,
          iht, ht, hc, List.append_assoc]
        simp only [List.map_cons, List.sum_cons]
        rw [hper, range_add_map]
        congr 1
        congr 1
        refine List.map_congr_left ?_
        intro k hk
        rw [show st.htmlCounter + (orderedContent cfg q.2).length + 1 + k =
          st.htmlCounter + 1 + ((orderedContent cfg q.2).length + k) from by omega]
      · rw [List.foldl_cons, show loopStep cfg st q = processSource cfg q.1 st q.2 from rfl,
          ihs, hs, hc, List.append_assoc]
        simp only [List.map_cons, List.sum_cons]
        rw [hper, range_add_map]
        congr 1
        congr 1
        refine List.map_congr_left ?_
        intro k hk
        rw [show st.htmlCounter + (orderedContent cfg q.2).length + 1 + k =
          st.htmlCounter + 1 + ((orderedContent cfg q.2).length + k) from by omega]
      · rw [List.foldl_cons, show loopStep cfg st q = processSource cfg q.1 st q.2 from rfl,
          ihc, hc]
        simp only [List.map_cons, List.sum_cons]
        rw [hper]
        omega
    · have hz' : q.2.isZip = false := by
        cases hcs : q.2.isZip
        · rfl
        · exact absurd hcs hz
      have hstep : loopStep cfg st q = st := processSource_invalid cfg q.1 st q.2 hz'
      obtain ⟨iht, ihs, ihc⟩ := ih st (fun x hx => hrd x (List.mem_cons_of_mem q hx))
      have hper : perSourceCount cfg q.2 = 0 := by
        simp [perSourceCount, hz']
      refine ⟨?_, ?_, ?_⟩
      · rw [List.foldl_cons, hstep, iht]
        simp only [List.map_cons, List.sum_cons, hper, Nat.zero_add]
      · rw [List.foldl_cons, hstep, ihs]
        simp only [List.map_cons, List.sum_cons, hper, Nat.zero_add]
      · rw [List.foldl_cons, hstep, ihc]
        simp only [List.map_cons, List.sum_cons, hper, Nat.zero_add]

theorem enumFrom_map_snd_f {α β : Type} (g : α → β) : ∀ (n : Nat) (l : List α),
    (l.enumFrom n).map (fun q => g q.2) = l.map g := by
  intro n l
  induction l generalizing n with
  | nil => rfl
  | cons a l ih =>
    simp only [List.enumFrom, List.map_cons]
    rw [ih (n + 1)]

theorem mkTextName_inj {a b : Nat} (h : mkTextName a = mkTextName b) : a = b := by
  simp only [mkTextName] at h
  rw [List.append_assoc, List.append_assoc] at h
  exact natStr_inj (digits_append_cancel (natStr a) (natStr b) _ _
    (List.append_cancel_left h) (natStr_digits a) (natStr_digits b)
    (by decide) (by decide)).1

/-- C3 (amended): when every qualifying entry of every valid source is
readable, the content files written by the source loop are exactly
`1.xhtml … N.xhtml` under `OEBPS/Text/` (`N` = total qualifying entries),
in order, with no gaps and no duplicates, and the counter ends at `N`. -/
theorem c3_numbering_amended (srcs : List Source) (cfg : Config)
    (h : allReadable cfg srcs) :
    textNames (combineLoop srcs cfg) =
      (List.range (totalContent cfg srcs)).map (fun k => mkTextName (k + 1)) ∧
    (combineLoop srcs cfg).htmlCounter = totalContent cfg srcs ∧
    (textNames (combineLoop srcs cfg)).Nodup := by
  have hrd : ∀ q ∈ srcs.enum, q.2.isZip = true → ∀ n ∈ orderedContent cfg q.2,
      (q.2.readE n).isSome = true := by
    intro q hq hz n hn
    have hq2 := mem_enumFrom_snd srcs 0 q hq
    exact h q.2 hq2 hz n hn
  obtain ⟨ht, hs, hc⟩ := loopFold_content cfg srcs.enum (initialRunSt cfg) hrd
  have hsum : (srcs.enum.map (fun q => perSourceCount cfg q.2)).sum =
      totalContent cfg srcs := by
    rw [show srcs.enum = srcs.enumFrom 0 from rfl,
      enumFrom_map_snd_f (fun s => perSourceCount cfg s) 0 srcs]
    rfl
  have htinit : textNames (initialRunSt cfg) = [] := by simp [textNames, initialRunSt]
  have heq : textNames (combineLoop srcs cfg) =
      (List.range (totalContent cfg srcs)).map (fun k => mkTextName (k + 1)) := by
    rw [show combineLoop srcs cfg = srcs.enum.foldl (loopStep cfg) (initialRunSt cfg)
      from rfl, ht, htinit, List.nil_append, hsum]
    refine List.map_congr_left ?_
    intro k hk
    rw [show (initialRunSt cfg).htmlCounter + 1 + k = k + 1 from by
      simp [initialRunSt]; omega]
  refine ⟨heq, ?_, ?_⟩
  · rw [show combineLoop srcs cfg = srcs.enum.foldl (loopStep cfg) (initialRunSt cfg)
      from rfl, hc, hsum, show (initialRunSt cfg).htmlCounter = 0 from rfl]
    omega
  · rw [heq]
    refine List.Nodup.map ?_ (List.nodup_range _)
    intro a b hab
    have := mkTextName_inj hab
    omega

/-- C3 counterexample: a source whose first qualifying entry cannot be read
contributes a numbering gap — two qualifying entries, but the only content
file written is `2.xhtml`, not `1.xhtml` and `2.xhtml`. -/
theorem c3_counterexample :
    totalContent cfgDefault [srcUnread] = 2 ∧
    textNames (combineLoop [srcUnread] cfgDefault) = [mkTextName 2] ∧
    textNames (combineLoop [srcUnread] cfgDefault) ≠
      (List.range (totalContent cfgDefault [srcUnread])).map (fun k => mkTextName (k + 1)) :=
  ⟨by decide, by decide, by decide⟩

theorem c3_witness :
    allReadable cfgDefault [srcShared1, srcShared2] ∧
    textNames (combineLoop [srcShared1, srcShared2] cfgDefault) =
      (List.range (totalContent cfgDefault [srcShared1, srcShared2])).map
        (fun k => mkTextName (k + 1)) := by
  have hr : allReadable cfgDefault [srcShared1, srcShared2] := by
    unfold allReadable
    decide
  exact ⟨hr, (c3_numbering_amended [srcShared1, srcShared2] cfgDefault hr).1⟩

/-! ## C2 — spine-first per-source ordering and the combined spine -/

theorem lexLe_total : ∀ a b : Str, lexLe a b = true ∨ lexLe b a = true := by
  intro a
  induction a with
  | nil => intro b; left; rfl
  | cons x a ih =>
    intro b
    cases b with
    | nil => right; rfl
    | cons y b =>
      by_cases hxy : x < y
      · left
        simp [lexLe, hxy]
      · by_cases heq : x = y
        · subst heq
          rcases ih b with h | h
          · left
            simp [lexLe, lt_self_iff_false, h]
          · right
            simp [lexLe, lt_self_iff_false, h]
        · right
          have hyx : y < x := by omega
          simp [lexLe, hyx]

theorem lexLe_trans : ∀ a b c : Str,
    lexLe a b = true → lexLe b c = true → lexLe a c = true := by
  intro a
  induction a with
  | nil => intro b c _ _; rfl
  | cons x a ih =>
    intro b c hab hbc
    cases b with
    | nil => exact absurd hab (by simp [lexLe])
    | cons y b =>
      cases c with
      | nil => exact absurd hbc (by simp [lexLe])
      | cons z c =>
        simp only [lexLe] at hab hbc ⊢
        by_cases hxy : x < y
        · by_cases hyz : y < z
          · rw [if_pos (show x < z by omega)]
          · by_cases hyz2 : y = z
            · subst hyz2
              rw [if_pos hxy]
            · rw [if_neg hyz, if_neg hyz2] at hbc
              exact absurd hbc (by simp)
        · by_cases hxy2 : x = y
          · subst hxy2
            rw [if_neg hxy, if_pos rfl] at hab
            by_cases hyz : x < z
            · rw [if_pos hyz]
            · by_cases hyz2 : x = z
              · subst hyz2
                rw [if_neg hyz, if_pos rfl] at hbc
                rw [if_neg hyz, if_pos rfl]
                exact ih b c hab hbc
              · rw [if_neg hyz, if_neg hyz2] at hbc
                exact absurd hbc (by simp)
          · rw [if_neg hxy, if_neg hxy2] at hab
            exact absurd hab (by simp)

theorem insLe_perm (x : Str) : ∀ l : List Str, (insLe x l).Perm (x :: l) := by
  intro l
  induction l with
  | nil => exact List.Perm.refl _
  | cons y r ih =>
    simp only [insLe]
    split
    · exact List.Perm.refl _
    · exact (ih.cons y).trans (List.Perm.swap x y r)

theorem isort_perm : ∀ l : List Str, (isort l).Perm l := by
  intro l
  induction l with
  | nil => exact List.Perm.refl _
  | cons x r ih =>
    simp only [isort]
    exact (insLe_perm x (isort r)).trans (ih.cons x)

theorem insLe_sorted (x : Str) : ∀ l : List Str,
    List.Pairwise (fun a b => lexLe a b = true) l →
    List.Pairwise (fun a b => lexLe a b = true) (insLe x l) := by
  intro l
  induction l with
  | nil => intro _; exact List.pairwise_singleton _ _
  | cons y r ih =>
    intro hp
    rw [List.pairwise_cons] at hp
    obtain ⟨hy, hr⟩ := hp
    simp only [insLe]
    split
    · next hxy =>
      rw [List.pairwise_cons]
      refine ⟨?_, ?_⟩
      · intro b hb
        rcases List.mem_cons.mp hb with rfl | hb
        · exact hxy
        · exact lexLe_trans x y b hxy (hy b hb)
      · rw [List.pairwise_cons]
        exact ⟨hy, hr⟩
    · next hxy =>
      rw [List.pairwise_cons]
      refine ⟨?_, ih hr⟩
      intro b hb
      have hmem : b = x ∨ b ∈ r := List.mem_cons.mp ((insLe_perm x r).mem_iff.mp hb)
      rcases hmem with rfl | hb2
      · rcases lexLe_total y b with h | h
        · exact h
        · exact absurd h hxy
      · exact hy b hb2

theorem isort_sorted : ∀ l : List Str,
    List.Pairwise (fun a b => lexLe a b = true) (isort l) := by
  intro l
  induction l with
  | nil => exact List.Pairwise.nil
  | cons x r ih =>
    simp only [isort]
    exact insLe_sorted x (isort r) ih

theorem perm_cons_erase_str : ∀ (rem : List Str) (c : Str), c ∈ rem →
    rem.Perm (c :: rem.erase c) := by
  intro rem
  induction rem with
  | nil => intro c h; cases h
  | cons a rem ih =>
    intro c h
    rw [List.erase_cons]
    by_cases hac : a = c
    · subst hac
      rw [if_pos (by simp)]
    · rw [if_neg (by simp [hac])]
      have hcr : c ∈ rem := by
        rcases List.mem_cons.mp h with h1 | h1
        · exact absurd h1.symm hac
        · exact h1
      exact ((ih c hcr).cons a).trans (List.Perm.swap c a _)

theorem msFold_perm : ∀ (spine : List Str) (acc rem : List Str),
    ((spine.foldl msStep (acc, rem)).1 ++ (spine.foldl msStep (acc, rem)).2).Perm
      (acc ++ rem) := by
  intro spine
  induction spine with
  | nil => intro acc rem; exact List.Perm.refl _
  | cons sp spine ih =>
    intro acc rem
    rw [List.foldl_cons]
    cases hf : rem.find? (fun cand => cand == sp || replBS cand == replBS sp) with
    | none =>
      rw [show msStep (acc, rem) sp = (acc, rem) from by simp [msStep, hf]]
      exact ih acc rem
    | some c =>
      rw [show msStep (acc, rem) sp = (acc ++ [c], rem.erase c) from by simp [msStep, hf]]
      have hc : c ∈ rem := List.mem_of_find?_eq_some hf
      refine (ih (acc ++ [c]) (rem.erase c)).trans ?_
      rw [List.append_assoc, List.singleton_append]
      refine List.Perm.append_left acc ?_
      exact (perm_cons_erase_str rem c hc).symm

theorem msFold_matched {Q : Str → Prop} : ∀ (spine : List Str) (acc rem : List Str),
    (∀ x ∈ acc, Q x) →
    (∀ sp ∈ spine, ∀ c, (c == sp || replBS c == replBS sp) = true → Q c) →
    ∀ x ∈ (spine.foldl msStep (acc, rem)).1, Q x := by
  intro spine
  induction spine with
  | nil => intro acc rem hacc _ x hx; exact hacc x hx
  | cons sp spine ih =>
    intro acc rem hacc hsp x hx
    rw [List.foldl_cons] at hx
    cases hf : rem.find? (fun cand => cand == sp || replBS cand == replBS sp) with
    | none =>
      rw [show msStep (acc, rem) sp = (acc, rem) from by simp [msStep, hf]] at hx
      exact ih acc rem hacc (fun s hs => hsp s (List.mem_cons_of_mem sp hs)) x hx
    | some c =>
      rw [show msStep (acc, rem) sp = (acc ++ [c], rem.erase c) from
        by simp [msStep, hf]] at hx
      refine ih (acc ++ [c]) (rem.erase c) ?_
        (fun s hs => hsp s (List.mem_cons_of_mem sp hs)) x hx
      intro z hz
      rcases List.mem_append.mp hz with hz | hz
      · exact hacc z hz
      · rw [List.mem_singleton] at hz
        subst hz
        have hz2 := List.find?_some hf
        exact hsp sp (List.mem_cons_self sp spine) z hz2

/-- C2 (amended): the per-source order is the spine-matched entries (each
equal to a spine entry outright or after backslash-to-slash replacement — not
full path normalization), in spine order, followed by the remaining qualifying
entries sorted lexically; together they are a permutation of the qualifying
entries. The combined spine equals the concatenation of the per-source orders
(as consecutive chapter ids) when every qualifying entry is readable;
unreadable entries are dropped from the spine. -/
theorem c2_spine_amended (srcs : List Source) (cfg : Config) (src : Source) :
    (orderedContent cfg src =
      (matchSpine src.spine (dedupFirst (allContentOf cfg src))).1 ++
        isort (matchSpine src.spine (dedupFirst (allContentOf cfg src))).2) ∧
    (∀ x ∈ (matchSpine src.spine (dedupFirst (allContentOf cfg src))).1,
      ∃ sp ∈ src.spine, x = sp ∨ replBS x = replBS sp) ∧
    ((orderedContent cfg src).Perm (dedupFirst (allContentOf cfg src))) ∧
    (List.Pairwise (fun a b => lexLe a b = true)
      (isort (matchSpine src.spine (dedupFirst (allContentOf cfg src))).2)) ∧
    (allReadable cfg srcs →
      (combineLoop srcs cfg).spineIds =
        (List.range (totalContent cfg srcs)).map (fun k => mkChapterId (k + 1))) := by
  refine ⟨rfl, ?_, ?_, isort_sorted _, ?_⟩
  · refine msFold_matched src.spine [] (dedupFirst (allContentOf cfg src))
      (by intro x hx; cases hx) ?_
    intro sp hsp c hc
    rw [Bool.or_eq_true] at hc
    rcases hc with h | h
    · exact ⟨sp, hsp, Or.inl (beq_iff_eq.mp h)⟩
    · exact ⟨sp, hsp, Or.inr (beq_iff_eq.mp h)⟩
  · have h1 : (orderedContent cfg src).Perm
        ((matchSpine src.spine (dedupFirst (allContentOf cfg src))).1 ++
          (matchSpine src.spine (dedupFirst (allContentOf cfg src))).2) :=
      List.Perm.append_left _ (isort_perm _)
    have h2 := msFold_perm src.spine [] (dedupFirst (allContentOf cfg src))
    rw [List.nil_append] at h2
    exact h1.trans h2
  · intro h
    have hrd : ∀ q ∈ srcs.enum, q.2.isZip = true → ∀ n ∈ orderedContent cfg q.2,
        (q.2.readE n).isSome = true := by
      intro q hq hz n hn
      exact h q.2 (mem_enumFrom_snd srcs 0 q hq) hz n hn
    obtain ⟨ht, hs, hc⟩ := loopFold_content cfg srcs.enum (initialRunSt cfg) hrd
    have hsum : (srcs.enum.map (fun q => perSourceCount cfg q.2)).sum =
        totalContent cfg srcs := by
      rw [show srcs.enum = srcs.enumFrom 0 from rfl,
        enumFrom_map_snd_f (fun s => perSourceCount cfg s) 0 srcs]
      rfl
    rw [show combineLoop srcs cfg = srcs.enum.foldl (loopStep cfg) (initialRunSt cfg)
      from rfl, hs, hsum, show (initialRunSt cfg).spineIds = [] from rfl, List.nil_append]
    refine List.map_congr_left ?_
    intro k hk
    rw [show (initialRunSt cfg).htmlCounter + 1 + k = k + 1 from by
      simp [initialRunSt]; omega]

/-- C2 counterexample, both corrections. Matching discipline: the spine entry
`b%2Exhtml` equals the entry `b.xhtml` under the canonical-key normalization
(the claim's "normalized-path equality"), so the spec-worded matcher puts
`b.xhtml` first; the code compares only textually / after backslash
replacement, misses the match, and sorts both entries instead — the two
orders differ. Spine concatenation: with an unreadable first entry the
combined spine is not the concatenation of the per-source orders — the source
contributes two ordered entries but only `chapter_2` reaches the spine. -/
theorem c2_counterexample :
    (normKey (ofStr "b.xhtml") = normKey (ofStr "b%2Exhtml")) ∧
    (orderedContentSpec cfgDefault srcEnc = [ofStr "b.xhtml", ofStr "a.xhtml"]) ∧
    (orderedContent cfgDefault srcEnc = [ofStr "a.xhtml", ofStr "b.xhtml"]) ∧
    (orderedContent cfgDefault srcEnc ≠ orderedContentSpec cfgDefault srcEnc) ∧
    (orderedContent cfgDefault srcUnread).length = 2 ∧
    (combineLoop [srcUnread] cfgDefault).spineIds = [mkChapterId 2] ∧
    (combineLoop [srcUnread] cfgDefault).spineIds ≠
      (List.range (totalContent cfgDefault [srcUnread])).map
        (fun k => mkChapterId (k + 1)) :=
  ⟨by decide, by decide, by decide, by decide, by decide, by decide, by decide⟩

theorem c2_witness :
    (combineLoop [srcShared1, srcShared2] cfgDefault).spineIds =
      (List.range (totalContent cfgDefault [srcShared1, srcShared2])).map
        (fun k => mkChapterId (k + 1)) := by
  have hr : allReadable cfgDefault [srcShared1, srcShared2] := by
    unfold allReadable
    decide
  exact (c2_spine_amended [srcShared1, srcShared2] cfgDefault srcShared1).2.2.2.2 hr
